import Mathlib

/-!
# Verification of `torchrec/distributed/planner/partitioners.py`

A shallow embedding of the greedy perf partitioner, the co-host packer, the
uniform packer and the memory-balanced (binary search) partitioner, together
with proofs of the specification's claims about them.

Python's in-place mutation of shared objects is modelled by explicit state
threading.  Shard `rank` fields are threaded through the proposal list (the
proposal positions play the role of the Python object identities); device
objects are identified by their `rank` field, which the standard topology
constructor makes unique (equal to the device's position).
-/

set_option maxHeartbeats 1600000

deriving instance DecidableEq for Except

namespace Torchrec

/-- Modelled from the spec: the per-device capacity value type (`Storage` in
`planner/types.py`, which is not under `src/`): a two-pool resource vector with
`hbm` and `ddr` byte counts, componentwise addition and subtraction. -/
structure Storage where
  hbm : Int
  ddr : Int
  deriving Repr, DecidableEq

instance : Add Storage := ⟨fun a b => ⟨a.hbm + b.hbm, a.ddr + b.ddr⟩⟩

instance : Sub Storage := ⟨fun a b => ⟨a.hbm - b.hbm, a.ddr - b.ddr⟩⟩

/-- Modelled from the spec: the "fits within" predicate of the capacity model:
both pools must fit. -/
def Storage.fits_in (a b : Storage) : Bool :=
  decide (a.hbm ≤ b.hbm) && decide (a.ddr ≤ b.ddr)

/-- Modelled from the spec: `Storage` is an order-comparable dataclass; Python
dataclass ordering compares the field tuple `(hbm, ddr)` lexicographically.
Used by the `max(...)` diagnostic and by the descending group sort. -/
def Storage.lt (a b : Storage) : Bool :=
  decide (a.hbm < b.hbm) || (decide (a.hbm = b.hbm) && decide (a.ddr < b.ddr))

def Storage.le (a b : Storage) : Bool :=
  Storage.lt a b || decide (a = b)

/-- Componentwise `0 ≤ s` ("the zero vector componentwise"). -/
def Storage.nonneg (s : Storage) : Prop := 0 ≤ s.hbm ∧ 0 ≤ s.ddr

instance (s : Storage) : Decidable s.nonneg :=
  inferInstanceAs (Decidable (0 ≤ s.hbm ∧ 0 ≤ s.ddr))

/-- Python `repr` of the `Storage` dataclass, as interpolated into error
messages by f-strings. -/
def Storage.reprStr (s : Storage) : String :=
  "Storage(hbm=" ++ toString s.hbm ++ ", ddr=" ++ toString s.ddr ++ ")"

/-- Modelled from the spec: the accumulated-cost value type (`Perf`).  The
source dataclass is a vector of components whose `total` is their sum; the
partitioners use only `perf.total` (sort keys) and componentwise `+`, so the
embedding carries the (exact, integer-valued) total.  Python floats are
modelled by exact integers. -/
structure Perf where
  total : Int
  deriving Repr, DecidableEq

instance : Add Perf := ⟨fun a b => ⟨a.total + b.total⟩⟩

/-- Modelled from the spec: one shard of a placement unit: a capacity
footprint, a cost contribution, and a mutable assigned device rank (initially
unset).  The source declares `storage` optional but every partitioner path
casts it non-null, so it is carried directly. -/
structure Shard where
  storage : Storage
  perf : Perf
  rank : Option Nat
  deriving Repr, DecidableEq

/-- `PartitionByType.UNIFORM.value` in the source. -/
def PartitionByType.UNIFORM : String := "uniform"

/-- `PartitionByType.DEVICE.value` in the source. -/
def PartitionByType.DEVICE : String := "device"

/-- `PartitionByType.HOST.value` in the source. -/
def PartitionByType.HOST : String := "host"

/-- `ShardingType.TABLE_ROW_WISE.value` in the source. -/
def ShardingType.TABLE_ROW_WISE : String := "table_row_wise"

/-- `ShardingType.TABLE_COLUMN_WISE.value` in the source. -/
def ShardingType.TABLE_COLUMN_WISE : String := "table_column_wise"

/-- Modelled from the spec: a placement unit (`ShardingOption`): identity
(`fqn` is `path`.`name`), an optional dependency key, a placement-strategy
tag, a sharding type, and its ordered shards. -/
structure ShardingOption where
  name : String
  path : String
  dependency : Option String
  partition_by : String
  sharding_type : String
  shards : List Shard
  deriving Repr, DecidableEq

def ShardingOption.fqn (so : ShardingOption) : String := so.path ++ "." ++ so.name

def ShardingOption.num_shards (so : ShardingOption) : Nat := so.shards.length

/-- Modelled from the spec: the unit's aggregate capacity requirement, the sum
of its shards' storages. -/
def ShardingOption.total_storage (so : ShardingOption) : Storage :=
  so.shards.foldl (fun acc s => acc + s.storage) ⟨0, 0⟩

/-- Modelled from the spec: a device: a stable rank, remaining capacity, and
an accumulated cost. -/
structure DeviceHardware where
  rank : Nat
  storage : Storage
  perf : Perf
  deriving Repr, DecidableEq

/-- Modelled from the spec: an ordered device list plus the host size
(`local_world_size`); the world size is the device count. -/
structure Topology where
  devices : List DeviceHardware
  local_world_size : Nat
  deriving Repr, DecidableEq

def Topology.world_size (t : Topology) : Nat := t.devices.length

/-- The standard topology shape: device ranks are exactly the positions
`0, 1, ...` (hence unique), and hosts are nonempty.  The torchrec `Topology`
constructor always produces this shape. -/
def TopologyWF (t : Topology) : Prop :=
  t.devices.map DeviceHardware.rank = List.range t.devices.length ∧
    0 < t.local_world_size

instance (t : Topology) : Decidable (TopologyWF t) :=
  inferInstanceAs (Decidable (_ ∧ _))

/-- `ShardingOptionGroup` dataclass from the source. -/
structure ShardingOptionGroup where
  sharding_options : List ShardingOption
  storage_sum : Storage
  deriving Repr, DecidableEq

/-- The failures the partitioners can raise, carried structurally.  The first
three constructors are `PlannerError(error_type=PARTITION, ...)` (with the
data their messages interpolate); the remaining ones are Python
`RuntimeError` / `AssertionError`, which no partitioner layer catches. -/
inductive PErr where
  | devicePartitionError (shard : Shard) (tableName : String) (largest : Option Storage)
  | uniformPartitionError (needed : Storage) (cap : Storage)
  | cohostPartitionError (group : ShardingOptionGroup)
  | uniformCountError (numShards : Nat) (numDevices : Nat)
  | cohostShardingTypeError (shardingType : String)
  | unexpectedGroupError (group : ShardingOptionGroup)
  | assertionError (numOptions : Nat)
  deriving Repr, DecidableEq

/-- Which errors are `PlannerError`s (the class caught by
`_cohost_partition`'s handler and by the memory-balance search loop). -/
def PErr.isPlannerError : PErr → Bool
  | .devicePartitionError _ _ _ => true
  | .uniformPartitionError _ _ => true
  | .cohostPartitionError _ => true
  | .uniformCountError _ _ => false
  | .cohostShardingTypeError _ => false
  | .unexpectedGroupError _ => false
  | .assertionError _ => false

/-- The exact message of the `PlannerError` raised by `_uniform_partition`
(source line 306): it interpolates only the shard's storage and the device's
storage. -/
def uniformPartitionMessage (needed cap : Storage) : String :=
  "Shard of size " ++ needed.reprStr ++ " bytes does not fit on any rank. " ++
    "Device memory cap: " ++ cap.reprStr ++ "."

/-! ## Stable sorting

Python's `list.sort` / `sorted` are stable sorts.  A stable sort with respect
to a total preorder is uniquely determined by the input, so the embedding may
use any stable sort; it uses a stable insertion sort.  `le a b = true` means
`a` may stay in front of `b` (ascending order). -/

def insertStable (le : α → α → Bool) (x : α) : List α → List α
  | [] => [x]
  | y :: ys => if le y x && !(le x y) then y :: insertStable le x ys else x :: y :: ys

def pySort (le : α → α → Bool) : List α → List α
  | [] => []
  | x :: xs => insertStable le x (pySort le xs)

/-! ## Source helpers -/

/-- `_get_perf_sum` from `_sort_devices_by_perf`. -/
def _get_perf_sum (device_list : List DeviceHardware) : Int :=
  device_list.foldl (fun perf device => perf + device.perf.total) 0

/-- `_sort_devices_by_perf`: sort host device-groups by ascending perf sum. -/
def _sort_devices_by_perf (devices : List (List DeviceHardware)) :
    List (List DeviceHardware) :=
  pySort (fun a b => decide (_get_perf_sum a ≤ _get_perf_sum b)) devices

/-- `_get_uniform_sharding_options`. -/
def _get_uniform_sharding_options (sharding_options : List ShardingOption) :
    List ShardingOption :=
  sharding_options.filter (fun so => decide (so.partition_by = PartitionByType.UNIFORM))

/-- The grouping key: `sharding_option.dependency or sharding_option.fqn`
(Python `or`: an absent or empty dependency string falls back to the fqn). -/
def groupKey (so : ShardingOption) : String :=
  match so.dependency with
  | some d => if d = "" then so.fqn else d
  | none => so.fqn

/-- A sharding-option group carrying the proposal positions of its members
(the positions model the Python object identities). -/
structure IdxGroup where
  options : List (Nat × ShardingOption)
  storage_sum : Storage
  deriving Repr, DecidableEq

/-- One dict-insertion step of `_group_and_sort_non_uniform_sharding_options`:
append to an existing group of the same key (updating its storage sum), else
append a fresh group (Python dicts preserve insertion order). -/
def insertGrouped (m : List (String × IdxGroup)) (i : Nat) (so : ShardingOption) :
    List (String × IdxGroup) :=
  if m.any (fun kv => kv.1 == groupKey so) then
    m.map (fun kv =>
      if kv.1 = groupKey so then
        (kv.1, ⟨kv.2.options ++ [(i, so)], kv.2.storage_sum + so.total_storage⟩)
      else kv)
  else m ++ [(groupKey so, ⟨[(i, so)], so.total_storage⟩)]

/-- The grouping loop: skip uniform options, insert the rest. -/
def buildGroups : List (Nat × ShardingOption) → List (String × IdxGroup) →
    List (String × IdxGroup)
  | [], m => m
  | (i, so) :: rest, m =>
    if so.partition_by = PartitionByType.UNIFORM then buildGroups rest m
    else buildGroups rest (insertGrouped m i so)

/-- `sort(key=lambda group: group.storage_sum, reverse=True)`: stable
descending sort, i.e. ascending with the flipped key. -/
def groupDescLe (a b : IdxGroup) : Bool := Storage.le b.storage_sum a.storage_sum

/-- `_group_and_sort_non_uniform_sharding_options` over position-tagged
options. -/
def groupNonUniformIdx (sharding_options : List (Nat × ShardingOption)) :
    List IdxGroup :=
  pySort groupDescLe ((buildGroups sharding_options []).map Prod.snd)

/-- `_group_and_sort_non_uniform_sharding_options` as in the source (positions
erased). -/
def _group_and_sort_non_uniform_sharding_options
    (sharding_options : List ShardingOption) : List ShardingOptionGroup :=
  (groupNonUniformIdx sharding_options.enum).map
    (fun g => ⟨g.options.map Prod.snd, g.storage_sum⟩)

/-! ## `GreedyPerfPartitioner._device_partition` -/

/-- The device sort key of `_device_partition`: ascending
`(perf.total, rank % local_world_size)`, lexicographically. -/
def deviceSortLe (local_world_size : Nat) (a b : DeviceHardware) : Bool :=
  decide (a.perf.total < b.perf.total) ||
    (decide (a.perf.total = b.perf.total) &&
      decide (a.rank % local_world_size ≤ b.rank % local_world_size))

/-- Scan for the first device whose remaining storage admits the shard; on a
hit, that device's storage is decremented and its perf incremented, and the
device's rank is returned for the shard. -/
def assignFirstFit (shard : Shard) : List DeviceHardware →
    Option (Nat × List DeviceHardware)
  | [] => none
  | d :: ds =>
    if shard.storage.fits_in d.storage then
      some (d.rank,
        {d with storage := d.storage - shard.storage, perf := d.perf + shard.perf} :: ds)
    else
      match assignFirstFit shard ds with
      | some (r, ds') => some (r, d :: ds')
      | none => none

/-- Python `max(devices, key=lambda device: device.storage).storage`: the
first maximal storage (Python `max` keeps the earliest of equal keys); `none`
for an empty list (where the source would raise `ValueError`). -/
def maxStorage : List DeviceHardware → Option Storage
  | [] => none
  | d :: ds =>
    some ((ds.foldl (fun best x => if best.storage.lt x.storage then x else best) d).storage)

/-- The per-shard loop of `_device_partition`: sort the device list in place
(stable, by `deviceSortLe`), assign the shard to the first fitting device,
else raise `PlannerError` reporting the largest remaining device storage.
Returns (result, shards with ranks as mutated, device list as mutated). -/
def _device_partition_go (tableName : String) (local_world_size : Nat) :
    List Shard → List DeviceHardware →
    Except PErr Unit × List Shard × List DeviceHardware
  | [], devices => (.ok (), [], devices)
  | shard :: rest, devices =>
    let sorted := pySort (deviceSortLe local_world_size) devices
    match assignFirstFit shard sorted with
    | some (r, devices') =>
      let res := _device_partition_go tableName local_world_size rest devices'
      (res.1, {shard with rank := some r} :: res.2.1, res.2.2)
    | none =>
      (.error (.devicePartitionError shard tableName (maxStorage sorted)),
        shard :: rest, sorted)

/-- `GreedyPerfPartitioner._device_partition`. -/
def GreedyPerfPartitioner._device_partition (sharding_option : ShardingOption)
    (devices : List DeviceHardware) (local_world_size : Nat) :
    Except PErr Unit × ShardingOption × List DeviceHardware :=
  let res := _device_partition_go sharding_option.name local_world_size
    sharding_option.shards devices
  (res.1, {sharding_option with shards := res.2.1}, res.2.2)

/-! ## `GreedyPerfPartitioner._uniform_partition` -/

/-- The positional loop of `_uniform_partition` for one option: shard `i` must
fit device `i`; on success the shard gets device `i`'s rank and the device is
updated.  (The list-length mismatch cases cannot occur: the caller checks
`num_shards = len(devices)` first.) -/
def uniformAssign : List Shard → List DeviceHardware →
    Except PErr Unit × List Shard × List DeviceHardware
  | [], devices => (.ok (), [], devices)
  | shard :: srest, [] => (.ok (), shard :: srest, [])
  | shard :: srest, device :: drest =>
    if shard.storage.fits_in device.storage then
      let res := uniformAssign srest drest
      let device' : DeviceHardware :=
        ⟨device.rank, device.storage - shard.storage, device.perf + shard.perf⟩
      (res.1, {shard with rank := some device.rank} :: res.2.1, device' :: res.2.2)
    else
      (.error (.uniformPartitionError shard.storage device.storage),
        shard :: srest, device :: drest)

/-- `GreedyPerfPartitioner._uniform_partition` for a single option: the shard
count must equal the device count (else `RuntimeError`), then assign
positionally. -/
def GreedyPerfPartitioner._uniform_partition_one (sharding_option : ShardingOption)
    (devices : List DeviceHardware) :
    Except PErr Unit × ShardingOption × List DeviceHardware :=
  if sharding_option.num_shards ≠ devices.length then
    (.error (.uniformCountError sharding_option.num_shards devices.length),
      sharding_option, devices)
  else
    let res := uniformAssign sharding_option.shards devices
    (res.1, {sharding_option with shards := res.2.1}, res.2.2)

/-- `GreedyPerfPartitioner._uniform_partition` over a list of options. -/
def GreedyPerfPartitioner._uniform_partition :
    List ShardingOption → List DeviceHardware →
    Except PErr Unit × List ShardingOption × List DeviceHardware
  | [], devices => (.ok (), [], devices)
  | so :: rest, devices =>
    match GreedyPerfPartitioner._uniform_partition_one so devices with
    | (.ok _, so', devices') =>
      let res := GreedyPerfPartitioner._uniform_partition rest devices'
      (res.1, so' :: res.2.1, res.2.2)
    | (.error e, so', devices') => (.error e, so' :: rest, devices')

/-! ## `GreedyPerfPartitioner._cohost_partition`

The trial host devices are a deep copy, so a failed trial discards its device
mutations; the sharding options' shard ranks, however, are written on the real
objects and survive a failed trial (they are threaded through). -/

/-- Outcome of trying to place the whole group on one trial host. -/
inductive TrialOutcome where
  | success (options : List (Nat × ShardingOption)) (devices : List DeviceHardware)
  | plannerFail (options : List (Nat × ShardingOption))
  | fatal (e : PErr) (options : List (Nat × ShardingOption))
  deriving Repr, DecidableEq

/-- The per-option loop inside a host trial: TABLE_ROW_WISE options go to the
uniform packer, TABLE_COLUMN_WISE options to the device packer (with
`local_world_size = len(host_devices)`); any other sharding type raises
`RuntimeError`.  Only `PlannerError`s are caught (abandon this host). -/
def cohostTrialGo : List (Nat × ShardingOption) → List DeviceHardware → TrialOutcome
  | [], devices => .success [] devices
  | (i, so) :: rest, devices =>
    if so.sharding_type = ShardingType.TABLE_ROW_WISE then
      match GreedyPerfPartitioner._uniform_partition_one so devices with
      | (.ok _, so', devices') =>
        match cohostTrialGo rest devices' with
        | .success rest' devices'' => .success ((i, so') :: rest') devices''
        | .plannerFail rest' => .plannerFail ((i, so') :: rest')
        | .fatal e rest' => .fatal e ((i, so') :: rest')
      | (.error e, so', _) =>
        if e.isPlannerError then .plannerFail ((i, so') :: rest)
        else .fatal e ((i, so') :: rest)
    else if so.sharding_type = ShardingType.TABLE_COLUMN_WISE then
      match GreedyPerfPartitioner._device_partition so devices devices.length with
      | (.ok _, so', devices') =>
        match cohostTrialGo rest devices' with
        | .success rest' devices'' => .success ((i, so') :: rest') devices''
        | .plannerFail rest' => .plannerFail ((i, so') :: rest')
        | .fatal e rest' => .fatal e ((i, so') :: rest')
      | (.error e, so', _) =>
        if e.isPlannerError then .plannerFail ((i, so') :: rest)
        else .fatal e ((i, so') :: rest)
    else .fatal (.cohostShardingTypeError so.sharding_type) ((i, so) :: rest)

/-- `host_storage`: the host's total remaining storage. -/
def hostStorage (devices : List DeviceHardware) : Storage :=
  devices.foldl (fun acc device => acc + device.storage) ⟨0, 0⟩

/-- The trial loop of `_cohost_partition` over perf-sorted hosts (tagged with
their original position).  A host whose total storage does not admit the
group's storage sum is skipped without touching anything; a `PlannerError`
abandons the host but keeps the shard-rank mutations; on full success the
trial devices are re-sorted by rank and their storage/perf are copied back
onto the host's real devices. -/
def cohostGo (storage_sum : Storage) :
    List (Nat × List DeviceHardware) → List (Nat × ShardingOption) →
    Except PErr (Nat × List DeviceHardware) × List (Nat × ShardingOption)
  | [], options =>
    (.error (.cohostPartitionError ⟨options.map Prod.snd, storage_sum⟩), options)
  | (hi, devices) :: rest, options =>
    if !(storage_sum.fits_in (hostStorage devices)) then
      cohostGo storage_sum rest options
    else
      match cohostTrialGo options devices with
      | .success options' trialDevices =>
        let sortedTrial := pySort (fun a b => decide (a.rank ≤ b.rank)) trialDevices
        let committed := devices.zipWith
          (fun device deviceCopy =>
            {device with storage := deviceCopy.storage, perf := deviceCopy.perf})
          sortedTrial
        (.ok (hi, committed), options')
      | .plannerFail options' => cohostGo storage_sum rest options'
      | .fatal e options' => (.error e, options')

/-- `GreedyPerfPartitioner._cohost_partition`: returns the updated host-level
device lists (only the committed host changes) together with the group's
options as mutated. -/
def GreedyPerfPartitioner._cohost_partition (options : List (Nat × ShardingOption))
    (storage_sum : Storage) (hosts : List (List DeviceHardware)) :
    Except PErr Unit × List (Nat × ShardingOption) × List (List DeviceHardware) :=
  let sortedHosts := pySort
    (fun a b => decide (_get_perf_sum a.2 ≤ _get_perf_sum b.2)) hosts.enum
  match cohostGo storage_sum sortedHosts options with
  | (.ok (hi, committed), options') => (.ok (), options', hosts.set hi committed)
  | (.error e, options') => (.error e, options', hosts)

/-! ## `GreedyPerfPartitioner.partition` -/

/-- `_get_host_level_devices`: the first `world_size / local_world_size`
chunks of `local_world_size` consecutive devices. -/
def GreedyPerfPartitioner._get_host_level_devices (t : Topology) :
    List (List DeviceHardware) :=
  (List.range (t.world_size / t.local_world_size)).map
    (fun i => (t.devices.drop (i * t.local_world_size)).take t.local_world_size)

/-- Write mutated options back into the proposal at their positions
(sequential in-place mutation of the Python objects). -/
def updProposal (proposal : List ShardingOption)
    (upds : List (Nat × ShardingOption)) : List ShardingOption :=
  upds.foldl (fun acc iso => acc.set iso.1 iso.2) proposal

/-- Mirror mutations of shared device objects into another view of the same
objects: each device takes the value of the device with its rank in `src`
(ranks are unique in a well-formed topology). -/
def refreshByRank (src : List DeviceHardware) (xs : List DeviceHardware) :
    List DeviceHardware :=
  xs.map (fun d => ((src.find? (fun s => s.rank == d.rank)).getD d))

/-- The uniform pass over the position-tagged uniform options (the source
filters them and runs `_uniform_partition` on `_topology.devices`). -/
def uniformPassGo : List (Nat × ShardingOption) → List DeviceHardware →
    Except PErr Unit × List (Nat × ShardingOption) × List DeviceHardware
  | [], devices => (.ok (), [], devices)
  | (i, so) :: rest, devices =>
    match GreedyPerfPartitioner._uniform_partition_one so devices with
    | (.ok _, so', devices') =>
      let res := uniformPassGo rest devices'
      (res.1, (i, so') :: res.2.1, res.2.2)
    | (.error e, so', devices') => (.error e, (i, so') :: rest, devices')

/-- The mutable state of one orchestration pass: the proposal (shard ranks),
the working topology's devices in topology order, and the `sorted_devices`
view (same device objects, in their current almost-sorted order). -/
structure OrchState where
  proposal : List ShardingOption
  tdevs : List DeviceHardware
  sortedDevs : List DeviceHardware
  deriving Repr, DecidableEq

/-- One iteration of the dispatch loop of `partition`: a host-scoped group
goes to the co-host packer (against the host-level chunks of the working
topology), a device-scoped group must be a singleton (Python `assert`) and
goes to the greedy device packer against the `sorted_devices` view; an
unrecognized tag raises `RuntimeError`.  (The empty-group branch is
unreachable: `buildGroups` only creates nonempty groups; the source would
raise `IndexError` there.) -/
def dispatchStep (lws : Nat) (g : IdxGroup) (st : OrchState) :
    Except PErr Unit × OrchState :=
  match g.options with
  | [] => (.error (.unexpectedGroupError ⟨[], g.storage_sum⟩), st)
  | (i0, so0) :: _ =>
    if so0.partition_by = PartitionByType.HOST then
      let hosts := GreedyPerfPartitioner._get_host_level_devices ⟨st.tdevs, lws⟩
      match GreedyPerfPartitioner._cohost_partition g.options g.storage_sum hosts with
      | (.ok _, options', hosts') =>
        let tdevs' := hosts'.flatten ++ st.tdevs.drop ((st.tdevs.length / lws) * lws)
        (.ok (),
          ⟨updProposal st.proposal options', tdevs', refreshByRank tdevs' st.sortedDevs⟩)
      | (.error e, options', _) =>
        (.error e, ⟨updProposal st.proposal options', st.tdevs, st.sortedDevs⟩)
    else if so0.partition_by = PartitionByType.DEVICE then
      if g.options.length = 1 then
        match GreedyPerfPartitioner._device_partition so0 st.sortedDevs lws with
        | (.ok _, so', sortedDevs') =>
          (.ok (), ⟨updProposal st.proposal [(i0, so')],
            refreshByRank sortedDevs' st.tdevs, sortedDevs'⟩)
        | (.error e, so', sortedDevs') =>
          (.error e, ⟨updProposal st.proposal [(i0, so')],
            refreshByRank sortedDevs' st.tdevs, sortedDevs'⟩)
      else (.error (.assertionError g.options.length), st)
    else
      (.error (.unexpectedGroupError ⟨g.options.map Prod.snd, g.storage_sum⟩), st)

/-- The dispatch loop of `partition` over the sorted non-uniform groups:
fail-fast sequential dispatch. -/
def dispatchGroups (lws : Nat) : List IdxGroup → OrchState →
    Except PErr Unit × OrchState
  | [], st => (.ok (), st)
  | g :: rest, st =>
    match dispatchStep lws g st with
    | (.ok _, st') => dispatchGroups lws rest st'
    | (.error e, st') => (.error e, st')

/-- The body of `GreedyPerfPartitioner.partition`: deep-copy the topology
(value semantics), run the uniform pass, group and sort the rest, dispatch.
Returns (result, the caller's proposal object as mutated, `self._topology`,
which is assigned only on success). -/
def GreedyPerfPartitioner.partitionCore (proposal : List ShardingOption)
    (storage_constraint : Topology) :
    Except PErr Unit × List ShardingOption × Option Topology :=
  let _topology := storage_constraint
  let uniformIdx := proposal.enum.filter
    (fun iso => decide (iso.2.partition_by = PartitionByType.UNIFORM))
  match uniformPassGo uniformIdx _topology.devices with
  | (.error e, usos, _) => (.error e, updProposal proposal usos, none)
  | (.ok _, usos, devs) =>
    let proposal1 := updProposal proposal usos
    let groups := groupNonUniformIdx proposal1.enum
    match dispatchGroups _topology.local_world_size groups ⟨proposal1, devs, devs⟩ with
    | (.ok _, st) => (.ok (), st.proposal, some ⟨st.tdevs, _topology.local_world_size⟩)
    | (.error e, st) => (.error e, st.proposal, none)

/-- Everything observable after a `GreedyPerfPartitioner.partition` call:
the result, the caller's proposal list (mutated in place), `self._topology`
(set on success), and the caller's `storage_constraint` object after the call
(the source mutates only its deep copy, never the argument). -/
structure PartitionResult where
  result : Except PErr Unit
  proposal : List ShardingOption
  internalTopology : Option Topology
  callerTopology : Topology
  deriving Repr, DecidableEq

/-- `GreedyPerfPartitioner.partition`. -/
def GreedyPerfPartitioner.partition (proposal : List ShardingOption)
    (storage_constraint : Topology) : PartitionResult :=
  let res := GreedyPerfPartitioner.partitionCore proposal storage_constraint
  ⟨res.1, res.2.1, res.2.2, storage_constraint⟩

/-! ## `MemoryBalancedPartitioner.partition` -/

/-- Modelled from the spec: `reset_shard_rank` from `planner/utils.py` (not
under `src/`): reset every shard's rank to unassigned before a fresh
placement attempt. -/
def reset_shard_rank (proposal : List ShardingOption) : List ShardingOption :=
  proposal.map (fun so => {so with shards := so.shards.map (fun s => {s with rank := none})})

/-- `set_hbm_per_device`: cap every device's hbm pool. -/
def set_hbm_per_device (storage_constraint : Topology) (hbm_per_device : Int) :
    Topology :=
  {storage_constraint with
    devices := storage_constraint.devices.map
      (fun d => {d with storage := {d.storage with hbm := hbm_per_device}})}

/-- The state of the binary search loop. -/
structure MBState where
  minHbm : Int
  maxHbm : Int
  defaultPlan : List ShardingOption
  proposal : List ShardingOption
  topology : Topology
  searchCount : Nat
  deriving Repr, DecidableEq

/-- The `while` loop of `MemoryBalancedPartitioner.partition`, with the
remaining iteration budget as fuel (`fuel + searchCount = max_search_count`).
Only `PlannerError`s are caught; any other error propagates to the caller.
The injected perf model `rate` is a pure function (spec section 6); the
tolerance is an exact rational. -/
def mbLoop (tolerance : ℚ) (rate : List ShardingOption → Int)
    (originalPlanPerf : Int) : Nat → MBState → Except PErr MBState
  | 0, st => .ok st
  | fuel + 1, st =>
    if st.minHbm + 10 * 1024 ^ 2 < st.maxHbm then
      let proposal1 := reset_shard_rank st.proposal
      let mid := Int.fdiv (st.maxHbm + st.minHbm) 2
      let topo1 := set_hbm_per_device st.topology mid
      let pr := GreedyPerfPartitioner.partition proposal1 topo1
      match pr.result with
      | .ok _ =>
        let newPlanPerf := rate pr.proposal
        if (newPlanPerf : ℚ) > (originalPlanPerf : ℚ) * (1 + tolerance) then
          mbLoop tolerance rate originalPlanPerf fuel
            ⟨mid, st.maxHbm, st.defaultPlan, pr.proposal, topo1, st.searchCount + 1⟩
        else
          mbLoop tolerance rate originalPlanPerf fuel
            ⟨st.minHbm, mid, pr.proposal, pr.proposal, topo1, st.searchCount + 1⟩
      | .error e =>
        if e.isPlannerError then
          mbLoop tolerance rate originalPlanPerf fuel
            ⟨mid, st.maxHbm, st.defaultPlan, pr.proposal, topo1, st.searchCount + 1⟩
        else .error e
    else .ok st

/-- Everything observable after `MemoryBalancedPartitioner.partition`. -/
structure MBResult where
  result : Except PErr (List ShardingOption)
  searchCount : Nat
  finalMin : Int
  finalMax : Int
  deriving Repr, DecidableEq

/-- `hbm_requirement`: total hbm over all shards of the proposal. -/
def hbmRequirement (proposal : List ShardingOption) : Int :=
  proposal.foldl
    (fun acc so => so.shards.foldl (fun acc2 s => acc2 + s.storage.hbm) acc) 0

/-- `MemoryBalancedPartitioner.partition`: compute the unconstrained baseline
plan, rate it, then binary-search the per-device hbm cap, keeping the best
tolerance-respecting plan.  `int(hbm_requirement / world_size)` truncates the
(exact) quotient toward zero.  (On an empty topology the source would raise
`IndexError` at `devices[0]`.) -/
def MemoryBalancedPartitioner.partition (max_search_count : Nat) (tolerance : ℚ)
    (rate : List ShardingOption → Int) (proposal : List ShardingOption)
    (storage_constraint : Topology) : MBResult :=
  let _topology := storage_constraint
  let pr0 := GreedyPerfPartitioner.partition proposal _topology
  match pr0.result with
  | .error e => ⟨.error e, 0, 0, 0⟩
  | .ok _ =>
    let default_plan := pr0.proposal
    let originalPlanPerf := rate default_plan
    let maxHbm := (_topology.devices.head?.elim 0 (fun d => d.storage.hbm))
    let minHbm := Int.tdiv (hbmRequirement pr0.proposal) (Int.ofNat _topology.world_size)
    match mbLoop tolerance rate originalPlanPerf max_search_count
        ⟨minHbm, maxHbm, default_plan, pr0.proposal, _topology, 0⟩ with
    | .ok st => ⟨.ok st.defaultPlan, st.searchCount, st.minHbm, st.maxHbm⟩
    | .error e => ⟨.error e, 0, 0, 0⟩

/-! ## Generic lemmas about the stable sort -/

theorem insertStable_perm (le : α → α → Bool) (x : α) (l : List α) :
    List.Perm (insertStable le x l) (x :: l) := by
  induction l with
  | nil => simp [insertStable]
  | cons y ys ih =>
    by_cases h : (le y x && !(le x y)) = true
    · simpa [insertStable, h] using (ih.cons y).trans (List.Perm.swap x y ys)
    · simp [insertStable, h]

theorem pySort_perm (le : α → α → Bool) (l : List α) :
    List.Perm (pySort le l) l := by
  induction l with
  | nil => simp [pySort]
  | cons x xs ih => exact (insertStable_perm le x (pySort le xs)).trans (ih.cons x)

theorem pySort_length (le : α → α → Bool) (l : List α) :
    (pySort le l).length = l.length :=
  (pySort_perm le l).length_eq

theorem pySort_mem (le : α → α → Bool) (l : List α) (x : α) :
    x ∈ pySort le l ↔ x ∈ l :=
  (pySort_perm le l).mem_iff

theorem insertStable_pairwise (le : α → α → Bool)
    (htot : ∀ a b, le a b = true ∨ le b a = true)
    (htrans : ∀ a b c, le a b = true → le b c = true → le a c = true)
    (x : α) (l : List α) (hl : l.Pairwise (fun a b => le a b = true)) :
    (insertStable le x l).Pairwise (fun a b => le a b = true) := by
  induction l with
  | nil => simp [insertStable]
  | cons y ys ih =>
    rw [List.pairwise_cons] at hl
    by_cases h : (le y x && !(le x y)) = true
    · rw [Bool.and_eq_true, Bool.not_eq_true'] at h
      simp only [insertStable, h.1, h.2, Bool.and_self, Bool.not_false, if_pos rfl]
      refine List.pairwise_cons.2 ⟨?_, ih hl.2⟩
      intro w hw
      rcases List.mem_cons.1 ((insertStable_perm le x ys).mem_iff.1 hw) with hw' | hw'
      · exact hw' ▸ h.1
      · exact hl.1 w hw'
    · have hxy : le x y = true := by
        rcases htot x y with h1 | h1
        · exact h1
        · by_cases h2 : le x y = true
          · exact h2
          · exact absurd (by simp [h1, h2]) h
      simp only [insertStable, if_neg h]
      refine List.pairwise_cons.2 ⟨?_, List.pairwise_cons.2 ⟨hl.1, hl.2⟩⟩
      intro w hw
      rcases List.mem_cons.1 hw with hw' | hw'
      · exact hw' ▸ hxy
      · exact htrans x y w hxy (hl.1 w hw')

theorem pySort_pairwise (le : α → α → Bool)
    (htot : ∀ a b, le a b = true ∨ le b a = true)
    (htrans : ∀ a b c, le a b = true → le b c = true → le a c = true)
    (l : List α) :
    (pySort le l).Pairwise (fun a b => le a b = true) := by
  induction l with
  | nil => simp [pySort]
  | cons x xs ih => exact insertStable_pairwise le htot htrans x (pySort le xs) ih

/-- Stability, as preservation of every tied class: if all elements selected by
`p` are mutually `le`-tied, the sort keeps their relative order (and their
subsequence among themselves). -/
theorem insertStable_filter_tied (le : α → α → Bool) (p : α → Bool)
    (hp : ∀ a b, p a = true → p b = true → le a b = true)
    (x : α) (l : List α) :
    (insertStable le x l).filter p =
      if p x then x :: l.filter p else l.filter p := by
  induction l with
  | nil => by_cases hx : p x = true <;> simp [insertStable, hx]
  | cons y ys ih =>
    by_cases h : (le y x && !(le x y)) = true
    · rw [Bool.and_eq_true, Bool.not_eq_true'] at h
      have hnotboth : ¬(p x = true ∧ p y = true) := by
        rintro ⟨hx, hy⟩
        exact absurd (hp x y hx hy) (by simp [h.2])
      simp only [insertStable, h.1, h.2, Bool.and_self, Bool.not_false, if_pos rfl]
      by_cases hx : p x = true
      · have hy : p y = false := by
          cases hpy : p y
          · rfl
          · exact absurd ⟨hx, hpy⟩ hnotboth
        simp [List.filter, hy, ih, hx]
      · have hx' : p x = false := by simpa using hx
        cases hy : p y <;> simp [List.filter, hy, ih, hx']
    · simp only [insertStable, if_neg h]
      by_cases hx : p x = true
      · simp [List.filter, hx]
      · have hx' : p x = false := by simpa using hx
        simp [List.filter, hx']

theorem pySort_filter_tied (le : α → α → Bool) (p : α → Bool)
    (hp : ∀ a b, p a = true → p b = true → le a b = true)
    (l : List α) :
    (pySort le l).filter p = l.filter p := by
  induction l with
  | nil => simp [pySort]
  | cons x xs ih =>
    by_cases hx : p x = true <;>
      simp [pySort, insertStable_filter_tied le p hp, hx, List.filter, ih]

theorem insertStable_map (f : α → β) (le : β → β → Bool) (le' : α → α → Bool)
    (h : ∀ a b, le (f a) (f b) = le' a b) (x : α) (l : List α) :
    insertStable le (f x) (l.map f) = (insertStable le' x l).map f := by
  induction l with
  | nil => simp [insertStable]
  | cons y ys ih =>
    by_cases hc : (le' y x && !(le' x y)) = true
    · simp [insertStable, h, hc, ih]
    · simp [insertStable, h, hc]

theorem pySort_map (f : α → β) (le : β → β → Bool) (le' : α → α → Bool)
    (h : ∀ a b, le (f a) (f b) = le' a b) (l : List α) :
    pySort le (l.map f) = (pySort le' l).map f := by
  induction l with
  | nil => simp [pySort]
  | cons x xs ih => simp [pySort, ih, insertStable_map f le le' h]

/-! ## The uniform packer: characterization -/

/-- If every shard fits its positional device, `uniformAssign` succeeds and
performs exactly the positional assignment and bookkeeping. -/
theorem uniformAssign_all_fit :
    ∀ (shards : List Shard) (devs : List DeviceHardware),
      shards.length = devs.length →
      (∀ (i : Nat) (h1 : i < shards.length) (h2 : i < devs.length),
        (shards.get ⟨i, h1⟩).storage.fits_in (devs.get ⟨i, h2⟩).storage = true) →
      uniformAssign shards devs =
        (.ok (), List.zipWith (fun s d => {s with rank := some d.rank}) shards devs,
          List.zipWith
            (fun s d =>
              (⟨d.rank, d.storage - s.storage, d.perf + s.perf⟩ : DeviceHardware))
            shards devs)
  | [], [], _, _ => rfl
  | [], _ :: _, h, _ => by simp at h
  | _ :: _, [], h, _ => by simp at h
  | s :: ss, d :: ds, hlen, hfit => by
    have h0 := hfit 0 (by simp) (by simp)
    simp only [List.get] at h0
    have ih := uniformAssign_all_fit ss ds (by simpa using hlen)
      (fun i hi1 hi2 => hfit (i + 1) (by simpa using Nat.succ_lt_succ hi1)
        (by simpa using Nat.succ_lt_succ hi2))
    simp [uniformAssign, h0, ih, List.zipWith]

/-- If position `i` is the first whose shard does not fit, `uniformAssign`
raises the capacity `PlannerError` carrying exactly the shard's storage and
the device's storage. -/
theorem uniformAssign_fail :
    ∀ (shards : List Shard) (devs : List DeviceHardware) (i : Nat)
      (h1 : i < shards.length) (h2 : i < devs.length),
      (∀ (j : Nat) (hj1 : j < shards.length) (hj2 : j < devs.length), j < i →
        (shards.get ⟨j, hj1⟩).storage.fits_in (devs.get ⟨j, hj2⟩).storage = true) →
      (shards.get ⟨i, h1⟩).storage.fits_in (devs.get ⟨i, h2⟩).storage = false →
      (uniformAssign shards devs).1 =
        .error (.uniformPartitionError (shards.get ⟨i, h1⟩).storage
          (devs.get ⟨i, h2⟩).storage)
  | [], _, i, h1, _, _, _ => by simp at h1
  | _ :: _, [], i, _, h2, _, _ => by simp at h2
  | s :: ss, d :: ds, 0, _, _, _, hnot => by
    simp only [List.get] at hnot
    simp [uniformAssign, hnot]
  | s :: ss, d :: ds, i + 1, h1, h2, hbefore, hnot => by
    have h0 := hbefore 0 (by simp) (by simp) (Nat.succ_pos i)
    simp only [List.get] at h0
    have ih := uniformAssign_fail ss ds i (by simpa using h1) (by simpa using h2)
      (fun j hj1 hj2 hj => hbefore (j + 1) (by simpa using Nat.succ_lt_succ hj1)
        (by simpa using Nat.succ_lt_succ hj2) (Nat.succ_lt_succ hj))
      (by simpa using hnot)
    simpa [uniformAssign, h0] using ih

/-- **C3** (amended).  The uniform packer: a shard-count/device-count mismatch
raises a fatal non-`PlannerError` fault; otherwise, at the first topology
position `i` whose shard does not fit the device's remaining storage, a
capacity-exhaustion `PlannerError` is raised reporting the offending shard's
storage and the device's capacity limit (the source message does not name the
unit); and if all shards fit, shard `i`'s rank is set to device `i`'s rank
and device `i`'s storage and perf are updated accordingly.  The final
conjunct records that the list-level `_uniform_partition` loop applies
exactly this per-unit step with the current device state. -/
theorem c3_uniform_packer (so : ShardingOption) (devs : List DeviceHardware)
    (rest : List ShardingOption) :
    (so.num_shards ≠ devs.length →
      GreedyPerfPartitioner._uniform_partition_one so devs =
        (.error (.uniformCountError so.num_shards devs.length), so, devs) ∧
      (PErr.uniformCountError so.num_shards devs.length).isPlannerError = false) ∧
    (∀ (i : Nat) (h1 : i < so.shards.length) (h2 : i < devs.length),
      so.num_shards = devs.length →
      (∀ (j : Nat) (hj1 : j < so.shards.length) (hj2 : j < devs.length), j < i →
        ((so.shards.get ⟨j, hj1⟩).storage.fits_in (devs.get ⟨j, hj2⟩).storage) = true) →
      ((so.shards.get ⟨i, h1⟩).storage.fits_in (devs.get ⟨i, h2⟩).storage) = false →
      (GreedyPerfPartitioner._uniform_partition_one so devs).1 =
        .error (.uniformPartitionError (so.shards.get ⟨i, h1⟩).storage
          (devs.get ⟨i, h2⟩).storage) ∧
      (PErr.uniformPartitionError (so.shards.get ⟨i, h1⟩).storage
          (devs.get ⟨i, h2⟩).storage).isPlannerError = true) ∧
    (so.num_shards = devs.length →
      (∀ (i : Nat) (h1 : i < so.shards.length) (h2 : i < devs.length),
        ((so.shards.get ⟨i, h1⟩).storage.fits_in (devs.get ⟨i, h2⟩).storage) = true) →
      GreedyPerfPartitioner._uniform_partition_one so devs =
        (.ok (),
          {so with shards :=
            List.zipWith (fun s d => {s with rank := some d.rank}) so.shards devs},
          List.zipWith
            (fun s d =>
              (⟨d.rank, d.storage - s.storage, d.perf + s.perf⟩ : DeviceHardware))
            so.shards devs)) ∧
    (GreedyPerfPartitioner._uniform_partition (so :: rest) devs =
      match GreedyPerfPartitioner._uniform_partition_one so devs with
      | (.ok _, so', devs') =>
        ((GreedyPerfPartitioner._uniform_partition rest devs').1,
          so' :: (GreedyPerfPartitioner._uniform_partition rest devs').2.1,
          (GreedyPerfPartitioner._uniform_partition rest devs').2.2)
      | (.error e, so', devs') => (.error e, so' :: rest, devs')) := by
  refine ⟨?_, ?_, ?_, ?_⟩
  · intro hne
    exact ⟨by simp [GreedyPerfPartitioner._uniform_partition_one, hne], rfl⟩
  · intro i h1 h2 heq hbefore hnot
    refine ⟨?_, rfl⟩
    have := uniformAssign_fail so.shards devs i h1 h2 hbefore hnot
    simp only [GreedyPerfPartitioner._uniform_partition_one, heq]
    simp [this]
  · intro heq hfit
    have := uniformAssign_all_fit so.shards devs heq hfit
    simp [GreedyPerfPartitioner._uniform_partition_one, heq, this]
  · rcases h : GreedyPerfPartitioner._uniform_partition_one so devs with ⟨res, so', devs'⟩
    cases res <;> simp [GreedyPerfPartitioner._uniform_partition, h]

/-- **C3**, counterexample to the claim as stated: the capacity-exhaustion
error of the uniform packer does not identify the unit — two units with
different names and fqns produce the identical error (and the raised message
interpolates only the shard's storage and the device's capacity). -/
theorem c3_counterexample :
    (GreedyPerfPartitioner._uniform_partition_one
        ⟨"tbl_a", "module", none, "uniform", "table_row_wise",
          [⟨⟨5, 0⟩, ⟨1⟩, none⟩]⟩ [⟨0, ⟨1, 0⟩, ⟨0⟩⟩]).1 =
      .error (.uniformPartitionError ⟨5, 0⟩ ⟨1, 0⟩) ∧
    (GreedyPerfPartitioner._uniform_partition_one
        ⟨"tbl_b", "other", none, "uniform", "table_row_wise",
          [⟨⟨5, 0⟩, ⟨1⟩, none⟩]⟩ [⟨0, ⟨1, 0⟩, ⟨0⟩⟩]).1 =
      .error (.uniformPartitionError ⟨5, 0⟩ ⟨1, 0⟩) ∧
    ("tbl_a" : String) ≠ "tbl_b" ∧
    uniformPartitionMessage ⟨5, 0⟩ ⟨1, 0⟩ =
      "Shard of size Storage(hbm=5, ddr=0) bytes does not fit on any rank. Device memory cap: Storage(hbm=1, ddr=0)." :=
  ⟨by decide, by decide, by decide, by decide⟩

/-- **C3** witness: the amended theorem applied at a concrete unit that fits. -/
theorem c3_uniform_packer_witness :
    GreedyPerfPartitioner._uniform_partition_one
        ⟨"t", "m", none, "uniform", "table_row_wise", [⟨⟨1, 0⟩, ⟨2⟩, none⟩]⟩
        [⟨0, ⟨10, 10⟩, ⟨0⟩⟩] =
      (.ok (), ⟨"t", "m", none, "uniform", "table_row_wise", [⟨⟨1, 0⟩, ⟨2⟩, some 0⟩]⟩,
        [⟨0, ⟨9, 10⟩, ⟨2⟩⟩]) := by
  have h := (c3_uniform_packer
    ⟨"t", "m", none, "uniform", "table_row_wise", [⟨⟨1, 0⟩, ⟨2⟩, none⟩]⟩
    [⟨0, ⟨10, 10⟩, ⟨0⟩⟩] []).2.2.1 (by decide)
    (by decide)
  exact h

/-! ## The greedy device packer: characterization -/

theorem storage_lt_iff (a b : Storage) :
    Storage.lt a b = true ↔ (a.hbm < b.hbm ∨ (a.hbm = b.hbm ∧ a.ddr < b.ddr)) := by
  simp [Storage.lt]

theorem storage_lt_false_iff (a b : Storage) :
    Storage.lt a b = false ↔ (b.hbm < a.hbm ∨ (b.hbm = a.hbm ∧ b.ddr ≤ a.ddr)) := by
  rw [← Bool.not_eq_true, storage_lt_iff]
  constructor
  · intro h; omega
  · intro h; omega

theorem deviceSortLe_eq_true_iff (lws : Nat) (a b : DeviceHardware) :
    deviceSortLe lws a b = true ↔
      (a.perf.total < b.perf.total ∨
        (a.perf.total = b.perf.total ∧ a.rank % lws ≤ b.rank % lws)) := by
  simp [deviceSortLe]

theorem deviceSortLe_total (lws : Nat) (a b : DeviceHardware) :
    deviceSortLe lws a b = true ∨ deviceSortLe lws b a = true := by
  simp only [deviceSortLe_eq_true_iff]; omega

theorem deviceSortLe_trans (lws : Nat) (a b c : DeviceHardware) :
    deviceSortLe lws a b = true → deviceSortLe lws b c = true →
      deviceSortLe lws a c = true := by
  simp only [deviceSortLe_eq_true_iff]; omega

/-- The Python `max(devices, key=...)` fold: its result is a member and no
member's storage is lexicographically larger. -/
theorem maxFold_spec (l : List DeviceHardware) :
    ∀ d : DeviceHardware,
      (List.foldl (fun best x => if best.storage.lt x.storage then x else best) d l)
        ∈ d :: l ∧
      ∀ x ∈ d :: l,
        Storage.lt
          (List.foldl (fun best x => if best.storage.lt x.storage then x else best) d
            l).storage x.storage = false := by
  induction l with
  | nil =>
    intro d
    refine ⟨by simp, ?_⟩
    intro x hx
    rw [List.mem_singleton] at hx
    subst hx
    simp only [List.foldl]
    rw [storage_lt_false_iff]
    omega
  | cons y ys ih =>
    intro d
    simp only [List.foldl]
    by_cases h : Storage.lt d.storage y.storage = true
    · rw [if_pos h]
      obtain ⟨hmem, hall⟩ := ih y
      refine ⟨List.mem_cons.2 (Or.inr hmem), ?_⟩
      intro x hx
      rcases List.mem_cons.1 hx with rfl | hx'
      · have h1 := hall y (List.mem_cons_self y ys)
        rw [storage_lt_iff] at h
        rw [storage_lt_false_iff] at h1 ⊢
        omega
      · exact hall x hx'
    · have h' : Storage.lt d.storage y.storage = false := by
        cases hf : Storage.lt d.storage y.storage
        · rfl
        · exact absurd hf h
      rw [if_neg h]
      obtain ⟨hmem, hall⟩ := ih d
      constructor
      · rcases List.mem_cons.1 hmem with h1 | h1
        · exact List.mem_cons.2 (Or.inl h1)
        · exact List.mem_cons.2 (Or.inr (List.mem_cons.2 (Or.inr h1)))
      · intro x hx
        rcases List.mem_cons.1 hx with rfl | hx'
        · exact hall x (List.mem_cons_self x ys)
        · rcases List.mem_cons.1 hx' with rfl | hx''
          · have h1 := hall d (List.mem_cons_self d ys)
            rw [storage_lt_false_iff] at h' h1 ⊢
            omega
          · exact hall x (List.mem_cons.2 (Or.inr hx''))

/-- The diagnostic of the capacity failure: the reported storage belongs to
some device and is not smaller than any device's remaining storage. -/
theorem maxStorage_spec (d : DeviceHardware) (l : List DeviceHardware) (m : Storage)
    (h : maxStorage (d :: l) = some m) :
    (∃ x ∈ d :: l, x.storage = m) ∧
      ∀ x ∈ d :: l, Storage.lt m x.storage = false := by
  obtain ⟨hmem, hall⟩ := maxFold_spec l d
  have hm : (List.foldl (fun best x => if best.storage.lt x.storage then x else best) d
      l).storage = m := by
    simpa [maxStorage] using h
  exact ⟨⟨_, hmem, hm⟩, fun x hx => hm ▸ hall x hx⟩

/-- `assignFirstFit` fails exactly when no device admits the shard. -/
theorem assignFirstFit_none_iff (shard : Shard) (devs : List DeviceHardware) :
    assignFirstFit shard devs = none ↔
      ∀ d ∈ devs, shard.storage.fits_in d.storage = false := by
  induction devs with
  | nil => simp [assignFirstFit]
  | cons d ds ih =>
    by_cases h : shard.storage.fits_in d.storage = true
    · constructor
      · intro hnone
        rw [assignFirstFit, if_pos h] at hnone
        cases hnone
      · intro hall
        exact absurd (hall d (List.mem_cons_self d ds)) (by simp [h])
    · have h' : shard.storage.fits_in d.storage = false := by
        cases hf : shard.storage.fits_in d.storage
        · rfl
        · exact absurd hf h
      constructor
      · intro hnone x hx
        rcases List.mem_cons.1 hx with rfl | hx'
        · exact h'
        · refine ih.1 ?_ x hx'
          rw [assignFirstFit, if_neg h] at hnone
          rcases haf : assignFirstFit shard ds with _ | ⟨r, ds'⟩
          · rfl
          · rw [haf] at hnone; cases hnone
      · intro hall
        rw [assignFirstFit, if_neg h]
        rw [ih.2 (fun x hx => hall x (List.mem_cons.2 (Or.inr hx)))]

/-- `assignFirstFit` success: the device list splits as `pre ++ d :: post`
where nothing in `pre` admits the shard, `d` does, the returned rank is
`d.rank`, and exactly `d` is updated (storage decremented, perf
incremented). -/
theorem assignFirstFit_some (shard : Shard) (devs : List DeviceHardware) :
    ∀ (r : Nat) (devs' : List DeviceHardware),
      assignFirstFit shard devs = some (r, devs') →
      ∃ pre d post, devs = pre ++ d :: post ∧
        (∀ x ∈ pre, shard.storage.fits_in x.storage = false) ∧
        shard.storage.fits_in d.storage = true ∧ r = d.rank ∧
        devs' = pre ++
          (⟨d.rank, d.storage - shard.storage, d.perf + shard.perf⟩ : DeviceHardware)
            :: post := by
  induction devs with
  | nil => intro r devs' h; rw [assignFirstFit] at h; cases h
  | cons d ds ih =>
    intro r devs' h
    by_cases hf : shard.storage.fits_in d.storage = true
    · rw [assignFirstFit, if_pos hf] at h
      injection h with h
      injection h with h1 h2
      exact ⟨[], d, ds, by simp, by simp, hf, h1.symm, by simp [h2.symm]⟩
    · have hf' : shard.storage.fits_in d.storage = false := by
        cases hx : shard.storage.fits_in d.storage
        · rfl
        · exact absurd hx hf
      rw [assignFirstFit, if_neg hf] at h
      rcases haf : assignFirstFit shard ds with _ | ⟨r0, ds0⟩
      · rw [haf] at h; cases h
      · rw [haf] at h
        injection h with h
        injection h with h1 h2
        obtain ⟨pre, dd, post, hsplit, hpre, hfit, hr, hupd⟩ := ih r0 ds0 haf
        refine ⟨d :: pre, dd, post, by simp [hsplit], ?_, hfit, h1 ▸ hr, ?_⟩
        · intro x hx
          rcases List.mem_cons.1 hx with rfl | hx'
          · exact hf'
          · exact hpre x hx'
        · rw [← h2, hupd]; simp

/-- **C2**: the greedy device packer.  Conjuncts, in order: (sort) the
per-shard device sort is a permutation, is ascending in
`(perf.total, rank % local_world_size)`, and is stable (every tied class
keeps its original order); (fit) a successful scan picks exactly the first
device of the sorted list that admits the shard, updating only it and
assigning its rank; (nofit) the scan fails exactly when no device admits the
shard; (step-ok/step-fail) the per-shard loop processes shards in order,
continuing with the updated device list on success and raising the
capacity-exhaustion `PlannerError` that reports the largest remaining device
storage on failure; (max) that reported storage is a device's storage and no
device's storage is larger; (prefix) a successfully processed prefix of
shards is never reconsidered by later shards; (loop) `_device_partition` is
exactly this loop over the option's shards. -/
theorem c2_device_packer (so : ShardingOption) (devices : List DeviceHardware)
    (lws : Nat) :
    (∀ devs : List DeviceHardware,
      List.Perm (pySort (deviceSortLe lws) devs) devs ∧
      (pySort (deviceSortLe lws) devs).Pairwise
        (fun a b => deviceSortLe lws a b = true) ∧
      ∀ c : Int × Nat,
        (pySort (deviceSortLe lws) devs).filter
            (fun d => decide ((d.perf.total, d.rank % lws) = c)) =
          devs.filter (fun d => decide ((d.perf.total, d.rank % lws) = c))) ∧
    (∀ (shard : Shard) (devs : List DeviceHardware) (r : Nat)
        (devs' : List DeviceHardware),
      assignFirstFit shard devs = some (r, devs') →
      ∃ pre d post, devs = pre ++ d :: post ∧
        (∀ x ∈ pre, shard.storage.fits_in x.storage = false) ∧
        shard.storage.fits_in d.storage = true ∧ r = d.rank ∧
        devs' = pre ++
          (⟨d.rank, d.storage - shard.storage, d.perf + shard.perf⟩ : DeviceHardware)
            :: post) ∧
    (∀ (shard : Shard) (devs : List DeviceHardware),
      assignFirstFit shard devs = none ↔
        ∀ d ∈ devs, shard.storage.fits_in d.storage = false) ∧
    (∀ (shard : Shard) (rest : List Shard) (devs : List DeviceHardware)
        (r : Nat) (devs' : List DeviceHardware),
      assignFirstFit shard (pySort (deviceSortLe lws) devs) = some (r, devs') →
      _device_partition_go so.name lws (shard :: rest) devs =
        ((_device_partition_go so.name lws rest devs').1,
          {shard with rank := some r} ::
            (_device_partition_go so.name lws rest devs').2.1,
          (_device_partition_go so.name lws rest devs').2.2)) ∧
    (∀ (shard : Shard) (rest : List Shard) (devs : List DeviceHardware),
      assignFirstFit shard (pySort (deviceSortLe lws) devs) = none →
      _device_partition_go so.name lws (shard :: rest) devs =
        (.error (.devicePartitionError shard so.name
            (maxStorage (pySort (deviceSortLe lws) devs))),
          shard :: rest, pySort (deviceSortLe lws) devs)) ∧
    (∀ (d : DeviceHardware) (l : List DeviceHardware) (m : Storage),
      maxStorage (d :: l) = some m →
      (∃ x ∈ d :: l, x.storage = m) ∧
        ∀ x ∈ d :: l, Storage.lt m x.storage = false) ∧
    (∀ (shards1 shards2 : List Shard) (devs : List DeviceHardware),
      (_device_partition_go so.name lws shards1 devs).1 = .ok () →
      _device_partition_go so.name lws (shards1 ++ shards2) devs =
        ((_device_partition_go so.name lws shards2
            (_device_partition_go so.name lws shards1 devs).2.2).1,
          (_device_partition_go so.name lws shards1 devs).2.1 ++
            (_device_partition_go so.name lws shards2
              (_device_partition_go so.name lws shards1 devs).2.2).2.1,
          (_device_partition_go so.name lws shards2
            (_device_partition_go so.name lws shards1 devs).2.2).2.2)) ∧
    (GreedyPerfPartitioner._device_partition so devices lws =
      ((_device_partition_go so.name lws so.shards devices).1,
        {so with shards := (_device_partition_go so.name lws so.shards devices).2.1},
        (_device_partition_go so.name lws so.shards devices).2.2)) := by
  refine ⟨?_, fun s d => assignFirstFit_some s d, fun s d => assignFirstFit_none_iff s d,
    ?_, ?_, fun d l m => maxStorage_spec d l m, ?_, rfl⟩
  · intro devs
    refine ⟨pySort_perm _ devs,
      pySort_pairwise _ (deviceSortLe_total lws) (deviceSortLe_trans lws) devs, ?_⟩
    intro c
    refine pySort_filter_tied _ _ ?_ devs
    intro a b ha hb
    rw [decide_eq_true_eq] at ha hb
    rw [deviceSortLe_eq_true_iff]
    have : a.perf.total = b.perf.total ∧ a.rank % lws = b.rank % lws := by
      constructor
      · rw [show a.perf.total = c.1 from congrArg Prod.fst ha,
          show b.perf.total = c.1 from congrArg Prod.fst hb]
      · rw [show a.rank % lws = c.2 from congrArg Prod.snd ha,
          show b.rank % lws = c.2 from congrArg Prod.snd hb]
    omega
  · intro shard rest devs r devs' h
    simp [_device_partition_go, h]
  · intro shard rest devs h
    simp [_device_partition_go, h]
  · intro shards1
    induction shards1 with
    | nil => intro shards2 devs _; simp [_device_partition_go]
    | cons s ss ih =>
      intro shards2 devs hok
      rcases haf : assignFirstFit s (pySort (deviceSortLe lws) devs) with _ | ⟨r, devs'⟩
      · rw [_device_partition_go, haf] at hok
        cases hok
      · have hok' : (_device_partition_go so.name lws ss devs').1 = .ok () := by
          rw [_device_partition_go, haf] at hok
          exact hok
        have ih' := ih shards2 devs' hok'
        simp only [List.cons_append, _device_partition_go, haf]
        rw [List.append_eq, ih']

/-- **C2** witness: the packer at a concrete input with two shards and two
devices; the claim's conjuncts instantiated and discharged concretely. -/
theorem c2_device_packer_witness :
    (∃ pre d post,
      ([⟨1, ⟨4, 4⟩, ⟨0⟩⟩, ⟨0, ⟨9, 9⟩, ⟨1⟩⟩] : List DeviceHardware) =
        pre ++ d :: post ∧
      (∀ x ∈ pre, (Storage.fits_in ⟨5, 0⟩ x.storage) = false) ∧
      (Storage.fits_in ⟨5, 0⟩ d.storage) = true ∧ 0 = d.rank ∧
      ([⟨1, ⟨4, 4⟩, ⟨0⟩⟩, ⟨0, ⟨4, 9⟩, ⟨4⟩⟩] : List DeviceHardware) = pre ++
        (⟨d.rank, d.storage - Storage.mk 5 0, d.perf + Perf.mk 3⟩ : DeviceHardware)
          :: post) := by
  have h := (c2_device_packer ⟨"t", "m", none, "device", "table_column_wise", []⟩
    [] 2).2.1 ⟨⟨5, 0⟩, ⟨3⟩, none⟩ [⟨1, ⟨4, 4⟩, ⟨0⟩⟩, ⟨0, ⟨9, 9⟩, ⟨1⟩⟩] 0
    [⟨1, ⟨4, 4⟩, ⟨0⟩⟩, ⟨0, ⟨4, 9⟩, ⟨4⟩⟩] (by decide)
  exact h

/-! ## The grouping stage: characterization -/

theorem storage_add_def (a b : Storage) : a + b = ⟨a.hbm + b.hbm, a.ddr + b.ddr⟩ := rfl

theorem storage_zero_add (s : Storage) : (⟨0, 0⟩ : Storage) + s = s := by
  cases s; simp [storage_add_def]

/-- Whether a position-tagged option uses the uniform strategy. -/
def isUniform (iso : Nat × ShardingOption) : Bool :=
  decide (iso.2.partition_by = PartitionByType.UNIFORM)

/-- The non-uniform subsequence of a position-tagged proposal. -/
def nonUniformOf (l : List (Nat × ShardingOption)) : List (Nat × ShardingOption) :=
  l.filter (fun iso => !isUniform iso)

/-- Aggregate storage of a list of position-tagged options, as accumulated by
the grouping loop. -/
def sumStorage (options : List (Nat × ShardingOption)) : Storage :=
  options.foldl (fun acc iso => acc + iso.2.total_storage) ⟨0, 0⟩

/-- The distinct grouping keys in first-occurrence order (Python dicts
preserve insertion order). -/
def firstKeys (l : List (Nat × ShardingOption)) : List String :=
  l.foldl (fun acc iso => if groupKey iso.2 ∈ acc then acc else acc ++ [groupKey iso.2]) []

theorem firstKeys_append_one (l : List (Nat × ShardingOption)) (iso : Nat × ShardingOption) :
    firstKeys (l ++ [iso]) =
      if groupKey iso.2 ∈ firstKeys l then firstKeys l
      else firstKeys l ++ [groupKey iso.2] := by
  simp [firstKeys, List.foldl_append]

/-- The invariant of the grouping loop's insertion-ordered dict: keys are the
distinct keys of the processed (non-uniform) prefix in first-occurrence
order, each entry holds exactly the prefix's options with its key (in order)
together with their storage sum, every processed option is covered, and the
entries' options concatenate to a permutation of the prefix. -/
def GoodAcc (pro : List (Nat × ShardingOption)) (m : List (String × IdxGroup)) : Prop :=
  m.map Prod.fst = firstKeys pro ∧
  (m.map Prod.fst).Nodup ∧
  (∀ kv ∈ m, kv.2.options = pro.filter (fun iso => decide (groupKey iso.2 = kv.1)) ∧
    kv.2.options ≠ [] ∧ kv.2.storage_sum = sumStorage kv.2.options) ∧
  (∀ iso ∈ pro, groupKey iso.2 ∈ m.map Prod.fst) ∧
  List.Perm ((m.map (fun kv => kv.2.options)).flatten) pro

theorem insertGrouped_any_iff (m : List (String × IdxGroup)) (so : ShardingOption) :
    (m.any (fun kv => kv.1 == groupKey so)) = true ↔ groupKey so ∈ m.map Prod.fst := by
  simp only [List.any_eq_true, List.mem_map, beq_iff_eq]

theorem sumStorage_append_one (l : List (Nat × ShardingOption)) (iso : Nat × ShardingOption) :
    sumStorage (l ++ [iso]) = sumStorage l + iso.2.total_storage := by
  simp [sumStorage, List.foldl_append]

/-- Updating the unique matching entry moves the new element to the end of the
concatenation, up to permutation. -/
theorem flatten_update_perm (key : String) (x : Nat × ShardingOption)
    (f : String × IdxGroup → Storage) :
    ∀ m : List (String × IdxGroup),
      (m.map Prod.fst).Nodup → key ∈ m.map Prod.fst →
      List.Perm
        (((m.map (fun kv =>
            if kv.1 = key then
              (kv.1, (⟨kv.2.options ++ [x], f kv⟩ : IdxGroup))
            else kv)).map (fun kv => kv.2.options)).flatten)
        ((m.map (fun kv => kv.2.options)).flatten ++ [x])
  | [], _, hmem => by simp at hmem
  | kv :: rest, hnodup, hmem => by
    rw [List.map_cons, List.nodup_cons] at hnodup
    by_cases hk : kv.1 = key
    · have hrest : (rest.map (fun kv' =>
          if kv'.1 = key then (kv'.1, (⟨kv'.2.options ++ [x], f kv'⟩ : IdxGroup))
          else kv')) = rest := by
        conv_rhs => rw [← List.map_id rest]
        apply List.map_congr_left
        intro kv' hkv'
        have hne : kv'.1 ≠ key := by
          intro he
          exact hnodup.1 (hk ▸ he ▸ List.mem_map_of_mem Prod.fst hkv')
        simp [hne]
      simp only [List.map_cons, if_pos hk, hrest, List.flatten_cons, List.append_assoc]
      exact List.Perm.append_left kv.2.options List.perm_append_comm
    · have hmem' : key ∈ rest.map Prod.fst := by
        rw [List.map_cons, List.mem_cons] at hmem
        rcases hmem with h | h
        · exact absurd h.symm hk
        · exact h
      have ih := flatten_update_perm key x f rest hnodup.2 hmem'
      simp only [List.map_cons, if_neg hk, List.flatten_cons, List.append_assoc]
      exact List.Perm.append_left kv.2.options ih

/-- One dict insertion preserves the grouping invariant. -/
theorem goodAcc_insert (pro : List (Nat × ShardingOption))
    (m : List (String × IdxGroup)) (i : Nat) (so : ShardingOption)
    (h : GoodAcc pro m) : GoodAcc (pro ++ [(i, so)]) (insertGrouped m i so) := by
  obtain ⟨hkeys, hnodup, hclass, hcover, hperm⟩ := h
  by_cases hmem : groupKey so ∈ m.map Prod.fst
  · have hany : (m.any (fun kv => kv.1 == groupKey so)) = true :=
      (insertGrouped_any_iff m so).2 hmem
    rw [insertGrouped, if_pos hany]
    have hfst : ((m.map (fun kv =>
        if kv.1 = groupKey so then
          (kv.1, (⟨kv.2.options ++ [(i, so)],
            kv.2.storage_sum + so.total_storage⟩ : IdxGroup))
        else kv)).map Prod.fst) = m.map Prod.fst := by
      rw [List.map_map]
      apply List.map_congr_left
      intro kv _
      by_cases hk : kv.1 = groupKey so <;> simp [hk]
    refine ⟨?_, ?_, ?_, ?_, ?_⟩
    · rw [hfst, hkeys, firstKeys_append_one, if_pos (hkeys ▸ hmem)]
    · rw [hfst]; exact hnodup
    · intro kv' hkv'
      rcases List.mem_map.1 hkv' with ⟨kv, hkv, hupd⟩
      by_cases hk : kv.1 = groupKey so
      · rw [if_pos hk] at hupd
        obtain ⟨hc1, hc2, hc3⟩ := hclass kv hkv
        subst hupd
        refine ⟨?_, by simp, ?_⟩
        · simp only
          rw [List.filter_append, ← hc1]
          congr 1
          simp [List.filter, ← hk]
        · simp only
          rw [sumStorage_append_one, hc3]
      · rw [if_neg hk] at hupd
        obtain ⟨hc1, hc2, hc3⟩ := hclass kv hkv
        subst hupd
        refine ⟨?_, hc2, hc3⟩
        rw [List.filter_append, ← hc1]
        have hne : (decide (groupKey so = kv.1)) = false := by
          simp only [decide_eq_false_iff_not]
          exact fun he => hk he.symm
        simp [List.filter, hne]
    · intro iso hiso
      rw [hfst]
      rcases List.mem_append.1 hiso with h' | h'
      · exact hcover iso h'
      · rw [List.mem_singleton] at h'
        subst h'
        exact hmem
    · refine (flatten_update_perm (groupKey so) (i, so)
        (fun kv => kv.2.storage_sum + so.total_storage) m hnodup hmem).trans ?_
      exact hperm.append_right [(i, so)]
  · have hany : (m.any (fun kv => kv.1 == groupKey so)) = false := by
      cases ha : m.any (fun kv => kv.1 == groupKey so)
      · rfl
      · exact absurd ((insertGrouped_any_iff m so).1 ha) hmem
    rw [insertGrouped, hany]
    simp only [Bool.false_eq_true, if_false]
    have hfilter_nil : pro.filter (fun iso => decide (groupKey iso.2 = groupKey so)) = [] := by
      rw [List.filter_eq_nil_iff]
      intro iso hiso
      simp only [decide_eq_true_eq]
      intro he
      exact hmem (he ▸ hcover iso hiso)
    refine ⟨?_, ?_, ?_, ?_, ?_⟩
    · rw [List.map_append, hkeys, firstKeys_append_one, if_neg (hkeys ▸ hmem)]
      simp
    · rw [List.map_append]
      rw [List.nodup_append]
      refine ⟨hnodup, by simp, ?_⟩
      intro a ha hb
      simp only [List.map_cons, List.map_nil, List.mem_singleton] at hb
      subst hb
      exact hmem ha
    · intro kv' hkv'
      rcases List.mem_append.1 hkv' with h' | h'
      · obtain ⟨hc1, hc2, hc3⟩ := hclass kv' h'
        refine ⟨?_, hc2, hc3⟩
        rw [List.filter_append, hc1]
        have hne : (decide (groupKey so = kv'.1)) = false := by
          simp only [decide_eq_false_iff_not]
          intro he
          exact hmem (he ▸ List.mem_map_of_mem Prod.fst h')
        simp [hne]
      · rw [List.mem_singleton] at h'
        subst h'
        refine ⟨?_, by simp, ?_⟩
        · rw [List.filter_append, hfilter_nil]
          simp
        · simp only
          rw [sumStorage, List.foldl_cons, List.foldl_nil, storage_zero_add]
    · intro iso hiso
      rw [List.map_append]
      rcases List.mem_append.1 hiso with h' | h'
      · exact List.mem_append.2 (Or.inl (hcover iso h'))
      · rw [List.mem_singleton] at h'
        subst h'
        exact List.mem_append.2 (Or.inr (by simp))
    · rw [List.map_append, List.flatten_append]
      simp only [List.map_cons, List.map_nil, List.flatten_cons, List.flatten_nil,
        List.append_nil]
      exact hperm.append_right [(i, so)]

theorem goodAcc_nil : GoodAcc [] [] := by
  refine ⟨rfl, List.nodup_nil, ?_, ?_, by simp⟩
  · intro kv hkv
    cases hkv
  · intro iso hiso
    cases hiso

/-- The grouping loop establishes the invariant for the whole proposal. -/
theorem buildGroups_spec :
    ∀ (l : List (Nat × ShardingOption)) (pro : List (Nat × ShardingOption))
      (m : List (String × IdxGroup)), GoodAcc pro m →
      GoodAcc (pro ++ nonUniformOf l) (buildGroups l m)
  | [], pro, m, h => by simpa [nonUniformOf, buildGroups] using h
  | (i, so) :: rest, pro, m, h => by
    by_cases hu : so.partition_by = PartitionByType.UNIFORM
    · have heq : nonUniformOf ((i, so) :: rest) = nonUniformOf rest := by
        simp [nonUniformOf, isUniform, hu]
      rw [heq]
      have : buildGroups ((i, so) :: rest) m = buildGroups rest m := by
        simp [buildGroups, hu]
      rw [this]
      exact buildGroups_spec rest pro m h
    · have heq : nonUniformOf ((i, so) :: rest) = (i, so) :: nonUniformOf rest := by
        simp [nonUniformOf, isUniform, hu]
      have hbg : buildGroups ((i, so) :: rest) m =
          buildGroups rest (insertGrouped m i so) := by
        simp [buildGroups, hu]
      rw [heq, hbg]
      have step := goodAcc_insert pro m i so h
      have ih := buildGroups_spec rest (pro ++ [(i, so)]) (insertGrouped m i so) step
      rw [List.append_assoc] at ih
      simpa using ih

/-- The groups of an invariant-satisfying accumulator are exactly the
key-classes over the keys in first-occurrence order. -/
theorem goodAcc_snd_eq (pro : List (Nat × ShardingOption))
    (m : List (String × IdxGroup)) (h : GoodAcc pro m) :
    m.map Prod.snd = (firstKeys pro).map (fun k =>
      (⟨pro.filter (fun iso => decide (groupKey iso.2 = k)),
        sumStorage (pro.filter (fun iso => decide (groupKey iso.2 = k)))⟩ : IdxGroup)) := by
  obtain ⟨hkeys, _, hclass, _, _⟩ := h
  rw [← hkeys, List.map_map]
  apply List.map_congr_left
  intro kv hkv
  obtain ⟨hc1, _, hc3⟩ := hclass kv hkv
  show kv.2 = _
  rcases kv with ⟨k, g⟩
  rcases g with ⟨opts, ssum⟩
  simp only at hc1 hc3 ⊢
  rw [Function.comp_apply]
  simp only [IdxGroup.mk.injEq]
  exact ⟨hc1, by rw [hc3, hc1]⟩

theorem storage_le_iff (a b : Storage) :
    Storage.le a b = true ↔
      (a.hbm < b.hbm ∨ (a.hbm = b.hbm ∧ a.ddr ≤ b.ddr)) := by
  cases a; cases b
  simp only [Storage.le, Storage.lt, Bool.or_eq_true, Bool.and_eq_true,
    decide_eq_true_eq, Storage.mk.injEq]
  constructor
  · intro h; omega
  · intro h; omega

theorem groupDescLe_total (a b : IdxGroup) :
    groupDescLe a b = true ∨ groupDescLe b a = true := by
  simp only [groupDescLe, storage_le_iff]; omega

theorem groupDescLe_trans (a b c : IdxGroup) :
    groupDescLe a b = true → groupDescLe b c = true → groupDescLe a c = true := by
  simp only [groupDescLe, storage_le_iff]; omega

/-! ### Plain (position-erased) transfer -/

/-- The non-uniform units, in proposal order. -/
def nonUniformPlain (sos : List ShardingOption) : List ShardingOption :=
  sos.filter (fun so => !decide (so.partition_by = PartitionByType.UNIFORM))

/-- Distinct grouping keys in first-occurrence order, plain version. -/
def firstKeysPlain (sos : List ShardingOption) : List String :=
  sos.foldl (fun acc so => if groupKey so ∈ acc then acc else acc ++ [groupKey so]) []

/-- Aggregate storage sum of a list of units, as the grouping loop computes
it. -/
def sumStoragePlain (sos : List ShardingOption) : Storage :=
  sos.foldl (fun acc so => acc + so.total_storage) ⟨0, 0⟩

/-- The descending-by-storage-sum order on plain groups. -/
def groupDescLeP (a b : ShardingOptionGroup) : Bool :=
  Storage.le b.storage_sum a.storage_sum

/-- The grouping stage's pre-sort output as claim C7 describes it: one group
per distinct grouping key (dependency key if present and nonempty, otherwise
the unit's fqn) of the non-uniform units, keys in first-occurrence order,
each group holding exactly the non-uniform units with that key, in proposal
order, together with their aggregate storage sum. -/
def groupsSpec (sos : List ShardingOption) : List ShardingOptionGroup :=
  (firstKeysPlain (nonUniformPlain sos)).map (fun k =>
    ⟨(nonUniformPlain sos).filter (fun so => decide (groupKey so = k)),
      sumStoragePlain ((nonUniformPlain sos).filter (fun so => decide (groupKey so = k)))⟩)

theorem map_snd_filter_snd (p : ShardingOption → Bool) :
    ∀ l : List (Nat × ShardingOption),
      (l.filter (fun iso => p iso.2)).map Prod.snd = (l.map Prod.snd).filter p
  | [] => rfl
  | x :: xs => by
    by_cases h : p x.2 = true <;>
      simp [List.filter, h, map_snd_filter_snd p xs]

theorem firstKeys_eq_plain (l : List (Nat × ShardingOption)) :
    firstKeys l = firstKeysPlain (l.map Prod.snd) := by
  rw [firstKeys, firstKeysPlain, List.foldl_map]

theorem sumStorage_eq_plain (l : List (Nat × ShardingOption)) :
    sumStorage l = sumStoragePlain (l.map Prod.snd) := by
  rw [sumStorage, sumStoragePlain, List.foldl_map]

theorem nonUniformOf_enum_map_snd (sos : List ShardingOption) :
    (nonUniformOf sos.enum).map Prod.snd = nonUniformPlain sos := by
  rw [nonUniformOf, nonUniformPlain]
  have : (fun iso : Nat × ShardingOption => !isUniform iso) =
      (fun iso : Nat × ShardingOption =>
        (fun so => !decide (so.partition_by = PartitionByType.UNIFORM)) iso.2) := by
    funext iso
    rw [isUniform]
  rw [this, map_snd_filter_snd
    (fun so => !decide (so.partition_by = PartitionByType.UNIFORM)), List.enum_map_snd]

/-- Erasing positions from an indexed group. -/
def plainGroup (g : IdxGroup) : ShardingOptionGroup :=
  ⟨g.options.map Prod.snd, g.storage_sum⟩

/-- The pre-sort groups, plainized, are exactly the specification's groups. -/
theorem buildGroups_plain_spec (sos : List ShardingOption) :
    ((buildGroups sos.enum []).map Prod.snd).map plainGroup = groupsSpec sos := by
  have hacc := buildGroups_spec sos.enum [] [] goodAcc_nil
  rw [List.nil_append] at hacc
  rw [goodAcc_snd_eq _ _ hacc, List.map_map, groupsSpec]
  rw [firstKeys_eq_plain, nonUniformOf_enum_map_snd]
  apply List.map_congr_left
  intro k _
  rw [Function.comp_apply, plainGroup]
  have hopts : ((nonUniformOf sos.enum).filter
      (fun iso => decide (groupKey iso.2 = k))).map Prod.snd =
      (nonUniformPlain sos).filter (fun so => decide (groupKey so = k)) := by
    rw [map_snd_filter_snd (fun so => decide (groupKey so = k)),
      nonUniformOf_enum_map_snd]
  simp only
  rw [sumStorage_eq_plain, hopts]

/-- `_group_and_sort_non_uniform_sharding_options` equals the stable sort of
the specification's insertion-ordered groups. -/
theorem group_and_sort_eq_spec (sos : List ShardingOption) :
    _group_and_sort_non_uniform_sharding_options sos =
      pySort groupDescLeP (groupsSpec sos) := by
  rw [_group_and_sort_non_uniform_sharding_options, groupNonUniformIdx,
    ← buildGroups_plain_spec sos]
  have h := pySort_map plainGroup groupDescLeP groupDescLe
    (fun a b => rfl) ((buildGroups sos.enum []).map Prod.snd)
  rw [h]
  rfl

theorem perm_flatten_of_perm {l1 l2 : List (List α)} (h : List.Perm l1 l2) :
    List.Perm l1.flatten l2.flatten := by
  induction h with
  | nil => exact List.Perm.refl _
  | cons x _ ih => simpa [List.flatten_cons] using ih.append_left x
  | swap x y l =>
    simp only [List.flatten_cons]
    rw [← List.append_assoc, ← List.append_assoc]
    exact List.perm_append_comm.append_right l.flatten
  | trans _ _ ih1 ih2 => exact ih1.trans ih2

theorem groupDescLeP_total (a b : ShardingOptionGroup) :
    groupDescLeP a b = true ∨ groupDescLeP b a = true := by
  simp only [groupDescLeP, storage_le_iff]; omega

theorem groupDescLeP_trans (a b c : ShardingOptionGroup) :
    groupDescLeP a b = true → groupDescLeP b c = true → groupDescLeP a c = true := by
  simp only [groupDescLeP, storage_le_iff]; omega

theorem mem_firstKeysPlain_aux :
    ∀ (l : List ShardingOption) (acc : List String) (k : String),
      k ∈ l.foldl (fun acc so =>
        if groupKey so ∈ acc then acc else acc ++ [groupKey so]) acc →
      k ∈ acc ∨ ∃ so ∈ l, groupKey so = k
  | [], acc, k, h => Or.inl (by simpa [List.foldl] using h)
  | so :: rest, acc, k, h => by
    rw [List.foldl_cons] at h
    rcases mem_firstKeysPlain_aux rest _ k h with h' | ⟨so', hso', hk⟩
    · by_cases hmem : groupKey so ∈ acc
      · rw [if_pos hmem] at h'
        exact Or.inl h'
      · rw [if_neg hmem] at h'
        rcases List.mem_append.1 h' with h'' | h''
        · exact Or.inl h''
        · rw [List.mem_singleton] at h''
          exact Or.inr ⟨so, List.mem_cons_self so rest, h''.symm⟩
    · exact Or.inr ⟨so', List.mem_cons.2 (Or.inr hso'), hk⟩

theorem mem_firstKeysPlain (l : List ShardingOption) (k : String)
    (h : k ∈ firstKeysPlain l) : ∃ so ∈ l, groupKey so = k := by
  rcases mem_firstKeysPlain_aux l [] k h with h' | h'
  · cases h'
  · exact h'

/-- Every specification group is nonempty (its key occurs). -/
theorem groupsSpec_nonempty (sos : List ShardingOption) (G : ShardingOptionGroup)
    (hG : G ∈ groupsSpec sos) : G.sharding_options ≠ [] := by
  rcases List.mem_map.1 hG with ⟨k, hk, rfl⟩
  obtain ⟨so, hso, hkey⟩ := mem_firstKeysPlain _ k hk
  have : so ∈ (nonUniformPlain sos).filter (fun so => decide (groupKey so = k)) :=
    List.mem_filter.2 ⟨hso, by simp [hkey]⟩
  exact List.ne_nil_of_mem this

/-- **C7**: for every proposal, `_group_and_sort_non_uniform_sharding_options`
groups exactly the non-uniform units, keyed by the dependency key when
present (Python `or`: an absent or empty key falls back to the unit's fqn),
computes each group's aggregate storage sum, and returns the groups sorted by
descending storage sum with the sort stable (ties keep first-occurrence
insertion order).  Conjuncts: the result is the stable sort of the
insertion-ordered specification groups; every result group is one complete
key-class, nonempty, with its storage sum; the groups' members concatenate to
a permutation of the non-uniform units (exactly those, each once); the result
is descending in storage sum; and every class of tied storage sums keeps its
pre-sort (insertion) order. -/
theorem c7_grouping (sos : List ShardingOption) :
    _group_and_sort_non_uniform_sharding_options sos =
      pySort groupDescLeP (groupsSpec sos) ∧
    (∀ G ∈ _group_and_sort_non_uniform_sharding_options sos, ∃ k,
      G.sharding_options =
        (nonUniformPlain sos).filter (fun so => decide (groupKey so = k)) ∧
      G.sharding_options ≠ [] ∧
      G.storage_sum = sumStoragePlain G.sharding_options) ∧
    List.Perm
      (((_group_and_sort_non_uniform_sharding_options sos).map
        ShardingOptionGroup.sharding_options).flatten)
      (nonUniformPlain sos) ∧
    (_group_and_sort_non_uniform_sharding_options sos).Pairwise
      (fun a b => Storage.le b.storage_sum a.storage_sum = true) ∧
    (∀ s : Storage,
      (_group_and_sort_non_uniform_sharding_options sos).filter
          (fun G => decide (G.storage_sum = s)) =
        (groupsSpec sos).filter (fun G => decide (G.storage_sum = s))) := by
  have h0 := group_and_sort_eq_spec sos
  refine ⟨h0, ?_, ?_, ?_, ?_⟩
  · intro G hG
    rw [h0] at hG
    have hG' : G ∈ groupsSpec sos := (pySort_mem groupDescLeP _ G).1 hG
    have hne := groupsSpec_nonempty sos G hG'
    rcases List.mem_map.1 hG' with ⟨k, _, rfl⟩
    exact ⟨k, rfl, hne, rfl⟩
  · have hps : List.Perm (_group_and_sort_non_uniform_sharding_options sos)
        (groupsSpec sos) := h0 ▸ pySort_perm groupDescLeP (groupsSpec sos)
    have h1 : List.Perm
        (((_group_and_sort_non_uniform_sharding_options sos).map
          ShardingOptionGroup.sharding_options).flatten)
        (((groupsSpec sos).map ShardingOptionGroup.sharding_options).flatten) :=
      perm_flatten_of_perm (hps.map ShardingOptionGroup.sharding_options)
    refine h1.trans ?_
    rw [← buildGroups_plain_spec sos]
    have hacc := buildGroups_spec sos.enum [] [] goodAcc_nil
    rw [List.nil_append] at hacc
    have hperm := hacc.2.2.2.2
    rw [List.map_map, List.map_map]
    have heq : ((buildGroups sos.enum []).map
        ((ShardingOptionGroup.sharding_options ∘ plainGroup) ∘ Prod.snd)).flatten =
        (((buildGroups sos.enum []).map
          (fun kv => kv.2.options)).map (List.map Prod.snd)).flatten := by
      rw [List.map_map]
      rfl
    rw [heq, ← List.map_flatten]
    rw [← nonUniformOf_enum_map_snd]
    exact hperm.map Prod.snd
  · rw [h0]
    exact pySort_pairwise groupDescLeP groupDescLeP_total groupDescLeP_trans
      (groupsSpec sos)
  · intro s
    rw [h0]
    apply pySort_filter_tied
    intro a b ha hb
    rw [decide_eq_true_eq] at ha hb
    simp only [groupDescLeP, ha, hb]
    rw [storage_le_iff]
    omega

/-- **C7** witness: the grouping applied to a concrete proposal of three
non-uniform units, two of which share a dependency key. -/
theorem c7_grouping_witness :
    _group_and_sort_non_uniform_sharding_options
        [⟨"a", "m", some "dep", "host", "table_row_wise", [⟨⟨1, 0⟩, ⟨1⟩, none⟩]⟩,
         ⟨"b", "m", none, "device", "table_column_wise", [⟨⟨9, 0⟩, ⟨1⟩, none⟩]⟩,
         ⟨"c", "m", some "dep", "host", "table_row_wise", [⟨⟨3, 0⟩, ⟨1⟩, none⟩]⟩] =
      pySort groupDescLeP (groupsSpec
        [⟨"a", "m", some "dep", "host", "table_row_wise", [⟨⟨1, 0⟩, ⟨1⟩, none⟩]⟩,
         ⟨"b", "m", none, "device", "table_column_wise", [⟨⟨9, 0⟩, ⟨1⟩, none⟩]⟩,
         ⟨"c", "m", some "dep", "host", "table_row_wise", [⟨⟨3, 0⟩, ⟨1⟩, none⟩]⟩]) :=
  (c7_grouping _).1

end Torchrec

namespace Torchrec

/-- **C6**: `GreedyPerfPartitioner.partition` never mutates the caller's
`storage_constraint` topology, on success or failure: the source's only use
of the argument is taking the deep copy it works on, and the embedding
threads the caller's object through to the result, where it is returned
unchanged. -/
theorem c6_caller_topology_immutable (proposal : List ShardingOption)
    (storage_constraint : Topology) :
    (GreedyPerfPartitioner.partition proposal storage_constraint).callerTopology =
      storage_constraint := rfl

/-! ## The memory-balance search: tolerance bound -/

/-- Loop invariant: the recorded default plan's rating never exceeds the
tolerance bound; rejected candidates (and failed attempts) leave it
untouched, accepted candidates satisfy the bound. -/
theorem mbLoop_bound (tol : ℚ) (rate : List ShardingOption → Int) (orig : Int) :
    ∀ (fuel : Nat) (st st' : MBState),
      (rate st.defaultPlan : ℚ) ≤ (orig : ℚ) * (1 + tol) →
      mbLoop tol rate orig fuel st = .ok st' →
      (rate st'.defaultPlan : ℚ) ≤ (orig : ℚ) * (1 + tol) := by
  intro fuel
  induction fuel with
  | zero =>
    intro st st' hinv h
    rw [mbLoop] at h
    cases h
    exact hinv
  | succ n ih =>
    intro st st' hinv h
    rw [mbLoop] at h
    by_cases hc : st.minHbm + 10 * 1024 ^ 2 < st.maxHbm
    · rw [if_pos hc] at h
      dsimp only at h
      rcases hpr : (GreedyPerfPartitioner.partition (reset_shard_rank st.proposal)
          (set_hbm_per_device st.topology
            (Int.fdiv (st.maxHbm + st.minHbm) 2))).result with e | u
      · rw [hpr] at h
        dsimp only at h
        by_cases hpl : e.isPlannerError = true
        · rw [if_pos hpl] at h
          refine ih _ _ ?_ h
          exact hinv
        · rw [if_neg hpl] at h
          cases h
      · rw [hpr] at h
        dsimp only at h
        by_cases hgt : ((rate (GreedyPerfPartitioner.partition
            (reset_shard_rank st.proposal)
            (set_hbm_per_device st.topology
              (Int.fdiv (st.maxHbm + st.minHbm) 2))).proposal : Int) : ℚ) >
            (orig : ℚ) * (1 + tol)
        · rw [if_pos hgt] at h
          refine ih _ _ ?_ h
          exact hinv
        · rw [if_neg hgt] at h
          refine ih _ _ ?_ h
          exact le_of_not_lt hgt
    · rw [if_neg hc] at h
      cases h
      exact hinv

/-- **C5**: for every proposal and topology, the plan returned by
`MemoryBalancedPartitioner.partition` has rated perf (under the injected perf
model, a pure rating function which is nonnegative on the baseline) at most
`baselinecost * (1 + tolerance)`, where `baselinecost` rates the
unconstrained baseline plan computed before the search loop; any candidate
whose perf exceeds the bound only raises the lower bound and is never
recorded as the returned plan. -/
theorem c5_tolerance_bound (max_search_count : Nat) (tol : ℚ)
    (rate : List ShardingOption → Int) (proposal : List ShardingOption)
    (storage_constraint : Topology) (plan : List ShardingOption)
    (htol : 0 ≤ tol)
    (hnn : 0 ≤ rate (GreedyPerfPartitioner.partition proposal storage_constraint).proposal)
    (hok : (MemoryBalancedPartitioner.partition max_search_count tol rate proposal
      storage_constraint).result = .ok plan) :
    (rate plan : ℚ) ≤
      (rate (GreedyPerfPartitioner.partition proposal storage_constraint).proposal : ℚ)
        * (1 + tol) := by
  rw [MemoryBalancedPartitioner.partition] at hok
  dsimp only at hok
  rcases hpr0 : (GreedyPerfPartitioner.partition proposal storage_constraint).result
    with e | u
  · rw [hpr0] at hok
    dsimp only at hok
    cases hok
  · rw [hpr0] at hok
    dsimp only at hok
    set orig := rate (GreedyPerfPartitioner.partition proposal storage_constraint).proposal
      with horig
    have hbase : (orig : ℚ) ≤ (orig : ℚ) * (1 + tol) := by
      have h1 : (0 : ℚ) ≤ (orig : ℚ) := by exact_mod_cast hnn
      have h2 : (orig : ℚ) * (1 + tol) = orig + orig * tol := by ring
      rw [h2]
      have := mul_nonneg h1 htol
      linarith
    rcases hml : mbLoop tol rate orig max_search_count
        ⟨Int.tdiv (hbmRequirement
            (GreedyPerfPartitioner.partition proposal storage_constraint).proposal)
          (Int.ofNat storage_constraint.world_size),
        storage_constraint.devices.head?.elim 0 (fun d => d.storage.hbm),
        (GreedyPerfPartitioner.partition proposal storage_constraint).proposal,
        (GreedyPerfPartitioner.partition proposal storage_constraint).proposal,
        storage_constraint, 0⟩ with e2 | st
    · rw [hml] at hok
      dsimp only at hok
      cases hok
    · rw [hml] at hok
      dsimp only at hok
      injection hok with hok
      rw [← hok]
      exact mbLoop_bound tol rate orig max_search_count _ st hbase hml

/-! ## Dispatch-loop lemmas -/

/-- Dispatching a concatenation: once a prefix of groups succeeds, the rest is
dispatched from the resulting state (groups are processed sequentially, each
exactly once). -/
theorem dispatchGroups_append (lws : Nat) :
    ∀ (pre post : List IdxGroup) (st : OrchState),
      (dispatchGroups lws pre st).1 = .ok () →
      dispatchGroups lws (pre ++ post) st =
        dispatchGroups lws post (dispatchGroups lws pre st).2
  | [], post, st, _ => rfl
  | g :: pre', post, st, hok => by
    rw [List.cons_append]
    rcases hst : dispatchStep lws g st with ⟨res, st'⟩
    simp only [dispatchGroups, hst] at hok ⊢
    rcases res with e | u
    · dsimp only at hok
      cases hok
    · dsimp only at hok ⊢
      exact dispatchGroups_append lws pre' post st' hok

/-- Looking up the (unique) group holding a given non-uniform option: it is
the complete key-class of that option's grouping key. -/
theorem same_key_same_group (l : List (Nat × ShardingOption))
    (iso : Nat × ShardingOption) (h : iso ∈ nonUniformOf l) :
    ∃ g ∈ groupNonUniformIdx l,
      g.options = (nonUniformOf l).filter
        (fun iso' => decide (groupKey iso'.2 = groupKey iso.2)) := by
  have hacc := buildGroups_spec l [] [] goodAcc_nil
  rw [List.nil_append] at hacc
  obtain ⟨hkeys, hnodup, hclass, hcover, hperm⟩ := hacc
  have hkey := hcover iso h
  rcases List.mem_map.1 hkey with ⟨kv, hkv, hfst⟩
  refine ⟨kv.2, ?_, ?_⟩
  · rw [groupNonUniformIdx, pySort_mem]
    exact List.mem_map_of_mem Prod.snd hkv
  · rw [(hclass kv hkv).1, hfst]

/-- A device-scoped group that is not a singleton hits the Python `assert` at
dispatch, leaving the state untouched. -/
theorem dispatchStep_assert (lws : Nat) (g : IdxGroup) (st : OrchState)
    (i0 : Nat) (so0 : ShardingOption) (gtail : List (Nat × ShardingOption))
    (hopts : g.options = (i0, so0) :: gtail)
    (hdev : so0.partition_by = PartitionByType.DEVICE)
    (hlen : g.options.length ≠ 1) :
    dispatchStep lws g st = (.error (.assertionError g.options.length), st) := by
  have hhost : ¬ so0.partition_by = PartitionByType.HOST := by
    rw [hdev]
    decide
  rw [hopts] at hlen
  unfold dispatchStep
  rw [hopts]
  dsimp only
  rw [if_neg hhost, if_pos hdev, if_neg hlen]

/-- A group whose first member carries an unrecognized strategy tag raises the
`RuntimeError` at dispatch, leaving the state untouched. -/
theorem dispatchStep_unexpected (lws : Nat) (g : IdxGroup) (st : OrchState)
    (i0 : Nat) (so0 : ShardingOption) (gtail : List (Nat × ShardingOption))
    (hopts : g.options = (i0, so0) :: gtail)
    (hhost : so0.partition_by ≠ PartitionByType.HOST)
    (hdev : so0.partition_by ≠ PartitionByType.DEVICE) :
    dispatchStep lws g st =
      (.error (.unexpectedGroupError ⟨g.options.map Prod.snd, g.storage_sum⟩), st) := by
  unfold dispatchStep
  rw [hopts]
  dsimp only
  rw [if_neg hhost, if_neg hdev]

/-- A co-host trial hitting a member with a sharding type outside the
row-wise/column-wise pair raises the `RuntimeError` immediately. -/
theorem cohostTrial_badtype (i : Nat) (so : ShardingOption)
    (rest : List (Nat × ShardingOption)) (devs : List DeviceHardware)
    (hrw : so.sharding_type ≠ ShardingType.TABLE_ROW_WISE)
    (hcw : so.sharding_type ≠ ShardingType.TABLE_COLUMN_WISE) :
    cohostTrialGo ((i, so) :: rest) devs =
      .fatal (.cohostShardingTypeError so.sharding_type) ((i, so) :: rest) := by
  simp only [cohostTrialGo]
  rw [if_neg hrw, if_neg hcw]

/-- The co-host packer's `PlannerError` handler does not absorb a
`RuntimeError`: a fatal trial outcome aborts the host loop at once; remaining
hosts are not tried. -/
theorem cohostGo_fatal (storage_sum : Storage) (hi : Nat)
    (devs : List DeviceHardware) (rest : List (Nat × List DeviceHardware))
    (options sos' : List (Nat × ShardingOption)) (e : PErr)
    (hfit : storage_sum.fits_in (hostStorage devs) = true)
    (htrial : cohostTrialGo options devs = .fatal e sos') :
    cohostGo storage_sum ((hi, devs) :: rest) options = (.error e, sos') := by
  simp only [cohostGo, hfit, Bool.not_true, Bool.false_eq_true, if_false, htrial]

/-- The memory-balance loop converts every `PlannerError` into tightening the
lower bound; an error that escapes the loop is never a `PlannerError`. -/
theorem mbLoop_error_not_planner (tol : ℚ) (rate : List ShardingOption → Int)
    (orig : Int) :
    ∀ (fuel : Nat) (st : MBState) (e : PErr),
      mbLoop tol rate orig fuel st = .error e → e.isPlannerError = false := by
  intro fuel
  induction fuel with
  | zero =>
    intro st e h
    rw [mbLoop] at h
    cases h
  | succ n ih =>
    intro st e h
    rw [mbLoop] at h
    by_cases hc : st.minHbm + 10 * 1024 ^ 2 < st.maxHbm
    · rw [if_pos hc] at h
      dsimp only at h
      rcases hpr : (GreedyPerfPartitioner.partition (reset_shard_rank st.proposal)
          (set_hbm_per_device st.topology
            (Int.fdiv (st.maxHbm + st.minHbm) 2))).result with e2 | u
      · rw [hpr] at h
        dsimp only at h
        by_cases hpl : e2.isPlannerError = true
        · rw [if_pos hpl] at h
          exact ih _ _ h
        · rw [if_neg hpl] at h
          injection h with h
          subst h
          cases he2 : e2.isPlannerError
          · rfl
          · exact absurd he2 hpl
      · rw [hpr] at h
        dsimp only at h
        by_cases hgt : ((rate (GreedyPerfPartitioner.partition
            (reset_shard_rank st.proposal)
            (set_hbm_per_device st.topology
              (Int.fdiv (st.maxHbm + st.minHbm) 2))).proposal : Int) : ℚ) >
            (orig : ℚ) * (1 + tol)
        · rw [if_pos hgt] at h
          exact ih _ _ h
        · rw [if_neg hgt] at h
          exact ih _ _ h
    · rw [if_neg hc] at h
      cases h

/-- **C10** (amended).  Device-scoped groups must be singletons.  Conjuncts:
(1) a dispatched group whose first member is device-tagged and whose size is
not 1 raises a Python `AssertionError` (not a `PlannerError`) with the state
untouched; (2) the same whenever the dispatch loop reaches such a group after
a successful prefix; (3) lifted to `GreedyPerfPartitioner.partition` when
that group is dispatched first: the call fails with the assertion error and
the caller's proposal holds exactly the uniform pass's output — no shard of
the group was placed; (4) units sharing a grouping key always land in one
group, the complete key-class.  (The claim's unconditional form is false:
an earlier group's capacity failure preempts the assertion — see the
counterexample.) -/
theorem c10_device_group_assert :
    (∀ (lws : Nat) (g : IdxGroup) (st : OrchState) (i0 : Nat)
        (so0 : ShardingOption) (gtail : List (Nat × ShardingOption)),
      g.options = (i0, so0) :: gtail →
      so0.partition_by = PartitionByType.DEVICE →
      g.options.length ≠ 1 →
      dispatchStep lws g st = (.error (.assertionError g.options.length), st) ∧
      (PErr.assertionError g.options.length).isPlannerError = false) ∧
    (∀ (lws : Nat) (pre post : List IdxGroup) (g : IdxGroup) (st : OrchState)
        (i0 : Nat) (so0 : ShardingOption) (gtail : List (Nat × ShardingOption)),
      (dispatchGroups lws pre st).1 = .ok () →
      g.options = (i0, so0) :: gtail →
      so0.partition_by = PartitionByType.DEVICE →
      g.options.length ≠ 1 →
      dispatchGroups lws (pre ++ g :: post) st =
        (.error (.assertionError g.options.length), (dispatchGroups lws pre st).2)) ∧
    (∀ (proposal : List ShardingOption) (storage_constraint : Topology)
        (g : IdxGroup) (rest : List IdxGroup) (i0 : Nat) (so0 : ShardingOption)
        (gtail : List (Nat × ShardingOption)),
      (uniformPassGo (proposal.enum.filter
          (fun iso => decide (iso.2.partition_by = PartitionByType.UNIFORM)))
        storage_constraint.devices).1 = .ok () →
      groupNonUniformIdx (updProposal proposal (uniformPassGo (proposal.enum.filter
          (fun iso => decide (iso.2.partition_by = PartitionByType.UNIFORM)))
        storage_constraint.devices).2.1).enum = g :: rest →
      g.options = (i0, so0) :: gtail →
      so0.partition_by = PartitionByType.DEVICE →
      g.options.length ≠ 1 →
      (GreedyPerfPartitioner.partition proposal storage_constraint).result =
        .error (.assertionError g.options.length) ∧
      (GreedyPerfPartitioner.partition proposal storage_constraint).proposal =
        updProposal proposal (uniformPassGo (proposal.enum.filter
          (fun iso => decide (iso.2.partition_by = PartitionByType.UNIFORM)))
        storage_constraint.devices).2.1) ∧
    (∀ (l : List (Nat × ShardingOption)) (iso : Nat × ShardingOption),
      iso ∈ nonUniformOf l →
      ∃ g ∈ groupNonUniformIdx l,
        g.options = (nonUniformOf l).filter
          (fun iso' => decide (groupKey iso'.2 = groupKey iso.2))) := by
  refine ⟨?_, ?_, ?_, fun l iso h => same_key_same_group l iso h⟩
  · intro lws g st i0 so0 gtail hopts hdev hlen
    exact ⟨dispatchStep_assert lws g st i0 so0 gtail hopts hdev hlen, rfl⟩
  · intro lws pre post g st i0 so0 gtail hpre hopts hdev hlen
    rw [dispatchGroups_append lws pre (g :: post) _ hpre]
    simp only [dispatchGroups,
      dispatchStep_assert lws g _ i0 so0 gtail hopts hdev hlen]
  · intro proposal t g rest i0 so0 gtail huni hgrp hopts hdev hlen
    rcases hpg : uniformPassGo (proposal.enum.filter
        (fun iso => decide (iso.2.partition_by = PartitionByType.UNIFORM)))
        t.devices with ⟨res, usos, devs⟩
    rw [hpg] at huni hgrp
    dsimp only at huni hgrp
    rcases res with e | u
    · cases huni
    · have hcore : GreedyPerfPartitioner.partitionCore proposal t =
          (.error (.assertionError g.options.length), updProposal proposal usos,
            none) := by
        unfold GreedyPerfPartitioner.partitionCore
        dsimp only
        rw [hpg]
        dsimp only
        rw [hgrp]
        simp only [dispatchGroups,
          dispatchStep_assert t.local_world_size g
            ⟨updProposal proposal usos, devs, devs⟩ i0 so0 gtail hopts hdev hlen]
      constructor
      · show (GreedyPerfPartitioner.partitionCore proposal t).1 = _
        rw [hcore]
      · show (GreedyPerfPartitioner.partitionCore proposal t).2.1 = _
        rw [hcore]

/-- **C10**, counterexample to the claim as stated: a proposal containing two
per-device units sharing dependency key "k" for which `partition` does not
fail with an assertion error — a larger device-scoped group is dispatched
first (groups are sorted by descending storage) and its capacity-exhaustion
`PlannerError` preempts the dispatch of the offending group. -/
theorem c10_counterexample :
    (GreedyPerfPartitioner.partition
        [⟨"a", "m", some "k", "device", "table_column_wise",
            [⟨⟨2, 0⟩, ⟨1⟩, none⟩]⟩,
         ⟨"b", "m", some "k", "device", "table_column_wise",
            [⟨⟨2, 0⟩, ⟨1⟩, none⟩]⟩,
         ⟨"c", "m", none, "device", "table_column_wise",
            [⟨⟨99, 0⟩, ⟨1⟩, none⟩]⟩]
        ⟨[⟨0, ⟨10, 100⟩, ⟨0⟩⟩, ⟨1, ⟨10, 100⟩, ⟨0⟩⟩], 2⟩).result =
      .error (.devicePartitionError ⟨⟨99, 0⟩, ⟨1⟩, none⟩ "c"
        (some ⟨10, 100⟩)) ∧
    (PErr.devicePartitionError ⟨⟨99, 0⟩, ⟨1⟩, none⟩ "c"
        (some ⟨10, 100⟩)).isPlannerError = true :=
  ⟨by decide, by decide⟩

/-- **C10** witness: the amended theorem's partition-level conjunct at a
concrete proposal whose only group is a device-tagged pair sharing
dependency key "k": the assertion error fires and the proposal is
untouched. -/
theorem c10_device_group_assert_witness :
    (GreedyPerfPartitioner.partition
        [⟨"a", "m", some "k", "device", "table_column_wise",
            [⟨⟨2, 0⟩, ⟨1⟩, none⟩]⟩,
         ⟨"b", "m", some "k", "device", "table_column_wise",
            [⟨⟨2, 0⟩, ⟨1⟩, none⟩]⟩]
        ⟨[⟨0, ⟨10, 100⟩, ⟨0⟩⟩, ⟨1, ⟨10, 100⟩, ⟨0⟩⟩], 2⟩).result =
      .error (.assertionError
        (IdxGroup.mk
          [(0, ⟨"a", "m", some "k", "device", "table_column_wise",
              [⟨⟨2, 0⟩, ⟨1⟩, none⟩]⟩),
           (1, ⟨"b", "m", some "k", "device", "table_column_wise",
              [⟨⟨2, 0⟩, ⟨1⟩, none⟩]⟩)] ⟨4, 0⟩).options.length) := by
  have h := (c10_device_group_assert.2.2.1)
    [⟨"a", "m", some "k", "device", "table_column_wise", [⟨⟨2, 0⟩, ⟨1⟩, none⟩]⟩,
     ⟨"b", "m", some "k", "device", "table_column_wise", [⟨⟨2, 0⟩, ⟨1⟩, none⟩]⟩]
    ⟨[⟨0, ⟨10, 100⟩, ⟨0⟩⟩, ⟨1, ⟨10, 100⟩, ⟨0⟩⟩], 2⟩
    (IdxGroup.mk
      [(0, ⟨"a", "m", some "k", "device", "table_column_wise",
          [⟨⟨2, 0⟩, ⟨1⟩, none⟩]⟩),
       (1, ⟨"b", "m", some "k", "device", "table_column_wise",
          [⟨⟨2, 0⟩, ⟨1⟩, none⟩]⟩)] ⟨4, 0⟩)
    [] 0
    ⟨"a", "m", some "k", "device", "table_column_wise", [⟨⟨2, 0⟩, ⟨1⟩, none⟩]⟩
    [(1, ⟨"b", "m", some "k", "device", "table_column_wise",
        [⟨⟨2, 0⟩, ⟨1⟩, none⟩]⟩)]
    (by decide) (by decide) (by decide) (by decide) (by decide)
  exact h.1

/-- **C9** (amended).  Structural faults are fatal and never retried, when
their check is reached.  Conjuncts: (1) a dispatched group whose first unit
carries an unrecognized `partition_by` tag raises the `RuntimeError` (not a
`PlannerError`); (2) a co-host trial reaching a member whose sharding type is
outside the row-wise/column-wise pair raises the `RuntimeError` at once;
(3) the co-host packer's `PlannerError` handler does not absorb it — a fatal
trial aborts the host loop immediately, with no try-next-host retry; (4) an
error escaping the meta-optimizer's search loop is never a `PlannerError`;
(5) with a successful baseline, any error returned by
`MemoryBalancedPartitioner.partition` is a non-`PlannerError` propagated to
the caller.  (The claim's unconditional form — such an input always raises
`RuntimeError` — is false: an earlier group's capacity `PlannerError` can
preempt the structural check; see the counterexample.) -/
theorem c9_structural_faults :
    (∀ (lws : Nat) (g : IdxGroup) (st : OrchState) (i0 : Nat)
        (so0 : ShardingOption) (gtail : List (Nat × ShardingOption)),
      g.options = (i0, so0) :: gtail →
      so0.partition_by ≠ PartitionByType.HOST →
      so0.partition_by ≠ PartitionByType.DEVICE →
      dispatchStep lws g st =
        (.error (.unexpectedGroupError ⟨g.options.map Prod.snd, g.storage_sum⟩), st) ∧
      (PErr.unexpectedGroupError
        ⟨g.options.map Prod.snd, g.storage_sum⟩).isPlannerError = false) ∧
    (∀ (i : Nat) (so : ShardingOption) (rest : List (Nat × ShardingOption))
        (devs : List DeviceHardware),
      so.sharding_type ≠ ShardingType.TABLE_ROW_WISE →
      so.sharding_type ≠ ShardingType.TABLE_COLUMN_WISE →
      cohostTrialGo ((i, so) :: rest) devs =
        .fatal (.cohostShardingTypeError so.sharding_type) ((i, so) :: rest) ∧
      (PErr.cohostShardingTypeError so.sharding_type).isPlannerError = false) ∧
    (∀ (storage_sum : Storage) (hi : Nat) (devs : List DeviceHardware)
        (rest : List (Nat × List DeviceHardware))
        (options sos' : List (Nat × ShardingOption)) (e : PErr),
      storage_sum.fits_in (hostStorage devs) = true →
      cohostTrialGo options devs = .fatal e sos' →
      cohostGo storage_sum ((hi, devs) :: rest) options = (.error e, sos')) ∧
    (∀ (tol : ℚ) (rate : List ShardingOption → Int) (orig : Int) (fuel : Nat)
        (st : MBState) (e : PErr),
      mbLoop tol rate orig fuel st = .error e → e.isPlannerError = false) ∧
    (∀ (max_search_count : Nat) (tol : ℚ) (rate : List ShardingOption → Int)
        (proposal : List ShardingOption) (storage_constraint : Topology) (e : PErr),
      (GreedyPerfPartitioner.partition proposal storage_constraint).result = .ok () →
      (MemoryBalancedPartitioner.partition max_search_count tol rate proposal
        storage_constraint).result = .error e →
      e.isPlannerError = false) := by
  refine ⟨?_, ?_, ?_, ?_, ?_⟩
  · intro lws g st i0 so0 gtail hopts hhost hdev
    exact ⟨dispatchStep_unexpected lws g st i0 so0 gtail hopts hhost hdev, rfl⟩
  · intro i so rest devs hrw hcw
    exact ⟨cohostTrial_badtype i so rest devs hrw hcw, rfl⟩
  · intro storage_sum hi devs rest options sos' e hfit htrial
    exact cohostGo_fatal storage_sum hi devs rest options sos' e hfit htrial
  · intro tol rate orig fuel st e h
    exact mbLoop_error_not_planner tol rate orig fuel st e h
  · intro msc tol rate proposal t e hbase herr
    rw [MemoryBalancedPartitioner.partition] at herr
    dsimp only at herr
    rw [hbase] at herr
    dsimp only at herr
    rcases hml : mbLoop tol rate
        (rate (GreedyPerfPartitioner.partition proposal t).proposal) msc
        ⟨Int.tdiv (hbmRequirement
            (GreedyPerfPartitioner.partition proposal t).proposal)
          (Int.ofNat t.world_size),
        t.devices.head?.elim 0 (fun d => d.storage.hbm),
        (GreedyPerfPartitioner.partition proposal t).proposal,
        (GreedyPerfPartitioner.partition proposal t).proposal,
        t, 0⟩ with e2 | st
    · rw [hml] at herr
      dsimp only at herr
      injection herr with herr
      subst herr
      exact mbLoop_error_not_planner tol rate _ msc _ e2 hml
    · rw [hml] at herr
      dsimp only at herr
      cases herr

/-- **C9**, counterexample to the claim as stated: a proposal whose "x" unit
carries the unrecognized tag "weird", for which `partition` raises a
capacity-exhaustion `PlannerError` (from the larger group dispatched first),
not a `RuntimeError`. -/
theorem c9_counterexample :
    (GreedyPerfPartitioner.partition
        [⟨"x", "m", none, "weird", "table_row_wise", [⟨⟨1, 0⟩, ⟨1⟩, none⟩]⟩,
         ⟨"c", "m", none, "device", "table_column_wise",
            [⟨⟨99, 0⟩, ⟨1⟩, none⟩]⟩]
        ⟨[⟨0, ⟨10, 100⟩, ⟨0⟩⟩, ⟨1, ⟨10, 100⟩, ⟨0⟩⟩], 2⟩).result =
      .error (.devicePartitionError ⟨⟨99, 0⟩, ⟨1⟩, none⟩ "c"
        (some ⟨10, 100⟩)) ∧
    (PErr.devicePartitionError ⟨⟨99, 0⟩, ⟨1⟩, none⟩ "c"
        (some ⟨10, 100⟩)).isPlannerError = true :=
  ⟨by decide, by decide⟩

/-- **C9** witness: the amended theorem's first two conjuncts at concrete
inputs — a reached unrecognized-tag group raises the non-planner
`RuntimeError`, and a reached bad sharding type aborts the trial at once. -/
theorem c9_structural_faults_witness :
    dispatchStep 2
        (IdxGroup.mk [(0, ⟨"x", "m", none, "weird", "table_row_wise",
          [⟨⟨1, 0⟩, ⟨1⟩, none⟩]⟩)] ⟨1, 0⟩)
        ⟨[], [], []⟩ =
      (.error (.unexpectedGroupError
        ⟨[⟨"x", "m", none, "weird", "table_row_wise", [⟨⟨1, 0⟩, ⟨1⟩, none⟩]⟩],
          ⟨1, 0⟩⟩), ⟨[], [], []⟩) ∧
    cohostTrialGo
        [(0, ⟨"y", "m", none, "host", "data_parallel", [⟨⟨1, 0⟩, ⟨1⟩, none⟩]⟩)]
        [⟨0, ⟨10, 100⟩, ⟨0⟩⟩] =
      .fatal (.cohostShardingTypeError "data_parallel")
        [(0, ⟨"y", "m", none, "host", "data_parallel", [⟨⟨1, 0⟩, ⟨1⟩, none⟩]⟩)] := by
  constructor
  · exact (c9_structural_faults.1 2
      (IdxGroup.mk [(0, ⟨"x", "m", none, "weird", "table_row_wise",
        [⟨⟨1, 0⟩, ⟨1⟩, none⟩]⟩)] ⟨1, 0⟩)
      ⟨[], [], []⟩ 0
      ⟨"x", "m", none, "weird", "table_row_wise", [⟨⟨1, 0⟩, ⟨1⟩, none⟩]⟩ []
      (by decide) (by decide) (by decide)).1
  · exact (c9_structural_faults.2.1 0
      ⟨"y", "m", none, "host", "data_parallel", [⟨⟨1, 0⟩, ⟨1⟩, none⟩]⟩ []
      [⟨0, ⟨10, 100⟩, ⟨0⟩⟩] (by decide) (by decide)).1

/-! ## Rank bookkeeping for the co-location invariant -/

/-- The rank sequence of a device list (device identity). -/
def ranksOf (devs : List DeviceHardware) : List Nat :=
  devs.map DeviceHardware.rank

theorem uniformAssign_ranks :
    ∀ (shards : List Shard) (devs : List DeviceHardware),
      ranksOf (uniformAssign shards devs).2.2 = ranksOf devs
  | [], devs => rfl
  | _ :: _, [] => rfl
  | s :: ss, d :: ds => by
    by_cases h : s.storage.fits_in d.storage = true
    · simp only [uniformAssign, if_pos h, ranksOf, List.map_cons]
      exact congrArg (d.rank :: ·) (uniformAssign_ranks ss ds)
    · simp only [uniformAssign, if_neg h]

theorem uniformAssign_shard_ranks :
    ∀ (shards : List Shard) (devs : List DeviceHardware),
      shards.length = devs.length →
      (uniformAssign shards devs).1 = .ok () →
      ∀ s' ∈ (uniformAssign shards devs).2.1,
        ∃ r, s'.rank = some r ∧ r ∈ ranksOf devs
  | [], [], _, _ => by
    intro s' hs'
    simp [uniformAssign] at hs'
  | [], _ :: _, hlen, _ => by simp at hlen
  | _ :: _, [], hlen, _ => by simp at hlen
  | s :: ss, d :: ds, hlen, hok => by
    intro s' hs'
    by_cases h : s.storage.fits_in d.storage = true
    · rw [uniformAssign, if_pos h] at hok hs'
      dsimp only at hok hs'
      rcases List.mem_cons.1 hs' with rfl | hs''
      · exact ⟨d.rank, rfl, by simp [ranksOf]⟩
      · obtain ⟨r, hr, hmem⟩ := uniformAssign_shard_ranks ss ds
          (by simpa using hlen) hok s' hs''
        exact ⟨r, hr, by simp [ranksOf] at hmem ⊢; exact Or.inr hmem⟩
    · rw [uniformAssign, if_neg h] at hok
      cases hok

theorem assignFirstFit_ranks (shard : Shard) (devs : List DeviceHardware)
    (r : Nat) (devs' : List DeviceHardware)
    (h : assignFirstFit shard devs = some (r, devs')) :
    ranksOf devs' = ranksOf devs ∧ r ∈ ranksOf devs := by
  obtain ⟨pre, d, post, hsplit, _, _, hr, hupd⟩ := assignFirstFit_some shard devs r devs' h
  subst hsplit hupd hr
  constructor
  · simp [ranksOf]
  · simp [ranksOf]

theorem pySort_ranks_perm (le : DeviceHardware → DeviceHardware → Bool)
    (devs : List DeviceHardware) :
    List.Perm (ranksOf (pySort le devs)) (ranksOf devs) :=
  (pySort_perm le devs).map DeviceHardware.rank

theorem devicePartitionGo_ranks (tableName : String) (lws : Nat) :
    ∀ (shards : List Shard) (devs : List DeviceHardware),
      (_device_partition_go tableName lws shards devs).1 = .ok () →
      List.Perm (ranksOf (_device_partition_go tableName lws shards devs).2.2)
        (ranksOf devs) ∧
      ∀ s' ∈ (_device_partition_go tableName lws shards devs).2.1,
        ∃ r, s'.rank = some r ∧ r ∈ ranksOf devs
  | [], devs, _ => by
    refine ⟨List.Perm.refl _, ?_⟩
    intro s' hs'
    simp [_device_partition_go] at hs'
  | shard :: rest, devs, hok => by
    rcases haf : assignFirstFit shard (pySort (deviceSortLe lws) devs)
      with _ | ⟨r, devs'⟩
    · rw [_device_partition_go, haf] at hok
      cases hok
    · have hok' : (_device_partition_go tableName lws rest devs').1 = .ok () := by
        rw [_device_partition_go, haf] at hok
        exact hok
      obtain ⟨hranks, hmem⟩ := assignFirstFit_ranks shard _ r devs' haf
      have hsort := pySort_ranks_perm (deviceSortLe lws) devs
      have hperm' : List.Perm (ranksOf devs') (ranksOf devs) :=
        hranks ▸ hsort
      obtain ⟨ihperm, ihmem⟩ := devicePartitionGo_ranks tableName lws rest devs' hok'
      constructor
      · rw [_device_partition_go, haf]
        dsimp only
        exact ihperm.trans hperm'
      · rw [_device_partition_go, haf]
        dsimp only
        intro s' hs'
        rcases List.mem_cons.1 hs' with rfl | hs''
        · exact ⟨r, rfl, hsort.mem_iff.1 hmem⟩
        · obtain ⟨r', hr', hmem'⟩ := ihmem s' hs''
          exact ⟨r', hr', hperm'.mem_iff.1 hmem'⟩

theorem uniformPartitionOne_ranks (so : ShardingOption) (devs : List DeviceHardware)
    (hok : (GreedyPerfPartitioner._uniform_partition_one so devs).1 = .ok ()) :
    ranksOf (GreedyPerfPartitioner._uniform_partition_one so devs).2.2 = ranksOf devs ∧
    ∀ s' ∈ (GreedyPerfPartitioner._uniform_partition_one so devs).2.1.shards,
      ∃ r, s'.rank = some r ∧ r ∈ ranksOf devs := by
  by_cases hc : so.num_shards ≠ devs.length
  · rw [GreedyPerfPartitioner._uniform_partition_one, if_pos hc] at hok
    cases hok
  · rw [GreedyPerfPartitioner._uniform_partition_one, if_neg hc] at hok ⊢
    dsimp only at hok ⊢
    have hlen : so.shards.length = devs.length := by
      rw [← ShardingOption.num_shards]
      exact not_not.1 hc
    exact ⟨uniformAssign_ranks so.shards devs,
      uniformAssign_shard_ranks so.shards devs hlen hok⟩

theorem devicePartition_ranks (so : ShardingOption) (devs : List DeviceHardware)
    (lws : Nat)
    (hok : (GreedyPerfPartitioner._device_partition so devs lws).1 = .ok ()) :
    List.Perm (ranksOf (GreedyPerfPartitioner._device_partition so devs lws).2.2)
      (ranksOf devs) ∧
    ∀ s' ∈ (GreedyPerfPartitioner._device_partition so devs lws).2.1.shards,
      ∃ r, s'.rank = some r ∧ r ∈ ranksOf devs := by
  rw [GreedyPerfPartitioner._device_partition] at hok ⊢
  dsimp only at hok ⊢
  exact devicePartitionGo_ranks so.name lws so.shards devs hok

/-- The options carried by a trial outcome (present in all three cases). -/
def TrialOutcome.options : TrialOutcome → List (Nat × ShardingOption)
  | .success o _ => o
  | .plannerFail o => o
  | .fatal _ o => o

/-- Host trials thread the group's options: the proposal positions are
preserved whatever the outcome. -/
theorem cohostTrialGo_fst :
    ∀ (options : List (Nat × ShardingOption)) (devs : List DeviceHardware),
      ((cohostTrialGo options devs).options).map Prod.fst = options.map Prod.fst
  | [], devs => rfl
  | (i, so) :: rest, devs => by
    by_cases hrw : so.sharding_type = ShardingType.TABLE_ROW_WISE
    · rw [cohostTrialGo, if_pos hrw]
      rcases hu : GreedyPerfPartitioner._uniform_partition_one so devs
        with ⟨res, so', devs1⟩
      rcases res with e | u
      · dsimp only
        by_cases hpl : e.isPlannerError = true
        · rw [if_pos hpl]
          simp [TrialOutcome.options]
        · rw [if_neg hpl]
          simp [TrialOutcome.options]
      · dsimp only
        have ih := cohostTrialGo_fst rest devs1
        cases hrec : cohostTrialGo rest devs1 with
        | success o' d' =>
          rw [hrec] at ih
          simpa [TrialOutcome.options] using ih
        | plannerFail o' =>
          rw [hrec] at ih
          simpa [TrialOutcome.options] using ih
        | fatal e o' =>
          rw [hrec] at ih
          simpa [TrialOutcome.options] using ih
    · by_cases hcw : so.sharding_type = ShardingType.TABLE_COLUMN_WISE
      · rw [cohostTrialGo, if_neg hrw, if_pos hcw]
        rcases hd : GreedyPerfPartitioner._device_partition so devs devs.length
          with ⟨res, so', devs1⟩
        rcases res with e | u
        · dsimp only
          by_cases hpl : e.isPlannerError = true
          · rw [if_pos hpl]
            simp [TrialOutcome.options]
          · rw [if_neg hpl]
            simp [TrialOutcome.options]
        · dsimp only
          have ih := cohostTrialGo_fst rest devs1
          cases hrec : cohostTrialGo rest devs1 with
          | success o' d' =>
            rw [hrec] at ih
            simpa [TrialOutcome.options] using ih
          | plannerFail o' =>
            rw [hrec] at ih
            simpa [TrialOutcome.options] using ih
          | fatal e o' =>
            rw [hrec] at ih
            simpa [TrialOutcome.options] using ih
      · rw [cohostTrialGo, if_neg hrw, if_neg hcw]
        simp [TrialOutcome.options]

/-- A successful host trial: the trial devices keep the host's rank multiset
and every shard of every group member is assigned a rank of that host. -/
theorem cohostTrialGo_success_spec :
    ∀ (options : List (Nat × ShardingOption)) (devs : List DeviceHardware)
      (options' : List (Nat × ShardingOption)) (devs' : List DeviceHardware),
      cohostTrialGo options devs = .success options' devs' →
      List.Perm (ranksOf devs') (ranksOf devs) ∧
      ∀ iso ∈ options', ∀ s' ∈ iso.2.shards, ∃ r, s'.rank = some r ∧ r ∈ ranksOf devs
  | [], devs, options', devs', h => by
    rw [cohostTrialGo] at h
    injection h with h1 h2
    subst h1 h2
    exact ⟨List.Perm.refl _, by intro iso hiso; cases hiso⟩
  | (i, so) :: rest, devs, options', devs', h => by
    by_cases hrw : so.sharding_type = ShardingType.TABLE_ROW_WISE
    · rw [cohostTrialGo, if_pos hrw] at h
      rcases hu : GreedyPerfPartitioner._uniform_partition_one so devs
        with ⟨res, so', devs1⟩
      rw [hu] at h
      rcases res with e | u
      · dsimp only at h
        by_cases hpl : e.isPlannerError = true
        · rw [if_pos hpl] at h
          cases h
        · rw [if_neg hpl] at h
          cases h
      · dsimp only at h
        rcases hrec : cohostTrialGo rest devs1 with ⟨o', d'⟩ | o' | ⟨e, o'⟩ <;>
          rw [hrec] at h
        · injection h with h1 h2
          subst h1 h2
          have hokU : (GreedyPerfPartitioner._uniform_partition_one so devs).1 =
              .ok () := by rw [hu]
          obtain ⟨hr1, hr2⟩ := uniformPartitionOne_ranks so devs hokU
          have hdevs1 : ranksOf devs1 = ranksOf devs := by
            rw [hu] at hr1
            exact hr1
          obtain ⟨ihperm, ihmem⟩ := cohostTrialGo_success_spec rest devs1 o' d' hrec
          refine ⟨by rw [← hdevs1]; exact ihperm, ?_⟩
          intro iso hiso s' hs'
          rcases List.mem_cons.1 hiso with rfl | hiso'
          · exact hr2 s' (by rw [hu]; exact hs')
          · obtain ⟨r, hr, hmem⟩ := ihmem iso hiso' s' hs'
            exact ⟨r, hr, hdevs1 ▸ hmem⟩
        · cases h
        · cases h
    · by_cases hcw : so.sharding_type = ShardingType.TABLE_COLUMN_WISE
      · rw [cohostTrialGo, if_neg hrw, if_pos hcw] at h
        rcases hd : GreedyPerfPartitioner._device_partition so devs devs.length
          with ⟨res, so', devs1⟩
        rw [hd] at h
        rcases res with e | u
        · dsimp only at h
          by_cases hpl : e.isPlannerError = true
          · rw [if_pos hpl] at h
            cases h
          · rw [if_neg hpl] at h
            cases h
        · dsimp only at h
          rcases hrec : cohostTrialGo rest devs1 with ⟨o', d'⟩ | o' | ⟨e, o'⟩ <;>
            rw [hrec] at h
          · injection h with h1 h2
            subst h1 h2
            have hokD : (GreedyPerfPartitioner._device_partition so devs
                devs.length).1 = .ok () := by rw [hd]
            obtain ⟨hr1, hr2⟩ := devicePartition_ranks so devs devs.length hokD
            have hdevs1 : List.Perm (ranksOf devs1) (ranksOf devs) := by
              rw [hd] at hr1
              exact hr1
            obtain ⟨ihperm, ihmem⟩ := cohostTrialGo_success_spec rest devs1 o' d' hrec
            refine ⟨ihperm.trans hdevs1, ?_⟩
            intro iso hiso s' hs'
            rcases List.mem_cons.1 hiso with rfl | hiso'
            · exact hr2 s' (by rw [hd]; exact hs')
            · obtain ⟨r, hr, hmem⟩ := ihmem iso hiso' s' hs'
              exact ⟨r, hr, hdevs1.mem_iff.1 hmem⟩
          · cases h
          · cases h
      · rw [cohostTrialGo, if_neg hrw, if_neg hcw] at h
        cases h

/-! ### Field preservation: the packers mutate only shard ranks -/

/-- `reset_shard_rank` on one shard: erase the assigned rank. -/
def resetShard (s : Shard) : Shard := {s with rank := none}

/-- Identity, dependency key, strategy tags, and ranks-erased shards of a
unit survive the packers (only shard ranks are rewritten). -/
def FieldsEq (a b : ShardingOption) : Prop :=
  a.name = b.name ∧ a.path = b.path ∧ a.dependency = b.dependency ∧
    a.partition_by = b.partition_by ∧ a.sharding_type = b.sharding_type ∧
    a.shards.map resetShard = b.shards.map resetShard

theorem fieldsEq_refl (a : ShardingOption) : FieldsEq a a :=
  ⟨rfl, rfl, rfl, rfl, rfl, rfl⟩

theorem fieldsEq_trans {a b c : ShardingOption} (h1 : FieldsEq a b)
    (h2 : FieldsEq b c) : FieldsEq a c :=
  ⟨h1.1.trans h2.1, h1.2.1.trans h2.2.1, h1.2.2.1.trans h2.2.2.1,
    h1.2.2.2.1.trans h2.2.2.2.1, h1.2.2.2.2.1.trans h2.2.2.2.2.1,
    h1.2.2.2.2.2.trans h2.2.2.2.2.2⟩

/-- Units with equal fields have equal shard counts. -/
theorem fieldsEq_num_shards {a b : ShardingOption} (h : FieldsEq a b) :
    a.num_shards = b.num_shards := by
  have hc := congrArg List.length h.2.2.2.2.2
  rw [List.length_map, List.length_map] at hc
  exact hc

/-- The positional loop of the uniform packer rewrites only shard ranks. -/
theorem uniformAssign_reset :
    ∀ (shards : List Shard) (devs : List DeviceHardware),
      (uniformAssign shards devs).2.1.map resetShard = shards.map resetShard
  | [], _ => rfl
  | _ :: _, [] => rfl
  | s :: ss, d :: ds => by
    by_cases h : s.storage.fits_in d.storage = true
    · simp only [uniformAssign, if_pos h, List.map_cons]
      exact congrArg (List.cons _) (uniformAssign_reset ss ds)
    · simp only [uniformAssign, if_neg h]

/-- The per-shard loop of the device packer rewrites only shard ranks. -/
theorem _device_partition_go_reset (tableName : String) (lws : Nat) :
    ∀ (shards : List Shard) (devs : List DeviceHardware),
      (_device_partition_go tableName lws shards devs).2.1.map resetShard =
        shards.map resetShard
  | [], _ => rfl
  | shard :: rest, devs => by
    rcases haf : assignFirstFit shard (pySort (deviceSortLe lws) devs)
      with _ | ⟨r, devs'⟩
    · rw [_device_partition_go, haf]
    · rw [_device_partition_go, haf]
      dsimp only
      rw [List.map_cons, List.map_cons]
      exact congrArg (List.cons _)
        (_device_partition_go_reset tableName lws rest devs')

theorem fieldsEq_groupKey {a b : ShardingOption} (h : FieldsEq a b) :
    groupKey a = groupKey b := by
  obtain ⟨h1, h2, h3, _⟩ := h
  unfold groupKey ShardingOption.fqn
  rw [h1, h2, h3]

theorem uniform_partition_one_fields (so : ShardingOption)
    (devs : List DeviceHardware) :
    FieldsEq (GreedyPerfPartitioner._uniform_partition_one so devs).2.1 so := by
  rw [GreedyPerfPartitioner._uniform_partition_one]
  by_cases hc : so.num_shards ≠ devs.length
  · rw [if_pos hc]
    exact fieldsEq_refl so
  · rw [if_neg hc]
    exact ⟨rfl, rfl, rfl, rfl, rfl, uniformAssign_reset so.shards devs⟩

theorem device_partition_fields (so : ShardingOption) (devs : List DeviceHardware)
    (lws : Nat) :
    FieldsEq (GreedyPerfPartitioner._device_partition so devs lws).2.1 so :=
  ⟨rfl, rfl, rfl, rfl, rfl, _device_partition_go_reset so.name lws so.shards devs⟩

/-- Positional correspondence between a mutated option list and the original:
same proposal positions, shard-only mutation of each unit. -/
def OptEq (a b : Nat × ShardingOption) : Prop := a.1 = b.1 ∧ FieldsEq a.2 b.2

theorem optEq_refl_list (l : List (Nat × ShardingOption)) :
    List.Forall₂ OptEq l l :=
  List.forall₂_same.2 (fun x _ => ⟨rfl, fieldsEq_refl x.2⟩)

theorem optEq_forall₂_trans {a b c : List (Nat × ShardingOption)}
    (h1 : List.Forall₂ OptEq a b) :
    List.Forall₂ OptEq b c → List.Forall₂ OptEq a c := by
  induction h1 generalizing c with
  | nil =>
    intro h2
    cases h2
    exact List.Forall₂.nil
  | cons hxy htail ih =>
    intro h2
    cases h2 with
    | cons hyz htail2 =>
      exact List.Forall₂.cons ⟨hxy.1.trans hyz.1, fieldsEq_trans hxy.2 hyz.2⟩
        (ih htail2)

theorem forall₂_optEq_map_fst {a b : List (Nat × ShardingOption)}
    (h : List.Forall₂ OptEq a b) : a.map Prod.fst = b.map Prod.fst := by
  induction h with
  | nil => rfl
  | cons hxy _ ih => simp only [List.map_cons, hxy.1, ih]

/-- Looking up the mutated version of a positioned option. -/
theorem forall₂_optEq_lookup {a b : List (Nat × ShardingOption)}
    (h : List.Forall₂ OptEq a b) (j : Nat) (so0 : ShardingOption)
    (hmem : (j, so0) ∈ b) : ∃ so1, (j, so1) ∈ a ∧ FieldsEq so1 so0 := by
  induction h with
  | nil => cases hmem
  | @cons x y xtail ytail hxy htail ih =>
    rcases List.mem_cons.1 hmem with heq | hmem'
    · refine ⟨x.2, ?_, ?_⟩
      · have hx : x = (j, x.2) := by
          have hj : x.1 = j := by rw [hxy.1, ← heq]
          rw [← hj]
        exact hx ▸ List.mem_cons_self x xtail
      · have : y.2 = so0 := by rw [← heq]
        exact this ▸ hxy.2
    · obtain ⟨so1, hso1, hf⟩ := ih hmem'
      exact ⟨so1, List.mem_cons_of_mem x hso1, hf⟩

/-- A host trial rewrites only shards: positions and unit fields are
preserved, whatever the outcome. -/
theorem cohostTrialGo_optEq :
    ∀ (options : List (Nat × ShardingOption)) (devs : List DeviceHardware),
      List.Forall₂ OptEq ((cohostTrialGo options devs).options) options
  | [], devs => List.Forall₂.nil
  | (i, so) :: rest, devs => by
    by_cases hrw : so.sharding_type = ShardingType.TABLE_ROW_WISE
    · rw [cohostTrialGo, if_pos hrw]
      have hfields := uniform_partition_one_fields so devs
      rcases hu : GreedyPerfPartitioner._uniform_partition_one so devs
        with ⟨res, so', devs1⟩
      rw [hu] at hfields
      rcases res with e | u
      · dsimp only at hfields ⊢
        by_cases hpl : e.isPlannerError = true
        · rw [if_pos hpl]
          exact List.Forall₂.cons ⟨rfl, hfields⟩ (optEq_refl_list rest)
        · rw [if_neg hpl]
          exact List.Forall₂.cons ⟨rfl, hfields⟩ (optEq_refl_list rest)
      · dsimp only at hfields ⊢
        have ih := cohostTrialGo_optEq rest devs1
        cases hrec : cohostTrialGo rest devs1 with
        | success o' d' =>
          rw [hrec] at ih
          exact List.Forall₂.cons ⟨rfl, hfields⟩ ih
        | plannerFail o' =>
          rw [hrec] at ih
          exact List.Forall₂.cons ⟨rfl, hfields⟩ ih
        | fatal e o' =>
          rw [hrec] at ih
          exact List.Forall₂.cons ⟨rfl, hfields⟩ ih
    · by_cases hcw : so.sharding_type = ShardingType.TABLE_COLUMN_WISE
      · rw [cohostTrialGo, if_neg hrw, if_pos hcw]
        have hfields := device_partition_fields so devs devs.length
        rcases hd : GreedyPerfPartitioner._device_partition so devs devs.length
          with ⟨res, so', devs1⟩
        rw [hd] at hfields
        rcases res with e | u
        · dsimp only at hfields ⊢
          by_cases hpl : e.isPlannerError = true
          · rw [if_pos hpl]
            exact List.Forall₂.cons ⟨rfl, hfields⟩ (optEq_refl_list rest)
          · rw [if_neg hpl]
            exact List.Forall₂.cons ⟨rfl, hfields⟩ (optEq_refl_list rest)
        · dsimp only at hfields ⊢
          have ih := cohostTrialGo_optEq rest devs1
          cases hrec : cohostTrialGo rest devs1 with
          | success o' d' =>
            rw [hrec] at ih
            exact List.Forall₂.cons ⟨rfl, hfields⟩ ih
          | plannerFail o' =>
            rw [hrec] at ih
            exact List.Forall₂.cons ⟨rfl, hfields⟩ ih
          | fatal e o' =>
            rw [hrec] at ih
            exact List.Forall₂.cons ⟨rfl, hfields⟩ ih
      · rw [cohostTrialGo, if_neg hrw, if_neg hcw]
        exact optEq_refl_list _

/-- The host loop threads the group's options through its trials: positions
and unit fields are preserved, whatever the outcome. -/
theorem cohostGo_optEq (ss : Storage) :
    ∀ (L : List (Nat × List DeviceHardware)) (options : List (Nat × ShardingOption)),
      List.Forall₂ OptEq (cohostGo ss L options).2 options
  | [], options => optEq_refl_list options
  | (hi, devices) :: rest, options => by
    rw [cohostGo]
    cases hfit : ss.fits_in (hostStorage devices) with
    | false =>
      rw [if_pos (show (!false) = true from rfl)]
      exact cohostGo_optEq ss rest options
    | true =>
      rw [if_neg (show ¬(!true) = true from by decide)]
      have htr := cohostTrialGo_optEq options devices
      cases hrec : cohostTrialGo options devices with
      | success o' d' =>
        rw [hrec] at htr
        exact htr
      | plannerFail o' =>
        rw [hrec] at htr
        exact optEq_forall₂_trans (cohostGo_optEq ss rest o') htr
      | fatal e o' =>
        rw [hrec] at htr
        exact htr

/-- Committing a trial copies storage and perf back onto the host's real
devices, preserving their ranks. -/
theorem ranksOf_commit :
    ∀ (l1 l2 : List DeviceHardware),
      ranksOf (List.zipWith (fun device deviceCopy =>
          {device with storage := deviceCopy.storage, perf := deviceCopy.perf})
        l1 l2) = ranksOf (l1.take l2.length)
  | [], _ => by simp [ranksOf]
  | _ :: _, [] => by simp [ranksOf]
  | d :: l1, c :: l2 => by
    simp only [List.zipWith, ranksOf, List.map_cons, List.length_cons,
      List.take_succ_cons]
    exact congrArg (d.rank :: ·) (ranksOf_commit l1 l2)

/-- A fatal trial outcome never carries a `PlannerError` (only structural
`RuntimeError`s are re-raised as fatal). -/
theorem cohostTrialGo_fatal_spec :
    ∀ (options : List (Nat × ShardingOption)) (devs : List DeviceHardware)
      (e : PErr) (options' : List (Nat × ShardingOption)),
      cohostTrialGo options devs = .fatal e options' → e.isPlannerError = false
  | [], devs, e, options', h => by
    rw [cohostTrialGo] at h
    cases h
  | (i, so) :: rest, devs, e, options', h => by
    by_cases hrw : so.sharding_type = ShardingType.TABLE_ROW_WISE
    · rw [cohostTrialGo, if_pos hrw] at h
      rcases hu : GreedyPerfPartitioner._uniform_partition_one so devs
        with ⟨res, so', devs1⟩
      rw [hu] at h
      rcases res with e2 | u
      · dsimp only at h
        by_cases hpl : e2.isPlannerError = true
        · rw [if_pos hpl] at h
          cases h
        · rw [if_neg hpl] at h
          injection h with h1 h2
          subst h1
          exact Bool.eq_false_iff.2 hpl
      · dsimp only at h
        cases hrec : cohostTrialGo rest devs1 with
        | success o' d' =>
          rw [hrec] at h
          cases h
        | plannerFail o' =>
          rw [hrec] at h
          cases h
        | fatal e2 o' =>
          rw [hrec] at h
          injection h with h1 h2
          subst h1
          exact cohostTrialGo_fatal_spec rest devs1 _ o' hrec
    · by_cases hcw : so.sharding_type = ShardingType.TABLE_COLUMN_WISE
      · rw [cohostTrialGo, if_neg hrw, if_pos hcw] at h
        rcases hd : GreedyPerfPartitioner._device_partition so devs devs.length
          with ⟨res, so', devs1⟩
        rw [hd] at h
        rcases res with e2 | u
        · dsimp only at h
          by_cases hpl : e2.isPlannerError = true
          · rw [if_pos hpl] at h
            cases h
          · rw [if_neg hpl] at h
            injection h with h1 h2
            subst h1
            exact Bool.eq_false_iff.2 hpl
        · dsimp only at h
          cases hrec : cohostTrialGo rest devs1 with
          | success o' d' =>
            rw [hrec] at h
            cases h
          | plannerFail o' =>
            rw [hrec] at h
            cases h
          | fatal e2 o' =>
            rw [hrec] at h
            injection h with h1 h2
            subst h1
            exact cohostTrialGo_fatal_spec rest devs1 _ o' hrec
      · rw [cohostTrialGo, if_neg hrw, if_neg hcw] at h
        injection h with h1 h2
        subst h1
        rfl

/-- Every `PlannerError` leaving the host loop is the placement-infeasibility
error naming the group (its members, as mutated) and its storage sum. -/
theorem cohostGo_error_planner (ss : Storage) :
    ∀ (L : List (Nat × List DeviceHardware))
      (options options' : List (Nat × ShardingOption)) (e : PErr),
      cohostGo ss L options = (.error e, options') →
      e.isPlannerError = true →
      e = .cohostPartitionError ⟨options'.map Prod.snd, ss⟩
  | [], options, options', e, h, _ => by
    rw [cohostGo] at h
    injection h with h1 h2
    subst h2
    injection h1 with h1
    rw [← h1]
  | (hi, devices) :: rest, options, options', e, h, hpl => by
    rw [cohostGo] at h
    cases hfit : ss.fits_in (hostStorage devices) with
    | false =>
      rw [if_pos (show (!ss.fits_in (hostStorage devices)) = true by rw [hfit]; rfl)] at h
      exact cohostGo_error_planner ss rest options options' e h hpl
    | true =>
      rw [if_neg (show ¬(!ss.fits_in (hostStorage devices)) = true by rw [hfit]; decide)] at h
      cases hrec : cohostTrialGo options devices with
      | success o' d' =>
        rw [hrec] at h
        cases h
      | plannerFail o' =>
        rw [hrec] at h
        exact cohostGo_error_planner ss rest o' options' e h hpl
      | fatal e2 o' =>
        rw [hrec] at h
        injection h with h1 h2
        injection h1 with h1
        subst h1
        exact absurd hpl (by
          rw [cohostTrialGo_fatal_spec options devices _ o' hrec]
          exact Bool.false_ne_true)

/-- A successful host trial certifies every member's sharding type (row-wise
with a host-sized shard count, or column-wise). -/
theorem cohostTrialGo_success_struct :
    ∀ (options : List (Nat × ShardingOption)) (devs : List DeviceHardware)
      (options' : List (Nat × ShardingOption)) (devs' : List DeviceHardware),
      cohostTrialGo options devs = .success options' devs' →
      ∀ iso ∈ options,
        (iso.2.sharding_type = ShardingType.TABLE_ROW_WISE ∧
          iso.2.num_shards = devs.length) ∨
        iso.2.sharding_type = ShardingType.TABLE_COLUMN_WISE
  | [], _, _, _, _ => by
    intro iso hiso
    cases hiso
  | (i, so) :: rest, devs, options', devs', h => by
    by_cases hrw : so.sharding_type = ShardingType.TABLE_ROW_WISE
    · rw [cohostTrialGo, if_pos hrw] at h
      rcases hu : GreedyPerfPartitioner._uniform_partition_one so devs
        with ⟨res, so', devs1⟩
      rw [hu] at h
      rcases res with e | u
      · dsimp only at h
        by_cases hpl : e.isPlannerError = true
        · rw [if_pos hpl] at h
          cases h
        · rw [if_neg hpl] at h
          cases h
      · dsimp only at h
        cases u
        have hcnt : so.num_shards = devs.length := by
          by_contra hne
          rw [GreedyPerfPartitioner._uniform_partition_one, if_pos hne] at hu
          injection hu with h1 _
          cases h1
        have hlen1 : devs1.length = devs.length := by
          have h1 : (GreedyPerfPartitioner._uniform_partition_one so devs).1 =
              .ok () := by rw [hu]
          obtain ⟨hr1, _⟩ := uniformPartitionOne_ranks so devs h1
          rw [hu] at hr1
          have hc := congrArg List.length hr1
          rw [ranksOf, ranksOf, List.length_map, List.length_map] at hc
          exact hc
        cases hrec : cohostTrialGo rest devs1 with
        | success o' d' =>
          intro iso hiso
          rcases List.mem_cons.1 hiso with rfl | hiso'
          · exact Or.inl ⟨hrw, hcnt⟩
          · have hix := cohostTrialGo_success_struct rest devs1 o' d' hrec
              iso hiso'
            rw [hlen1] at hix
            exact hix
        | plannerFail o' =>
          rw [hrec] at h
          cases h
        | fatal e o' =>
          rw [hrec] at h
          cases h
    · by_cases hcw : so.sharding_type = ShardingType.TABLE_COLUMN_WISE
      · rw [cohostTrialGo, if_neg hrw, if_pos hcw] at h
        rcases hd : GreedyPerfPartitioner._device_partition so devs devs.length
          with ⟨res, so', devs1⟩
        rw [hd] at h
        rcases res with e | u
        · dsimp only at h
          by_cases hpl : e.isPlannerError = true
          · rw [if_pos hpl] at h
            cases h
          · rw [if_neg hpl] at h
            cases h
        · dsimp only at h
          cases u
          have hlen1 : devs1.length = devs.length := by
            have h1 : (GreedyPerfPartitioner._device_partition so devs
                devs.length).1 = .ok () := by rw [hd]
            obtain ⟨hr1, _⟩ := devicePartition_ranks so devs devs.length h1
            rw [hd] at hr1
            have hc := hr1.length_eq
            rw [ranksOf, ranksOf, List.length_map, List.length_map] at hc
            exact hc
          cases hrec : cohostTrialGo rest devs1 with
          | success o' d' =>
            intro iso hiso
            rcases List.mem_cons.1 hiso with rfl | hiso'
            · exact Or.inr hcw
            · have hix := cohostTrialGo_success_struct rest devs1 o' d' hrec
                iso hiso'
              rw [hlen1] at hix
              exact hix
          | plannerFail o' =>
            rw [hrec] at h
            cases h
          | fatal e o' =>
            rw [hrec] at h
            cases h
      · rw [cohostTrialGo, if_neg hrw, if_neg hcw] at h
        cases h

/-- A successful host loop: the committed host is one of the trialled hosts,
its device ranks are preserved by the copy-back, and every shard of every
group member is assigned a rank of that host. -/
theorem cohostGo_ok (ss : Storage) :
    ∀ (L : List (Nat × List DeviceHardware))
      (options : List (Nat × ShardingOption)) (hi : Nat)
      (committed : List DeviceHardware) (options' : List (Nat × ShardingOption)),
      cohostGo ss L options = (.ok (hi, committed), options') →
      ∃ devices, (hi, devices) ∈ L ∧ ranksOf committed = ranksOf devices ∧
        (∀ iso ∈ options', ∀ s ∈ iso.2.shards,
          ∃ r, s.rank = some r ∧ r ∈ ranksOf devices) ∧
        ∀ iso ∈ options,
          (iso.2.sharding_type = ShardingType.TABLE_ROW_WISE ∧
            iso.2.num_shards = devices.length) ∨
          iso.2.sharding_type = ShardingType.TABLE_COLUMN_WISE
  | [], options, hi, committed, options', h => by
    rw [cohostGo] at h
    injection h with h1 h2
    cases h1
  | (hj, devices) :: rest, options, hi, committed, options', h => by
    rw [cohostGo] at h
    cases hfit : ss.fits_in (hostStorage devices) with
    | false =>
      rw [if_pos (show (!ss.fits_in (hostStorage devices)) = true by rw [hfit]; rfl)] at h
      obtain ⟨ds, hmem, hranks, hshards, hstruct⟩ :=
        cohostGo_ok ss rest options hi committed options' h
      exact ⟨ds, List.mem_cons_of_mem _ hmem, hranks, hshards, hstruct⟩
    | true =>
      rw [if_neg (show ¬(!ss.fits_in (hostStorage devices)) = true by rw [hfit]; decide)] at h
      cases hrec : cohostTrialGo options devices with
      | success o' d' =>
        rw [hrec] at h
        dsimp only at h
        injection h with h1 h2
        injection h1 with h1
        injection h1 with hhi hcom
        subst hhi hcom h2
        obtain ⟨hperm, hshards⟩ :=
          cohostTrialGo_success_spec options devices o' d' hrec
        refine ⟨devices, List.mem_cons_self _ _, ?_, hshards,
          cohostTrialGo_success_struct options devices o' d' hrec⟩
        rw [ranksOf_commit devices
          (pySort (fun a b => decide (a.rank ≤ b.rank)) d')]
        have hlen : (pySort (fun a b => decide (a.rank ≤ b.rank)) d').length =
            devices.length := by
          rw [pySort_length]
          have := hperm.length_eq
          rw [ranksOf, ranksOf, List.length_map, List.length_map] at this
          exact this
        rw [hlen, List.take_length]
      | plannerFail o' =>
        rw [hrec] at h
        obtain ⟨ds, hmem, hranks, hshards, hstruct⟩ :=
          cohostGo_ok ss rest o' hi committed options' h
        refine ⟨ds, List.mem_cons_of_mem _ hmem, hranks, hshards, ?_⟩
        have htr := cohostTrialGo_optEq options devices
        rw [hrec] at htr
        intro iso hiso
        have hisop : (iso.1, iso.2) ∈ options := by
          have hieq : iso = (iso.1, iso.2) := rfl
          exact hieq ▸ hiso
        obtain ⟨so1, hso1, hf⟩ := forall₂_optEq_lookup htr iso.1 iso.2 hisop
        have hfacts := hstruct (iso.1, so1) hso1
        rcases hfacts with ⟨ht, hc⟩ | ht
        · refine Or.inl ⟨?_, ?_⟩
          · rw [← hf.2.2.2.2.1]
            exact ht
          · rw [← fieldsEq_num_shards hf]
            exact hc
        · refine Or.inr ?_
          rw [← hf.2.2.2.2.1]
          exact ht
      | fatal e2 o' =>
        rw [hrec] at h
        injection h with h1 h2
        cases h1

/-! ### Proposal and topology bookkeeping for the dispatch loop -/

theorem set_of_get? {α : Type} :
    ∀ (l : List α) (i : Nat) (a : α), l.get? i = some a → l.set i a = l
  | [], _, _, h => by cases h
  | x :: xs, 0, a, h => by
    injection h with h
    show a :: xs = x :: xs
    rw [h]
  | x :: xs, i + 1, a, h => by
    show x :: xs.set i a = x :: xs
    rw [set_of_get? xs i a h]

theorem refreshByRank_ranks (src : List DeviceHardware)
    (xs : List DeviceHardware) : ranksOf (refreshByRank src xs) = ranksOf xs := by
  rw [refreshByRank, ranksOf, ranksOf, List.map_map]
  apply List.map_congr_left
  intro d _
  rw [Function.comp_apply]
  rcases hf : src.find? (fun s => s.rank == d.rank) with _ | s
  · rw [hf, Option.getD_none]
  · rw [hf, Option.getD_some]
    have := List.find?_some hf
    rwa [beq_iff_eq] at this

theorem updProposal_length :
    ∀ (upds : List (Nat × ShardingOption)) (p : List ShardingOption),
      (updProposal p upds).length = p.length
  | [], _ => rfl
  | u :: us, p => by
    show (updProposal (p.set u.1 u.2) us).length = p.length
    rw [updProposal_length us, List.length_set]

theorem updProposal_frame :
    ∀ (upds : List (Nat × ShardingOption)) (p : List ShardingOption) (j : Nat),
      j ∉ upds.map Prod.fst → (updProposal p upds).get? j = p.get? j
  | [], _, _, _ => rfl
  | u :: us, p, j, h => by
    rw [List.map_cons, List.mem_cons] at h
    push_neg at h
    show (updProposal (p.set u.1 u.2) us).get? j = p.get? j
    rw [updProposal_frame us _ j h.2,
      List.get?_set_ne u.2 p (fun he => h.1 he.symm)]

theorem updProposal_write :
    ∀ (upds : List (Nat × ShardingOption)) (p : List ShardingOption),
      (upds.map Prod.fst).Nodup →
      ∀ j so, (j, so) ∈ upds → j < p.length →
        (updProposal p upds).get? j = some so
  | [], _, _, j, so, h, _ => absurd h (List.not_mem_nil _)
  | u :: us, p, hnd, j, so, h, hlt => by
    rw [List.map_cons, List.nodup_cons] at hnd
    rcases List.mem_cons.1 h with heq | h'
    · have hu : u = (j, so) := heq.symm
      subst hu
      show (updProposal (p.set j so) us).get? j = some so
      rw [updProposal_frame us _ j hnd.1, List.get?_set_eq,
        List.get?_eq_get hlt]
      rfl
    · show (updProposal (p.set u.1 u.2) us).get? j = some so
      exact updProposal_write us _ hnd.2 j so h'
        (by rw [List.length_set]; exact hlt)

/-- The host-level chunks concatenate back to the chunked prefix of the
device list. -/
theorem flatten_chunks (lws : Nat) (devs : List DeviceHardware) :
    ∀ m : Nat, ((List.range m).map
        (fun i => (devs.drop (i * lws)).take lws)).flatten =
      devs.take (m * lws)
  | 0 => by
    rw [Nat.zero_mul]
    rfl
  | m + 1 => by
    rw [List.range_succ, List.map_append, List.flatten_append,
      flatten_chunks lws devs m]
    simp only [List.map_cons, List.map_nil, List.flatten_cons, List.flatten_nil,
      List.append_nil]
    rw [← List.take_add]
    rw [Nat.succ_mul]

/-- An entry of `(range m).map f`. -/
theorem range_map_get? {α : Type} {f : Nat → α} {m hi : Nat} {v : α}
    (h : ((List.range m).map f).get? hi = some v) : hi < m ∧ v = f hi := by
  rw [List.get?_map] at h
  by_cases hlt : hi < m
  · rw [List.get?_range hlt] at h
    injection h with h
    exact ⟨hlt, h.symm⟩
  · rw [List.get?_len_le (by rw [List.length_range]; omega)] at h
    cases h

/-- Ranks inside the `hi`-th host chunk of a well-ranked device list lie in
the `hi`-th contiguous block. -/
theorem mem_chunk_ranks (n lws hi : Nat) (tdevs : List DeviceHardware)
    (hr : ranksOf tdevs = List.range n) (r : Nat)
    (h : r ∈ ranksOf ((tdevs.drop (hi * lws)).take lws)) :
    hi * lws ≤ r ∧ r < hi * lws + lws := by
  rw [ranksOf] at h hr
  rw [List.map_take, List.map_drop, hr] at h
  obtain ⟨i, hget⟩ := List.mem_iff_get?.1 h
  by_cases hilt : i < lws
  · rw [List.get?_take hilt, List.get?_drop] at hget
    by_cases hlt : hi * lws + i < n
    · rw [List.get?_range hlt] at hget
      injection hget with hget
      omega
    · rw [List.get?_len_le (by rw [List.length_range]; omega)] at hget
      cases hget
  · have hlen : (((List.range n).drop (hi * lws)).take lws).length ≤ i := by
      rw [List.length_take]
      exact le_trans (min_le_left _ _) (Nat.not_lt.1 hilt)
    rw [List.get?_len_le hlen] at hget
    cases hget

/-- Whether a group is dispatched to the co-host packer: its first member is
host-tagged. -/
def headHost (g : IdxGroup) : Bool :=
  match g.options with
  | [] => false
  | (_, so) :: _ => decide (so.partition_by = PartitionByType.HOST)

/-- Whether a group is dispatched to the per-device packer: its first member
is device-tagged. -/
def headDevice (g : IdxGroup) : Bool :=
  match g.options with
  | [] => false
  | (_, so) :: _ => decide (so.partition_by = PartitionByType.DEVICE)

/-- A successful `_cohost_partition`: exactly one trialled host is committed
(with its device ranks preserved by the storage/perf copy-back), the group's
options keep their positions and unit fields, and every shard of every member
is assigned a rank of the committed host. -/
theorem cohost_partition_ok_spec (options options' : List (Nat × ShardingOption))
    (ss : Storage) (hosts hosts' : List (List DeviceHardware))
    (h : GreedyPerfPartitioner._cohost_partition options ss hosts =
      (.ok (), options', hosts')) :
    ∃ hi committed devices,
      hosts.get? hi = some devices ∧
      hosts' = hosts.set hi committed ∧
      ranksOf committed = ranksOf devices ∧
      List.Forall₂ OptEq options' options ∧
      (∀ iso ∈ options', ∀ s ∈ iso.2.shards,
        ∃ r, s.rank = some r ∧ r ∈ ranksOf devices) ∧
      ∀ iso ∈ options,
        (iso.2.sharding_type = ShardingType.TABLE_ROW_WISE ∧
          iso.2.num_shards = devices.length) ∨
        iso.2.sharding_type = ShardingType.TABLE_COLUMN_WISE := by
  rw [GreedyPerfPartitioner._cohost_partition] at h
  have hopt := cohostGo_optEq ss
    (pySort (fun a b => decide (_get_perf_sum a.2 ≤ _get_perf_sum b.2))
      hosts.enum) options
  rcases hcg : cohostGo ss
      (pySort (fun a b => decide (_get_perf_sum a.2 ≤ _get_perf_sum b.2))
        hosts.enum) options with ⟨res2, opts2⟩
  rw [hcg] at h hopt
  rcases res2 with e2 | ⟨hi, committed⟩
  · dsimp only at h
    injection h with h1 _
    cases h1
  · dsimp only at h hopt
    injection h with _ h2
    injection h2 with h2a h2b
    subst h2a h2b
    obtain ⟨devices, hmem, hranks, hshards, hstruct⟩ :=
      cohostGo_ok ss _ options hi committed _ hcg
    rw [pySort_mem] at hmem
    refine ⟨hi, committed, devices, ?_, rfl, hranks, hopt, hshards, hstruct⟩
    exact List.mem_enum_iff_get?.1 hmem

/-- A successful dispatch step: device ranks of the working topology are
preserved, the proposal keeps its length, positions outside the group are
untouched, each member is rewritten in place with its unit fields preserved,
the group's head is host- or device-tagged (a device-tagged head forces a
singleton group), and a host-dispatched group has all its members' shards
confined to one host-sized contiguous rank block. -/
theorem dispatchStep_ok_spec (lws n : Nat) (g : IdxGroup) (st st1 : OrchState)
    (hstep : dispatchStep lws g st = (.ok (), st1))
    (hranks : ranksOf st.tdevs = List.range n)
    (hnd : (g.options.map Prod.fst).Nodup)
    (hbnd : ∀ j ∈ g.options.map Prod.fst, j < st.proposal.length) :
    ranksOf st1.tdevs = List.range n ∧
    st1.proposal.length = st.proposal.length ∧
    (∀ j, j ∉ g.options.map Prod.fst →
      st1.proposal.get? j = st.proposal.get? j) ∧
    (∀ j so0, (j, so0) ∈ g.options →
      ∃ so1, st1.proposal.get? j = some so1 ∧ FieldsEq so1 so0) ∧
    (headHost g = true ∨ (headDevice g = true ∧ g.options.length = 1)) ∧
    (headHost g = true → ∃ h, h * lws + lws ≤ n ∧
      ∀ j so0, (j, so0) ∈ g.options → ∃ so1, st1.proposal.get? j = some so1 ∧
        ∀ s ∈ so1.shards, ∃ r, s.rank = some r ∧
          h * lws ≤ r ∧ r < h * lws + lws) ∧
    (headHost g = true → ∀ iso ∈ g.options,
      (iso.2.sharding_type = ShardingType.TABLE_ROW_WISE ∧
        iso.2.num_shards = lws) ∨
      iso.2.sharding_type = ShardingType.TABLE_COLUMN_WISE) := by
  have hlen_t : st.tdevs.length = n := by
    have hc := congrArg List.length hranks
    rw [ranksOf, List.length_map, List.length_range] at hc
    exact hc
  rcases hgo : g.options with _ | ⟨⟨i0, so0⟩, gtail⟩
  · unfold dispatchStep at hstep
    rw [hgo] at hstep
    dsimp only at hstep
    injection hstep with h1 _
    cases h1
  · unfold dispatchStep at hstep
    rw [hgo] at hstep
    dsimp only at hstep
    by_cases hhost : so0.partition_by = PartitionByType.HOST
    · rw [if_pos hhost] at hstep
      rcases hch : GreedyPerfPartitioner._cohost_partition ((i0, so0) :: gtail)
          g.storage_sum
          (GreedyPerfPartitioner._get_host_level_devices ⟨st.tdevs, lws⟩)
        with ⟨res, options', hosts'⟩
      rw [hch] at hstep
      rcases res with e | u
      · dsimp only at hstep
        injection hstep with h1 _
        cases h1
      · dsimp only at hstep
        cases u
        injection hstep with _ hst1
        subst hst1
        obtain ⟨hi, committed, devices, hget, hset, hranksC, hopt, hshards,
          hstruct⟩ := cohost_partition_ok_spec _ _ _ _ _ hch
        have hhl : GreedyPerfPartitioner._get_host_level_devices ⟨st.tdevs, lws⟩ =
            (List.range (st.tdevs.length / lws)).map
              (fun i => (st.tdevs.drop (i * lws)).take lws) := rfl
        rw [hhl] at hget hset
        obtain ⟨hhi_lt, hdev_eq⟩ := range_map_get? hget
        have hbound : hi * lws + lws ≤ n := by
          calc hi * lws + lws = (hi + 1) * lws := (Nat.succ_mul hi lws).symm
            _ ≤ st.tdevs.length / lws * lws := Nat.mul_le_mul_right lws hhi_lt
            _ ≤ st.tdevs.length := Nat.div_mul_le_self _ _
            _ = n := hlen_t
        have hdevlen : devices.length = lws := by
          rw [hdev_eq, List.length_take, List.length_drop, hlen_t]
          exact min_eq_left (by omega)
        have hHH : headHost g = true := by
          unfold headHost
          rw [hgo]
          dsimp only
          exact decide_eq_true hhost
        have htags : options'.map Prod.fst = ((i0, so0) :: gtail).map Prod.fst :=
          forall₂_optEq_map_fst hopt
        have hnd' : (options'.map Prod.fst).Nodup := by
          rw [htags, ← hgo]
          exact hnd
        have hwrite : ∀ j so0', (j, so0') ∈ (i0, so0) :: gtail →
            ∃ so1, (updProposal st.proposal options').get? j = some so1 ∧
              FieldsEq so1 so0' ∧ (j, so1) ∈ options' := by
          intro j so0' hmem
          obtain ⟨so1, hso1mem, hf⟩ := forall₂_optEq_lookup hopt j so0' hmem
          refine ⟨so1, ?_, hf, hso1mem⟩
          exact updProposal_write options' st.proposal hnd' j so1 hso1mem
            (hbnd j (by rw [hgo]; exact List.mem_map_of_mem Prod.fst hmem))
        have hsetsame : (((List.range (st.tdevs.length / lws)).map
              (fun i => (st.tdevs.drop (i * lws)).take lws)).map
            (List.map DeviceHardware.rank)).set hi
              (committed.map DeviceHardware.rank) =
            ((List.range (st.tdevs.length / lws)).map
              (fun i => (st.tdevs.drop (i * lws)).take lws)).map
            (List.map DeviceHardware.rank) := by
          apply set_of_get?
          rw [List.get?_map, hget, Option.map_some']
          exact congrArg some hranksC.symm
        refine ⟨?_, ?_, ?_, ?_, Or.inl hHH, ?_, ?_⟩
        · show ranksOf (hosts'.flatten ++
            st.tdevs.drop (st.tdevs.length / lws * lws)) = List.range n
          rw [hset, ranksOf, List.map_append, List.map_flatten, List.map_set,
            hsetsame, ← List.map_flatten,
            flatten_chunks lws st.tdevs (st.tdevs.length / lws),
            List.map_take, List.map_drop, List.take_append_drop]
          exact hranks
        · show (updProposal st.proposal options').length = st.proposal.length
          exact updProposal_length _ _
        · intro j hj
          show (updProposal st.proposal options').get? j = st.proposal.get? j
          exact updProposal_frame options' st.proposal j (htags ▸ hj)
        · intro j so0' hmem
          obtain ⟨so1, hget1, hf, _⟩ := hwrite j so0' hmem
          exact ⟨so1, hget1, hf⟩
        · intro _
          refine ⟨hi, hbound, ?_⟩
          intro j so0' hmem
          obtain ⟨so1, hget1, _, hso1mem⟩ := hwrite j so0' hmem
          refine ⟨so1, hget1, ?_⟩
          intro s hs
          obtain ⟨r, hr, hrmem⟩ := hshards (j, so1) hso1mem s hs
          rw [hdev_eq] at hrmem
          exact ⟨r, hr, mem_chunk_ranks n lws hi st.tdevs hranks r hrmem⟩
        · intro _ iso hiso
          rcases hstruct iso hiso with ⟨ht, hc⟩ | ht
          · refine Or.inl ⟨ht, ?_⟩
            rw [hc]
            exact hdevlen
          · exact Or.inr ht
    · by_cases hdev : so0.partition_by = PartitionByType.DEVICE
      · rw [if_neg hhost, if_pos hdev] at hstep
        by_cases hlen1 : ((i0, so0) :: gtail).length = 1
        · rw [if_pos hlen1] at hstep
          have hgt : gtail = [] := by
            rw [List.length_cons] at hlen1
            exact List.length_eq_zero.1 (by omega)
          subst hgt
          rcases hdp : GreedyPerfPartitioner._device_partition so0 st.sortedDevs lws
            with ⟨res, so', sdevs'⟩
          rw [hdp] at hstep
          rcases res with e | u
          · dsimp only at hstep
            injection hstep with h1 _
            cases h1
          · dsimp only at hstep
            injection hstep with _ hst1
            subst hst1
            have hfields := device_partition_fields so0 st.sortedDevs lws
            rw [hdp] at hfields
            have hHD : headDevice g = true := by
              unfold headDevice
              rw [hgo]
              dsimp only
              exact decide_eq_true hdev
            have hHH : headHost g = false := by
              unfold headHost
              rw [hgo]
              dsimp only
              exact decide_eq_false hhost
            refine ⟨?_, ?_, ?_, ?_, Or.inr ⟨hHD, rfl⟩, ?_, ?_⟩
            · show ranksOf (refreshByRank sdevs' st.tdevs) = List.range n
              rw [refreshByRank_ranks]
              exact hranks
            · show (updProposal st.proposal [(i0, so')]).length = st.proposal.length
              exact updProposal_length _ _
            · intro j hj
              have hji : j ≠ i0 := by simpa using hj
              show (updProposal st.proposal [(i0, so')]).get? j = st.proposal.get? j
              exact updProposal_frame [(i0, so')] st.proposal j (by
                simp only [List.map_cons, List.map_nil, List.mem_singleton]
                exact hji)
            · intro j so0' hmem
              have hpair := List.mem_singleton.1 hmem
              injection hpair with hj hso
              subst hj hso
              refine ⟨so', ?_, hfields⟩
              show (updProposal st.proposal [(j, so')]).get? j = some so'
              exact updProposal_write [(j, so')] st.proposal (by simp) j so'
                (List.mem_singleton.2 rfl) (hbnd j (by rw [hgo]; simp))
            · intro habs
              rw [hHH] at habs
              exact absurd habs Bool.false_ne_true
            · intro habs
              rw [hHH] at habs
              exact absurd habs Bool.false_ne_true
        · rw [if_neg hlen1] at hstep
          injection hstep with h1 _
          cases h1
      · rw [if_neg hhost, if_neg hdev] at hstep
        injection hstep with h1 _
        cases h1

/-- A successful dispatch pass over groups with pairwise-disjoint, in-range,
duplicate-free positions: topology ranks and proposal length are invariant,
untouched positions keep their entries, every group's head is host- or
device-tagged (device-tagged heads force singletons), each member is
rewritten in place with its unit fields preserved, and every host-dispatched
group is confined to a single host-sized contiguous rank block. -/
theorem dispatchGroups_ok_spec (lws n : Nat) :
    ∀ (gs : List IdxGroup) (st stF : OrchState),
      dispatchGroups lws gs st = (.ok (), stF) →
      ranksOf st.tdevs = List.range n →
      (∀ g ∈ gs, (g.options.map Prod.fst).Nodup ∧
        ∀ j ∈ g.options.map Prod.fst, j < st.proposal.length) →
      List.Pairwise (fun g1 g2 => ∀ j, j ∈ g1.options.map Prod.fst →
        j ∉ g2.options.map Prod.fst) gs →
      ranksOf stF.tdevs = List.range n ∧
      stF.proposal.length = st.proposal.length ∧
      (∀ j, (∀ g ∈ gs, j ∉ g.options.map Prod.fst) →
        stF.proposal.get? j = st.proposal.get? j) ∧
      ∀ g ∈ gs,
        (headHost g = true ∨ (headDevice g = true ∧ g.options.length = 1)) ∧
        (∀ j so0, (j, so0) ∈ g.options →
          ∃ so1, stF.proposal.get? j = some so1 ∧ FieldsEq so1 so0) ∧
        (headHost g = true → ∃ h, h * lws + lws ≤ n ∧
          ∀ j so0, (j, so0) ∈ g.options →
            ∃ so1, stF.proposal.get? j = some so1 ∧
              ∀ s ∈ so1.shards, ∃ r, s.rank = some r ∧
                h * lws ≤ r ∧ r < h * lws + lws) ∧
        (headHost g = true → ∀ iso ∈ g.options,
          (iso.2.sharding_type = ShardingType.TABLE_ROW_WISE ∧
            iso.2.num_shards = lws) ∨
          iso.2.sharding_type = ShardingType.TABLE_COLUMN_WISE)
  | [], st, stF, hrun, hranks, _, _ => by
    rw [dispatchGroups] at hrun
    injection hrun with _ h2
    subst h2
    exact ⟨hranks, rfl, fun j _ => rfl, fun g hg => absurd hg (List.not_mem_nil g)⟩
  | g :: rest, st, stF, hrun, hranks, hbnds, hpair => by
    rw [dispatchGroups] at hrun
    rcases hst : dispatchStep lws g st with ⟨res, st1⟩
    rw [hst] at hrun
    rcases res with e | u
    · dsimp only at hrun
      injection hrun with h1 _
      cases h1
    · dsimp only at hrun
      cases u
      obtain ⟨h1, h2, h3, h4, h5, h6, h7⟩ := dispatchStep_ok_spec lws n g st st1 hst
        hranks (hbnds g (List.mem_cons_self g rest)).1
        (hbnds g (List.mem_cons_self g rest)).2
      rw [List.pairwise_cons] at hpair
      have hbnds' : ∀ g' ∈ rest, (g'.options.map Prod.fst).Nodup ∧
          ∀ j ∈ g'.options.map Prod.fst, j < st1.proposal.length := by
        intro g' hg'
        refine ⟨(hbnds g' (List.mem_cons_of_mem g hg')).1, ?_⟩
        intro j hj
        rw [h2]
        exact (hbnds g' (List.mem_cons_of_mem g hg')).2 j hj
      obtain ⟨H1, H2, H3, H4⟩ :=
        dispatchGroups_ok_spec lws n rest st1 stF hrun h1 hbnds' hpair.2
      have hframe_g : ∀ j, j ∈ g.options.map Prod.fst →
          stF.proposal.get? j = st1.proposal.get? j := by
        intro j hj
        exact H3 j (fun g' hg' => hpair.1 g' hg' j hj)
      refine ⟨H1, H2.trans h2, ?_, ?_⟩
      · intro j hall
        rw [H3 j (fun g' hg' => hall g' (List.mem_cons_of_mem g hg'))]
        exact h3 j (hall g (List.mem_cons_self g rest))
      · intro g' hg'
        rcases List.mem_cons.1 hg' with rfl | hg''
        · refine ⟨h5, ?_, ?_, h7⟩
          · intro j so0 hmem
            obtain ⟨so1, hget1, hf⟩ := h4 j so0 hmem
            refine ⟨so1, ?_, hf⟩
            rw [hframe_g j (List.mem_map_of_mem Prod.fst hmem)]
            exact hget1
          · intro hhh
            obtain ⟨h, hb, hmem'⟩ := h6 hhh
            refine ⟨h, hb, ?_⟩
            intro j so0 hmem
            obtain ⟨so1, hget1, hsh⟩ := hmem' j so0 hmem
            refine ⟨so1, ?_, hsh⟩
            rw [hframe_g j (List.mem_map_of_mem Prod.fst hmem)]
            exact hget1
        · exact H4 g' hg''

/-- Each dispatched group is a complete key-class of the non-uniform units. -/
theorem groupNonUniformIdx_classes (l : List (Nat × ShardingOption)) :
    ∀ g ∈ groupNonUniformIdx l, ∃ k,
      g.options = (nonUniformOf l).filter
        (fun iso => decide (groupKey iso.2 = k)) ∧ g.options ≠ [] := by
  intro g hg
  rw [groupNonUniformIdx, pySort_mem] at hg
  rcases List.mem_map.1 hg with ⟨kv, hkv, rfl⟩
  have hacc := buildGroups_spec l [] [] goodAcc_nil
  rw [List.nil_append] at hacc
  obtain ⟨hc1, hc2, _⟩ := hacc.2.2.1 kv hkv
  exact ⟨kv.1, hc1, hc2⟩

/-- A key-class is a sublist of the base proposal. -/
theorem class_sub (l : List (Nat × ShardingOption)) (k : String) :
    ((nonUniformOf l).filter
      (fun iso => decide (groupKey iso.2 = k))).Sublist l :=
  (List.filter_sublist _).trans (List.filter_sublist _)

theorem group_tags_nodup_bound (p : List ShardingOption) (g : IdxGroup)
    (hg : g ∈ groupNonUniformIdx p.enum) :
    (g.options.map Prod.fst).Nodup ∧
    ∀ j ∈ g.options.map Prod.fst, j < p.length := by
  obtain ⟨k, hk, _⟩ := groupNonUniformIdx_classes p.enum g hg
  have hsub : (g.options.map Prod.fst).Sublist (p.enum.map Prod.fst) := by
    rw [hk]
    exact List.Sublist.map Prod.fst (class_sub p.enum k)
  rw [List.enum_map_fst] at hsub
  refine ⟨List.Nodup.sublist hsub (List.nodup_range p.length), ?_⟩
  intro j hj
  exact List.mem_range.1 (hsub.subset hj)

/-- A proposal position determines the unit (Python object identity). -/
theorem enum_functional (p : List ShardingOption) {j : Nat}
    {a b : ShardingOption} (ha : (j, a) ∈ p.enum) (hb : (j, b) ∈ p.enum) :
    a = b := by
  have ha' := List.mem_enum_iff_get?.1 ha
  have hb' := List.mem_enum_iff_get?.1 hb
  rw [ha'] at hb'
  exact Option.some.inj hb'

/-- Distinct groups occupy disjoint proposal positions. -/
theorem groupNonUniformIdx_disjoint (p : List ShardingOption) :
    List.Pairwise (fun g1 g2 : IdxGroup => ∀ j, j ∈ g1.options.map Prod.fst →
      j ∉ g2.options.map Prod.fst) (groupNonUniformIdx p.enum) := by
  rw [groupNonUniformIdx]
  have hsymm : ∀ {g1 g2 : IdxGroup},
      (∀ j, j ∈ g1.options.map Prod.fst → j ∉ g2.options.map Prod.fst) →
      ∀ j, j ∈ g2.options.map Prod.fst → j ∉ g1.options.map Prod.fst := by
    intro g1 g2 hR j hj2 hj1
    exact hR j hj1 hj2
  rw [List.Perm.pairwise_iff hsymm
    (pySort_perm groupDescLe ((buildGroups p.enum []).map Prod.snd))]
  have hacc := buildGroups_spec p.enum [] [] goodAcc_nil
  rw [List.nil_append] at hacc
  obtain ⟨hkeys, hnodup, hclass, _, _⟩ := hacc
  rw [List.pairwise_map]
  refine List.Pairwise.imp_of_mem ?_ (List.pairwise_map.1 hnodup)
  intro kv1 kv2 h1 h2 hne j hj1 hj2
  obtain ⟨hc11, _, _⟩ := hclass kv1 h1
  obtain ⟨hc21, _, _⟩ := hclass kv2 h2
  rw [List.mem_map] at hj1 hj2
  obtain ⟨x1, hx1, hx1j⟩ := hj1
  obtain ⟨x2, hx2, hx2j⟩ := hj2
  rw [hc11, List.mem_filter] at hx1
  rw [hc21, List.mem_filter] at hx2
  have hx1e : (j, x1.2) ∈ p.enum := by
    have hx1eq : x1 = (j, x1.2) := by rw [← hx1j]
    exact hx1eq ▸ List.mem_of_mem_filter hx1.1
  have hx2e : (j, x2.2) ∈ p.enum := by
    have hx2eq : x2 = (j, x2.2) := by rw [← hx2j]
    exact hx2eq ▸ List.mem_of_mem_filter hx2.1
  have heq := enum_functional p hx1e hx2e
  have hk1 := of_decide_eq_true hx1.2
  have hk2 := of_decide_eq_true hx2.2
  exact hne (by rw [← hk1, ← hk2, heq])

/-- Every non-uniform option is covered by a dispatched group. -/
theorem groupNonUniformIdx_cover (l : List (Nat × ShardingOption))
    (iso : Nat × ShardingOption) (h : iso ∈ nonUniformOf l) :
    ∃ g ∈ groupNonUniformIdx l, iso ∈ g.options := by
  obtain ⟨g, hg, hopts⟩ := same_key_same_group l iso h
  refine ⟨g, hg, ?_⟩
  rw [hopts]
  exact List.mem_filter.2 ⟨h, by simp⟩

/-- The uniform pass preserves the device identities of the working
topology. -/
theorem uniformPassGo_ranks :
    ∀ (l : List (Nat × ShardingOption)) (devs : List DeviceHardware),
      (uniformPassGo l devs).1 = .ok () →
      ranksOf (uniformPassGo l devs).2.2 = ranksOf devs
  | [], _, _ => rfl
  | (i, so) :: rest, devs, hok => by
    rw [uniformPassGo] at hok ⊢
    rcases hu : GreedyPerfPartitioner._uniform_partition_one so devs
      with ⟨res, so', devs1⟩
    rw [hu] at hok
    rcases res with e | u
    · dsimp only at hok
      cases hok
    · dsimp only at hok ⊢
      cases u
      have h1 : (GreedyPerfPartitioner._uniform_partition_one so devs).1 =
          .ok () := by rw [hu]
      obtain ⟨hr1, _⟩ := uniformPartitionOne_ranks so devs h1
      rw [hu] at hr1
      rw [uniformPassGo_ranks rest devs1 hok]
      exact hr1

/-- The host-trial traversal of `_cohost_partition` is (up to the position
tags) exactly `_sort_devices_by_perf` of the hosts. -/
theorem sort_hosts_tagged (hosts : List (List DeviceHardware)) :
    (pySort (fun a b => decide (_get_perf_sum a.2 ≤ _get_perf_sum b.2))
      hosts.enum).map Prod.snd = _sort_devices_by_perf hosts := by
  have h := pySort_map Prod.snd
    (fun a b => decide (_get_perf_sum a ≤ _get_perf_sum b))
    (fun a b => decide (_get_perf_sum a.2 ≤ _get_perf_sum b.2))
    (fun a b => rfl) hosts.enum
  rw [List.enum_map_snd] at h
  rw [_sort_devices_by_perf]
  exact h.symm

/-- `_sort_devices_by_perf` is ascending in summed device perf. -/
theorem sort_devices_pairwise (hosts : List (List DeviceHardware)) :
    List.Pairwise (fun a b => _get_perf_sum a ≤ _get_perf_sum b)
      (_sort_devices_by_perf hosts) := by
  rw [_sort_devices_by_perf]
  refine List.Pairwise.imp ?_ (pySort_pairwise _ ?_ ?_ hosts)
  · intro a b h
    exact of_decide_eq_true h
  · intro a b
    rcases le_total (_get_perf_sum a) (_get_perf_sum b) with h | h
    · exact Or.inl (decide_eq_true h)
    · exact Or.inr (decide_eq_true h)
  · intro a b c h1 h2
    exact decide_eq_true (le_trans (of_decide_eq_true h1) (of_decide_eq_true h2))

/-- A host whose trial fails with a `PlannerError` is abandoned; the loop
moves to the next host (keeping the shard-rank mutations already written). -/
theorem cohostGo_plannerFail_next (ss : Storage) (hi : Nat)
    (devices : List DeviceHardware) (rest : List (Nat × List DeviceHardware))
    (options options₁ : List (Nat × ShardingOption))
    (hfit : ss.fits_in (hostStorage devices) = true)
    (htrial : cohostTrialGo options devices = .plannerFail options₁) :
    cohostGo ss ((hi, devices) :: rest) options = cohostGo ss rest options₁ := by
  rw [cohostGo, if_neg (show ¬(!ss.fits_in (hostStorage devices)) = true by
    rw [hfit]; decide), htrial]

/-- **C4**.  Co-location.  Conjuncts: (1) for every proposal and well-formed
topology on which `GreedyPerfPartitioner.partition` succeeds and every
grouping key, there is a single host index `h` such that every host-tagged
unit of the returned proposal with that key has all its shards assigned ranks
inside the `h`-th host-sized contiguous rank block (units sharing a
dependency key form one group, so co-keyed host-tagged units land in the same
block); (2) the co-host packer trials hosts in ascending order of summed
device perf: its traversal is, up to position tags, `_sort_devices_by_perf`
of the hosts — a permutation of the hosts that is ascending in perf sum;
(3) a host trial failing with a `PlannerError` is abandoned and the loop
moves to the next host; (4) an exhausted host loop raises the
placement-infeasibility `PlannerError` naming the group (its members and
storage sum); and (5) every `PlannerError` leaving the host loop is that
group-naming error. -/
theorem c4_colocation :
    (∀ (proposal : List ShardingOption) (t : Topology),
      TopologyWF t →
      (GreedyPerfPartitioner.partition proposal t).result = .ok () →
      ∀ key, ∃ h, ∀ so' ∈ (GreedyPerfPartitioner.partition proposal t).proposal,
        so'.partition_by = PartitionByType.HOST → groupKey so' = key →
        ∀ s ∈ so'.shards, ∃ r, s.rank = some r ∧
          h * t.local_world_size ≤ r ∧
          r < h * t.local_world_size + t.local_world_size) ∧
    (∀ hosts : List (List DeviceHardware),
      (pySort (fun a b => decide (_get_perf_sum a.2 ≤ _get_perf_sum b.2))
          hosts.enum).map Prod.snd = _sort_devices_by_perf hosts ∧
      (_sort_devices_by_perf hosts).Perm hosts ∧
      List.Pairwise (fun a b => _get_perf_sum a ≤ _get_perf_sum b)
        (_sort_devices_by_perf hosts)) ∧
    (∀ (ss : Storage) (hi : Nat) (devices : List DeviceHardware)
        (rest : List (Nat × List DeviceHardware))
        (options options₁ : List (Nat × ShardingOption)),
      ss.fits_in (hostStorage devices) = true →
      cohostTrialGo options devices = .plannerFail options₁ →
      cohostGo ss ((hi, devices) :: rest) options = cohostGo ss rest options₁) ∧
    (∀ (ss : Storage) (options : List (Nat × ShardingOption)),
      cohostGo ss [] options =
        (.error (.cohostPartitionError ⟨options.map Prod.snd, ss⟩), options) ∧
      (PErr.cohostPartitionError
        ⟨options.map Prod.snd, ss⟩).isPlannerError = true) ∧
    (∀ (ss : Storage) (L : List (Nat × List DeviceHardware))
        (options options' : List (Nat × ShardingOption)) (e : PErr),
      cohostGo ss L options = (.error e, options') →
      e.isPlannerError = true →
      e = .cohostPartitionError ⟨options'.map Prod.snd, ss⟩) := by
  refine ⟨?_, ?_, ?_, ?_, ?_⟩
  · intro proposal t hwf hok key
    rcases hpg : uniformPassGo (proposal.enum.filter
        (fun iso => decide (iso.2.partition_by = PartitionByType.UNIFORM)))
        t.devices with ⟨res, usos, devs⟩
    rcases res with e | u
    · exfalso
      have hcore : (GreedyPerfPartitioner.partitionCore proposal t).1 =
          .error e := by
        unfold GreedyPerfPartitioner.partitionCore
        dsimp only
        rw [hpg]
      have hcon : (Except.error e : Except PErr Unit) = .ok () := by
        rw [← hcore]
        exact hok
      cases hcon
    · cases u
      rcases hdg : dispatchGroups t.local_world_size
          (groupNonUniformIdx (updProposal proposal usos).enum)
          ⟨updProposal proposal usos, devs, devs⟩ with ⟨res2, stF⟩
      rcases res2 with e2 | u2
      · exfalso
        have hcore : (GreedyPerfPartitioner.partitionCore proposal t).1 =
            .error e2 := by
          unfold GreedyPerfPartitioner.partitionCore
          dsimp only
          rw [hpg]
          dsimp only
          rw [hdg]
        have hcon : (Except.error e2 : Except PErr Unit) = .ok () := by
          rw [← hcore]
          exact hok
        cases hcon
      · cases u2
        have hprop : (GreedyPerfPartitioner.partition proposal t).proposal =
            stF.proposal := by
          show (GreedyPerfPartitioner.partitionCore proposal t).2.1 = stF.proposal
          unfold GreedyPerfPartitioner.partitionCore
          dsimp only
          rw [hpg]
          dsimp only
          rw [hdg]
        have hu1 : (uniformPassGo (proposal.enum.filter
            (fun iso => decide (iso.2.partition_by = PartitionByType.UNIFORM)))
            t.devices).1 = .ok () := by
          rw [hpg]
        have hr0 : ranksOf devs = List.range t.devices.length := by
          have hup := uniformPassGo_ranks _ _ hu1
          rw [hpg] at hup
          rw [hup]
          exact hwf.1
        obtain ⟨HF1, HF2, HF3, HF4⟩ := dispatchGroups_ok_spec
          t.local_world_size t.devices.length
          (groupNonUniformIdx (updProposal proposal usos).enum)
          ⟨updProposal proposal usos, devs, devs⟩ stF hdg hr0
          (fun g hg => group_tags_nodup_bound (updProposal proposal usos) g hg)
          (groupNonUniformIdx_disjoint (updProposal proposal usos))
        rw [hprop]
        have hfind : ∀ (j : Nat) (so' : ShardingOption),
            stF.proposal.get? j = some so' →
            so'.partition_by = PartitionByType.HOST →
            ∃ g ∈ groupNonUniformIdx (updProposal proposal usos).enum,
              ∃ so0, (j, so0) ∈ g.options := by
          intro j so' hj hpb
          by_cases hcov : ∃ g ∈ groupNonUniformIdx
              (updProposal proposal usos).enum, ∃ so0, (j, so0) ∈ g.options
          · exact hcov
          · exfalso
            push_neg at hcov
            have hallnot : ∀ g ∈ groupNonUniformIdx
                (updProposal proposal usos).enum,
                j ∉ g.options.map Prod.fst := by
              intro g hg hjmem
              rw [List.mem_map] at hjmem
              obtain ⟨x, hx, hxj⟩ := hjmem
              have hxeq : x = (j, x.2) := by rw [← hxj]
              exact hcov g hg x.2 (hxeq ▸ hx)
            have hfr := HF3 j hallnot
            rw [hj] at hfr
            have henum : (j, so') ∈ (updProposal proposal usos).enum :=
              List.mem_enum_iff_get?.2 hfr.symm
            have hnu : (j, so') ∈ nonUniformOf
                (updProposal proposal usos).enum := by
              rw [nonUniformOf, List.mem_filter]
              refine ⟨henum, ?_⟩
              rw [isUniform]
              dsimp only
              rw [hpb]
              decide
            obtain ⟨g, hg, hmemg⟩ := groupNonUniformIdx_cover _ _ hnu
            exact hcov g hg so' hmemg
        have hkeyof : ∀ (g : IdxGroup),
            g ∈ groupNonUniformIdx (updProposal proposal usos).enum →
            ∀ (j : Nat) (so0 so' : ShardingOption),
            (j, so0) ∈ g.options → stF.proposal.get? j = some so' →
            FieldsEq so' so0 := by
          intro g hg j so0 so' hmem hj
          obtain ⟨so1, hget1, hf1⟩ := (HF4 g hg).2.1 j so0 hmem
          rw [hj] at hget1
          have heq : so' = so1 := Option.some.inj hget1
          rw [heq]
          exact hf1
        by_cases hex : ∃ g ∈ groupNonUniformIdx
            (updProposal proposal usos).enum,
            headHost g = true ∧ ∃ iso ∈ g.options, groupKey iso.2 = key
        · obtain ⟨g0, hg0, hhh0, iso0, hiso0, hkey0⟩ := hex
          obtain ⟨h, hb, hall⟩ := (HF4 g0 hg0).2.2.1 hhh0
          refine ⟨h, ?_⟩
          intro so' hso' hpb hk
          obtain ⟨j, hj⟩ := List.mem_iff_get?.1 hso'
          obtain ⟨g, hg, so0, hmem⟩ := hfind j so' hj hpb
          obtain ⟨kg, hkg, _⟩ := groupNonUniformIdx_classes _ g hg
          obtain ⟨kg0, hkg0, _⟩ := groupNonUniformIdx_classes _ g0 hg0
          have hso0key : groupKey so0 = kg := by
            have hmf := hmem
            rw [hkg, List.mem_filter] at hmf
            exact of_decide_eq_true hmf.2
          have hkg0key : kg0 = key := by
            have hmf := hiso0
            rw [hkg0, List.mem_filter] at hmf
            have h' := of_decide_eq_true hmf.2
            rw [← h']
            exact hkey0
          have hf := hkeyof g hg j so0 so' hmem hj
          have hkeq : kg = key := by
            rw [← hso0key, ← fieldsEq_groupKey hf]
            exact hk
          have hopts_eq : g.options = g0.options := by
            rw [hkg, hkg0, hkeq, hkg0key]
          obtain ⟨so1', hget1', hsh⟩ := hall j so0 (hopts_eq ▸ hmem)
          rw [hj] at hget1'
          have hso1' : so' = so1' := Option.some.inj hget1'
          intro s hs
          exact hsh s (hso1' ▸ hs)
        · refine ⟨0, ?_⟩
          intro so' hso' hpb hk
          exfalso
          obtain ⟨j, hj⟩ := List.mem_iff_get?.1 hso'
          obtain ⟨g, hg, so0, hmem⟩ := hfind j so' hj hpb
          have hf := hkeyof g hg j so0 so' hmem hj
          rcases (HF4 g hg).1 with hhh | ⟨hhd, hlen1⟩
          · apply hex
            refine ⟨g, hg, hhh, (j, so0), hmem, ?_⟩
            show groupKey so0 = key
            rw [← fieldsEq_groupKey hf]
            exact hk
          · obtain ⟨x, hx⟩ := List.length_eq_one.1 hlen1
            rw [hx] at hmem
            have hxeq : x = (j, so0) := (List.mem_singleton.1 hmem).symm
            have hdev : so0.partition_by = PartitionByType.DEVICE := by
              have hh := hhd
              unfold headDevice at hh
              rw [hx, hxeq] at hh
              dsimp only at hh
              exact of_decide_eq_true hh
            have hcon : so'.partition_by = PartitionByType.DEVICE := by
              rw [hf.2.2.2.1]
              exact hdev
            rw [hpb] at hcon
            exact absurd hcon (by decide)
  · intro hosts
    refine ⟨sort_hosts_tagged hosts, ?_, sort_devices_pairwise hosts⟩
    rw [_sort_devices_by_perf]
    exact pySort_perm _ hosts
  · intro ss hi devices rest options options₁ hfit htrial
    exact cohostGo_plannerFail_next ss hi devices rest options options₁
      hfit htrial
  · intro ss options
    exact ⟨by rw [cohostGo], rfl⟩
  · intro ss L options options' e h hpl
    exact cohostGo_error_planner ss L options options' e h hpl

/-- **C4** witness: the co-location conjunct applied to a concrete proposal
with one host-tagged row-wise unit on a well-formed two-host topology (one
device per host), on which the partition succeeds. -/
theorem c4_colocation_witness :
    TopologyWF ⟨[⟨0, ⟨10, 100⟩, ⟨0⟩⟩, ⟨1, ⟨10, 100⟩, ⟨0⟩⟩], 1⟩ ∧
    (GreedyPerfPartitioner.partition
        [⟨"a", "m", some "k", "host", "table_row_wise", [⟨⟨1, 0⟩, ⟨1⟩, none⟩]⟩]
        ⟨[⟨0, ⟨10, 100⟩, ⟨0⟩⟩, ⟨1, ⟨10, 100⟩, ⟨0⟩⟩], 1⟩).result = .ok () ∧
    ∀ key, ∃ h, ∀ so' ∈ (GreedyPerfPartitioner.partition
        [⟨"a", "m", some "k", "host", "table_row_wise", [⟨⟨1, 0⟩, ⟨1⟩, none⟩]⟩]
        ⟨[⟨0, ⟨10, 100⟩, ⟨0⟩⟩, ⟨1, ⟨10, 100⟩, ⟨0⟩⟩], 1⟩).proposal,
      so'.partition_by = PartitionByType.HOST → groupKey so' = key →
      ∀ s ∈ so'.shards, ∃ r, s.rank = some r ∧ h * 1 ≤ r ∧ r < h * 1 + 1 :=
  ⟨by decide, by decide,
    c4_colocation.1
      [⟨"a", "m", some "k", "host", "table_row_wise", [⟨⟨1, 0⟩, ⟨1⟩, none⟩]⟩]
      ⟨[⟨0, ⟨10, 100⟩, ⟨0⟩⟩, ⟨1, ⟨10, 100⟩, ⟨0⟩⟩], 1⟩ (by decide) (by decide)⟩

/-! ### Rank-only mutation: `partition` leaves the rank-erased proposal
unchanged, whatever the outcome -/

/-- `reset_shard_rank` on one unit. -/
def sanOpt (so : ShardingOption) : ShardingOption :=
  {so with shards := so.shards.map resetShard}

theorem reset_eq_map_san (p : List ShardingOption) :
    reset_shard_rank p = p.map sanOpt := rfl

theorem sanOpt_idem (so : ShardingOption) : sanOpt (sanOpt so) = sanOpt so := by
  cases so
  dsimp only [sanOpt]
  rw [List.map_map]
  congr 1

theorem fieldsEq_sanOpt {a b : ShardingOption} (h : FieldsEq a b) :
    sanOpt a = sanOpt b := by
  obtain ⟨h1, h2, h3, h4, h5, h6⟩ := h
  cases a
  cases b
  dsimp only [sanOpt] at h1 h2 h3 h4 h5 h6 ⊢
  rw [h1, h2, h3, h4, h5, h6]

theorem forall₂_optEq_lookup_rev {a b : List (Nat × ShardingOption)}
    (h : List.Forall₂ OptEq a b) (j : Nat) (so1 : ShardingOption)
    (hmem : (j, so1) ∈ a) : ∃ so0, (j, so0) ∈ b ∧ FieldsEq so1 so0 := by
  induction h with
  | nil => cases hmem
  | @cons x y xtail ytail hxy htail ih =>
    rcases List.mem_cons.1 hmem with heq | hmem'
    · refine ⟨y.2, ?_, ?_⟩
      · have hy : y = (j, y.2) := by
          have hj : y.1 = j := by rw [← hxy.1, ← heq]
          rw [← hj]
        exact hy ▸ List.mem_cons_self y ytail
      · have hx2 : x.2 = so1 := by rw [← heq]
        exact hx2 ▸ hxy.2
    · obtain ⟨so0, hso0, hf⟩ := ih hmem'
      exact ⟨so0, List.mem_cons_of_mem y hso0, hf⟩

/-- Writing shard-rank-only mutations back leaves the rank-erased proposal
unchanged. -/
theorem updProposal_san (upds : List (Nat × ShardingOption))
    (p : List ShardingOption) (hnd : (upds.map Prod.fst).Nodup)
    (h : ∀ j so', (j, so') ∈ upds →
      ∃ so0, p.get? j = some so0 ∧ FieldsEq so' so0) :
    (updProposal p upds).map sanOpt = p.map sanOpt := by
  apply List.ext_get?
  intro j
  rw [List.get?_map, List.get?_map]
  by_cases hj : j ∈ upds.map Prod.fst
  · rw [List.mem_map] at hj
    obtain ⟨x, hx, hxj⟩ := hj
    have hxeq : x = (j, x.2) := by rw [← hxj]
    obtain ⟨so0, hso0, hf⟩ := h j x.2 (hxeq ▸ hx)
    have hlt : j < p.length := by
      rcases List.get?_eq_some.1 hso0 with ⟨hl, _⟩
      exact hl
    rw [updProposal_write upds p hnd j x.2 (hxeq ▸ hx) hlt, hso0,
      Option.map_some', Option.map_some']
    exact congrArg some (fieldsEq_sanOpt hf)
  · rw [updProposal_frame upds p j hj]

/-- The uniform pass rewrites only shard ranks. -/
theorem uniformPassGo_optEq :
    ∀ (l : List (Nat × ShardingOption)) (devs : List DeviceHardware),
      List.Forall₂ OptEq (uniformPassGo l devs).2.1 l
  | [], _ => List.Forall₂.nil
  | (i, so) :: rest, devs => by
    rw [uniformPassGo]
    have hfields := uniform_partition_one_fields so devs
    rcases hu : GreedyPerfPartitioner._uniform_partition_one so devs
      with ⟨res, so', devs1⟩
    rw [hu] at hfields
    rcases res with e | u
    · exact List.Forall₂.cons ⟨rfl, hfields⟩ (optEq_refl_list rest)
    · exact List.Forall₂.cons ⟨rfl, hfields⟩ (uniformPassGo_optEq rest devs1)

/-- The co-host packer rewrites only shard ranks, whatever the outcome. -/
theorem cohost_partition_optEq (options : List (Nat × ShardingOption))
    (ss : Storage) (hosts : List (List DeviceHardware)) :
    List.Forall₂ OptEq
      (GreedyPerfPartitioner._cohost_partition options ss hosts).2.1 options := by
  rw [GreedyPerfPartitioner._cohost_partition]
  have h := cohostGo_optEq ss
    (pySort (fun a b => decide (_get_perf_sum a.2 ≤ _get_perf_sum b.2))
      hosts.enum) options
  rcases hcg : cohostGo ss
      (pySort (fun a b => decide (_get_perf_sum a.2 ≤ _get_perf_sum b.2))
        hosts.enum) options with ⟨res2, opts2⟩
  rw [hcg] at h
  rcases res2 with e2 | ⟨hi, committed⟩
  · exact h
  · exact h

/-- Any dispatch step (succeeding or failing) rewrites only shard ranks, and
leaves positions outside the group untouched. -/
theorem dispatchStep_san (lws : Nat) (g : IdxGroup) (st : OrchState)
    (res : Except PErr Unit) (st1 : OrchState)
    (hstep : dispatchStep lws g st = (res, st1))
    (hnd : (g.options.map Prod.fst).Nodup)
    (hpres : ∀ j so0, (j, so0) ∈ g.options → st.proposal.get? j = some so0) :
    st1.proposal.map sanOpt = st.proposal.map sanOpt ∧
    ∀ j, j ∉ g.options.map Prod.fst →
      st1.proposal.get? j = st.proposal.get? j := by
  rcases hgo : g.options with _ | ⟨⟨i0, so0⟩, gtail⟩
  · unfold dispatchStep at hstep
    rw [hgo] at hstep
    dsimp only at hstep
    injection hstep with _ h2
    subst h2
    exact ⟨rfl, fun j _ => rfl⟩
  · unfold dispatchStep at hstep
    rw [hgo] at hstep
    dsimp only at hstep
    by_cases hhost : so0.partition_by = PartitionByType.HOST
    · rw [if_pos hhost] at hstep
      have hopt := cohost_partition_optEq ((i0, so0) :: gtail) g.storage_sum
        (GreedyPerfPartitioner._get_host_level_devices ⟨st.tdevs, lws⟩)
      rcases hch : GreedyPerfPartitioner._cohost_partition ((i0, so0) :: gtail)
          g.storage_sum
          (GreedyPerfPartitioner._get_host_level_devices ⟨st.tdevs, lws⟩)
        with ⟨res3, options', hosts'⟩
      rw [hch] at hstep hopt
      have htags : options'.map Prod.fst = ((i0, so0) :: gtail).map Prod.fst :=
        forall₂_optEq_map_fst hopt
      have hnd' : (options'.map Prod.fst).Nodup := by
        rw [htags, ← hgo]
        exact hnd
      have hsan : (updProposal st.proposal options').map sanOpt =
          st.proposal.map sanOpt := by
        apply updProposal_san options' st.proposal hnd'
        intro j so' hmem
        obtain ⟨so0', hso0', hf⟩ := forall₂_optEq_lookup_rev hopt j so' hmem
        exact ⟨so0', hpres j so0' (by rw [hgo]; exact hso0'), hf⟩
      have hfr : ∀ j, j ∉ ((i0, so0) :: gtail).map Prod.fst →
          (updProposal st.proposal options').get? j = st.proposal.get? j := by
        intro j hj
        exact updProposal_frame options' st.proposal j (htags ▸ hj)
      rcases res3 with e3 | u3
      · dsimp only at hstep
        injection hstep with _ h2
        subst h2
        exact ⟨hsan, hfr⟩
      · dsimp only at hstep
        injection hstep with _ h2
        subst h2
        exact ⟨hsan, hfr⟩
    · by_cases hdev : so0.partition_by = PartitionByType.DEVICE
      · rw [if_neg hhost, if_pos hdev] at hstep
        by_cases hlen1 : ((i0, so0) :: gtail).length = 1
        · rw [if_pos hlen1] at hstep
          have hgt : gtail = [] := by
            rw [List.length_cons] at hlen1
            exact List.length_eq_zero.1 (by omega)
          subst hgt
          have hfields := device_partition_fields so0 st.sortedDevs lws
          rcases hdp : GreedyPerfPartitioner._device_partition so0
              st.sortedDevs lws with ⟨res3, so', sdevs'⟩
          rw [hdp] at hstep hfields
          have hsan : (updProposal st.proposal [(i0, so')]).map sanOpt =
              st.proposal.map sanOpt := by
            apply updProposal_san [(i0, so')] st.proposal (by simp)
            intro j so'' hm
            have hp := List.mem_singleton.1 hm
            injection hp with hj hs
            subst hs
            refine ⟨so0, ?_, hfields⟩
            rw [hj]
            exact hpres i0 so0 (by rw [hgo]; exact List.mem_singleton.2 rfl)
          have hfr : ∀ j, j ∉ ((i0, so0) :: ([] : List (Nat × ShardingOption))).map
              Prod.fst →
              (updProposal st.proposal [(i0, so')]).get? j =
                st.proposal.get? j := by
            intro j hj
            refine updProposal_frame [(i0, so')] st.proposal j ?_
            simpa using (by simpa using hj : j ≠ i0)
          rcases res3 with e3 | u3
          · dsimp only at hstep
            injection hstep with _ h2
            subst h2
            exact ⟨hsan, hfr⟩
          · dsimp only at hstep
            injection hstep with _ h2
            subst h2
            exact ⟨hsan, hfr⟩
        · rw [if_neg hlen1] at hstep
          injection hstep with _ h2
          subst h2
          exact ⟨rfl, fun j _ => rfl⟩
      · rw [if_neg hhost, if_neg hdev] at hstep
        injection hstep with _ h2
        subst h2
        exact ⟨rfl, fun j _ => rfl⟩

/-- Any dispatch pass (succeeding or failing) rewrites only shard ranks. -/
theorem dispatchGroups_san (lws : Nat) :
    ∀ (gs : List IdxGroup) (st : OrchState) (res : Except PErr Unit)
      (stF : OrchState),
      dispatchGroups lws gs st = (res, stF) →
      (∀ g ∈ gs, (g.options.map Prod.fst).Nodup) →
      (∀ g ∈ gs, ∀ j so0, (j, so0) ∈ g.options →
        st.proposal.get? j = some so0) →
      List.Pairwise (fun g1 g2 => ∀ j, j ∈ g1.options.map Prod.fst →
        j ∉ g2.options.map Prod.fst) gs →
      stF.proposal.map sanOpt = st.proposal.map sanOpt
  | [], st, res, stF, hrun, _, _, _ => by
    rw [dispatchGroups] at hrun
    injection hrun with _ h2
    subst h2
    rfl
  | g :: rest, st, res, stF, hrun, hnds, hpres, hpair => by
    rw [dispatchGroups] at hrun
    rcases hst : dispatchStep lws g st with ⟨res1, st1⟩
    rw [hst] at hrun
    have hsan1 := dispatchStep_san lws g st res1 st1 hst
      (hnds g (List.mem_cons_self g rest)) (hpres g (List.mem_cons_self g rest))
    rcases res1 with e | u
    · dsimp only at hrun
      injection hrun with _ h2
      subst h2
      exact hsan1.1
    · dsimp only at hrun
      rw [List.pairwise_cons] at hpair
      have hpres' : ∀ g' ∈ rest, ∀ j so0, (j, so0) ∈ g'.options →
          st1.proposal.get? j = some so0 := by
        intro g' hg' j so0 hm
        have hnot : j ∉ g.options.map Prod.fst := by
          intro hjG
          exact hpair.1 g' hg' j hjG (List.mem_map_of_mem Prod.fst hm)
        rw [hsan1.2 j hnot]
        exact hpres g' (List.mem_cons_of_mem g hg') j so0 hm
      exact (dispatchGroups_san lws rest st1 res stF hrun
        (fun g' hg' => hnds g' (List.mem_cons_of_mem g hg'))
        hpres' hpair.2).trans hsan1.1

/-- `GreedyPerfPartitioner.partition` rewrites only shard ranks of the
caller's proposal, whether it succeeds or raises: the rank-erased proposal is
an invariant. -/
theorem partition_proposal_san (proposal : List ShardingOption) (t : Topology) :
    (GreedyPerfPartitioner.partition proposal t).proposal.map sanOpt =
      proposal.map sanOpt := by
  show (GreedyPerfPartitioner.partitionCore proposal t).2.1.map sanOpt = _
  unfold GreedyPerfPartitioner.partitionCore
  dsimp only
  have hupo := uniformPassGo_optEq (proposal.enum.filter
    (fun iso => decide (iso.2.partition_by = PartitionByType.UNIFORM))) t.devices
  rcases hpg : uniformPassGo (proposal.enum.filter
      (fun iso => decide (iso.2.partition_by = PartitionByType.UNIFORM)))
      t.devices with ⟨res, usos, devs⟩
  rw [hpg] at hupo
  have hsanU : (updProposal proposal usos).map sanOpt = proposal.map sanOpt := by
    apply updProposal_san
    · rw [forall₂_optEq_map_fst hupo]
      have hsub : ((proposal.enum.filter
          (fun iso => decide (iso.2.partition_by =
            PartitionByType.UNIFORM))).map Prod.fst).Sublist
          (proposal.enum.map Prod.fst) :=
        List.Sublist.map Prod.fst (List.filter_sublist _)
      rw [List.enum_map_fst] at hsub
      exact List.Nodup.sublist hsub (List.nodup_range _)
    · intro j so' hmem
      obtain ⟨so0, hso0, hf⟩ := forall₂_optEq_lookup_rev hupo j so' hmem
      refine ⟨so0, ?_, hf⟩
      exact List.mem_enum_iff_get?.1 (List.mem_of_mem_filter hso0)
  rcases res with e | u
  · exact hsanU
  · dsimp only
    have hnds : ∀ g ∈ groupNonUniformIdx (updProposal proposal usos).enum,
        (g.options.map Prod.fst).Nodup :=
      fun g hg => (group_tags_nodup_bound _ g hg).1
    have hpres : ∀ g ∈ groupNonUniformIdx (updProposal proposal usos).enum,
        ∀ j so0, (j, so0) ∈ g.options →
          (⟨updProposal proposal usos, devs, devs⟩ :
            OrchState).proposal.get? j = some so0 := by
      intro g hg j so0 hm
      obtain ⟨k, hk, _⟩ := groupNonUniformIdx_classes _ g hg
      rw [hk] at hm
      exact List.mem_enum_iff_get?.1 ((class_sub _ k).subset hm)
    rcases hdg : dispatchGroups t.local_world_size
        (groupNonUniformIdx (updProposal proposal usos).enum)
        ⟨updProposal proposal usos, devs, devs⟩ with ⟨res2, stF⟩
    have hsanD := dispatchGroups_san t.local_world_size _ _ res2 stF hdg
      hnds hpres (groupNonUniformIdx_disjoint _)
    rcases res2 with e2 | u2
    · exact hsanD.trans hsanU
    · exact hsanD.trans hsanU

/-! ### Structural validity extracted from a successful run -/

/-- A successful uniform pass certifies the shard-count precondition of every
uniform unit (the device count is invariant along the pass). -/
theorem uniformPassGo_counts :
    ∀ (l : List (Nat × ShardingOption)) (devs : List DeviceHardware),
      (uniformPassGo l devs).1 = .ok () →
      ∀ iso ∈ l, iso.2.num_shards = devs.length
  | [], _, _ => by
    intro iso h
    cases h
  | (i, so) :: rest, devs, hok => by
    rw [uniformPassGo] at hok
    rcases hu : GreedyPerfPartitioner._uniform_partition_one so devs
      with ⟨res, so', devs1⟩
    rw [hu] at hok
    rcases res with e | u
    · dsimp only at hok
      cases hok
    · dsimp only at hok
      cases u
      have hcnt : so.num_shards = devs.length := by
        by_contra hne
        rw [GreedyPerfPartitioner._uniform_partition_one, if_pos hne] at hu
        injection hu with h1 _
        cases h1
      have hlen1 : devs1.length = devs.length := by
        have h1 : (GreedyPerfPartitioner._uniform_partition_one so devs).1 =
            .ok () := by rw [hu]
        obtain ⟨hr1, _⟩ := uniformPartitionOne_ranks so devs h1
        rw [hu] at hr1
        have hc := congrArg List.length hr1
        rw [ranksOf, ranksOf, List.length_map, List.length_map] at hc
        exact hc
      intro iso hiso
      rcases List.mem_cons.1 hiso with rfl | hiso'
      · exact hcnt
      · rw [← hlen1]
        exact uniformPassGo_counts rest devs1 hok iso hiso'

/-! ### Grouping commutes with rank-erasure -/

/-- Rank-erasure of a position-tagged option. -/
def sanIso (iso : Nat × ShardingOption) : Nat × ShardingOption :=
  (iso.1, sanOpt iso.2)

/-- Rank-erasure of a group. -/
def sanGroup (g : IdxGroup) : IdxGroup := ⟨g.options.map sanIso, g.storage_sum⟩

/-- Rank-erasure of a dict entry. -/
def sanEntry (kv : String × IdxGroup) : String × IdxGroup :=
  (kv.1, sanGroup kv.2)

theorem sanOpt_fieldsEq (so : ShardingOption) : FieldsEq (sanOpt so) so := by
  refine ⟨rfl, rfl, rfl, rfl, rfl, ?_⟩
  show (so.shards.map resetShard).map resetShard = so.shards.map resetShard
  rw [List.map_map]
  exact List.map_congr_left (fun s _ => rfl)

theorem sanOpt_total_storage (so : ShardingOption) :
    (sanOpt so).total_storage = so.total_storage := by
  show (so.shards.map resetShard).foldl (fun acc s => acc + s.storage) ⟨0, 0⟩ =
    so.shards.foldl (fun acc s => acc + s.storage) ⟨0, 0⟩
  rw [List.foldl_map]
  rfl

theorem insertGrouped_san (m : List (String × IdxGroup)) (i : Nat)
    (so : ShardingOption) :
    insertGrouped (m.map sanEntry) i (sanOpt so) =
      (insertGrouped m i so).map sanEntry := by
  rw [insertGrouped, insertGrouped,
    fieldsEq_groupKey (sanOpt_fieldsEq so)]
  have hany : (m.map sanEntry).any (fun kv => kv.1 == groupKey so) =
      m.any (fun kv => kv.1 == groupKey so) := by
    rw [List.any_map]
    rfl
  rw [hany]
  by_cases hc : m.any (fun kv => kv.1 == groupKey so) = true
  · rw [if_pos hc, if_pos hc, List.map_map, List.map_map]
    apply List.map_congr_left
    intro kv _
    rw [Function.comp_apply, Function.comp_apply]
    by_cases hk : kv.1 = groupKey so
    · rw [if_pos (show (sanEntry kv).1 = groupKey so from hk), if_pos hk]
      show ((sanEntry kv).1,
          (⟨(sanEntry kv).2.options ++ [(i, sanOpt so)],
            (sanEntry kv).2.storage_sum + (sanOpt so).total_storage⟩ : IdxGroup)) =
        sanEntry (kv.1, ⟨kv.2.options ++ [(i, so)],
          kv.2.storage_sum + so.total_storage⟩)
      rw [sanOpt_total_storage]
      show (kv.1, (⟨kv.2.options.map sanIso ++ [(i, sanOpt so)],
          kv.2.storage_sum + so.total_storage⟩ : IdxGroup)) = _
      rw [sanEntry, sanGroup]
      dsimp only
      rw [List.map_append]
      rfl
    · rw [if_neg (show ¬(sanEntry kv).1 = groupKey so from hk), if_neg hk]
  · rw [if_neg hc, if_neg hc, List.map_append, sanOpt_total_storage]
    rfl

theorem buildGroups_san :
    ∀ (l : List (Nat × ShardingOption)) (m : List (String × IdxGroup)),
      buildGroups (l.map sanIso) (m.map sanEntry) =
        (buildGroups l m).map sanEntry
  | [], _ => rfl
  | (i, so) :: rest, m => by
    have hpair : sanIso (i, so) = (i, sanOpt so) := rfl
    rw [List.map_cons, hpair, buildGroups, buildGroups]
    by_cases hu : so.partition_by = PartitionByType.UNIFORM
    · rw [if_pos (show (sanOpt so).partition_by = PartitionByType.UNIFORM from hu),
        if_pos hu]
      exact buildGroups_san rest m
    · rw [if_neg (show ¬(sanOpt so).partition_by = PartitionByType.UNIFORM from hu),
        if_neg hu, insertGrouped_san]
      exact buildGroups_san rest (insertGrouped m i so)

/-- Grouping the rank-erased proposal yields the rank-erased groups. -/
theorem groupNonUniformIdx_san (p : List ShardingOption) :
    groupNonUniformIdx ((p.map sanOpt).enum) =
      (groupNonUniformIdx p.enum).map sanGroup := by
  rw [groupNonUniformIdx, groupNonUniformIdx]
  have henum : (p.map sanOpt).enum = p.enum.map sanIso := by
    rw [List.enum_map]
    rfl
  rw [henum]
  have hbg : buildGroups (p.enum.map sanIso) [] =
      (buildGroups p.enum []).map sanEntry := buildGroups_san p.enum []
  rw [hbg, List.map_map]
  have hcomp : (Prod.snd ∘ sanEntry) = (sanGroup ∘ Prod.snd) := rfl
  rw [hcomp, ← List.map_map]
  exact pySort_map sanGroup groupDescLe groupDescLe (fun a b => rfl) _

theorem headHost_san (g : IdxGroup) : headHost (sanGroup g) = headHost g := by
  rcases hgo : g.options with _ | ⟨⟨i, so⟩, rest⟩
  · unfold headHost sanGroup
    rw [hgo]
    rfl
  · unfold headHost sanGroup
    rw [hgo]
    dsimp only [List.map_cons]
    rfl

theorem headDevice_san (g : IdxGroup) : headDevice (sanGroup g) = headDevice g := by
  rcases hgo : g.options with _ | ⟨⟨i, so⟩, rest⟩
  · unfold headDevice sanGroup
    rw [hgo]
    rfl
  · unfold headDevice sanGroup
    rw [hgo]
    dsimp only [List.map_cons]
    rfl

/-! ### Structural validity: what a successful baseline certifies, and why
capped re-runs can only fail with `PlannerError`s -/

/-- The structural preconditions of a proposal (stated on its rank-erased
form, which every loop iteration shares): uniform units have world-sized
shard counts; every group is head-dispatchable (host-tagged head, or
device-tagged singleton); host groups hold only row-wise units with
host-sized shard counts and column-wise units. -/
def StructOK (n lws : Nat) (q : List ShardingOption) : Prop :=
  (∀ iso ∈ q.enum.filter
      (fun iso => decide (iso.2.partition_by = PartitionByType.UNIFORM)),
    iso.2.num_shards = n) ∧
  ∀ g ∈ groupNonUniformIdx q.enum,
    (headHost g = true ∨ (headDevice g = true ∧ g.options.length = 1)) ∧
    (headHost g = true → ∀ iso ∈ g.options,
      (iso.2.sharding_type = ShardingType.TABLE_ROW_WISE ∧
        iso.2.num_shards = lws) ∨
      iso.2.sharding_type = ShardingType.TABLE_COLUMN_WISE)

/-- The uniform pass leaves the rank-erased proposal unchanged. -/
theorem updProposal_uniform_san (p : List ShardingOption)
    (devs : List DeviceHardware) :
    (updProposal p (uniformPassGo (p.enum.filter
      (fun iso => decide (iso.2.partition_by = PartitionByType.UNIFORM)))
      devs).2.1).map sanOpt = p.map sanOpt := by
  have hupo := uniformPassGo_optEq (p.enum.filter
    (fun iso => decide (iso.2.partition_by = PartitionByType.UNIFORM))) devs
  apply updProposal_san
  · rw [forall₂_optEq_map_fst hupo]
    have hsub : ((p.enum.filter
        (fun iso => decide (iso.2.partition_by =
          PartitionByType.UNIFORM))).map Prod.fst).Sublist
        (p.enum.map Prod.fst) :=
      List.Sublist.map Prod.fst (List.filter_sublist _)
    rw [List.enum_map_fst] at hsub
    exact List.Nodup.sublist hsub (List.nodup_range _)
  · intro j so' hmem
    obtain ⟨so0, hso0, hf⟩ := forall₂_optEq_lookup_rev hupo j so' hmem
    refine ⟨so0, ?_, hf⟩
    exact List.mem_enum_iff_get?.1 (List.mem_of_mem_filter hso0)

/-- A successful baseline partition on a well-formed topology certifies the
structural preconditions of the (rank-erased) proposal. -/
theorem baseline_structOK (p : List ShardingOption) (t : Topology)
    (hwf : TopologyWF t)
    (hok : (GreedyPerfPartitioner.partition p t).result = .ok ()) :
    StructOK t.devices.length t.local_world_size (p.map sanOpt) := by
  rcases hpg : uniformPassGo (p.enum.filter
      (fun iso => decide (iso.2.partition_by = PartitionByType.UNIFORM)))
      t.devices with ⟨res, usos, devs⟩
  rcases res with e | u
  · exfalso
    have hcore : (GreedyPerfPartitioner.partitionCore p t).1 = .error e := by
      unfold GreedyPerfPartitioner.partitionCore
      dsimp only
      rw [hpg]
    have hcon : (Except.error e : Except PErr Unit) = .ok () := by
      rw [← hcore]
      exact hok
    cases hcon
  · cases u
    have hu1 : (uniformPassGo (p.enum.filter
        (fun iso => decide (iso.2.partition_by = PartitionByType.UNIFORM)))
        t.devices).1 = .ok () := by
      rw [hpg]
    constructor
    · -- uniform shard counts
      intro iso hiso
      have hfm : (p.map sanOpt).enum.filter
          (fun iso => decide (iso.2.partition_by = PartitionByType.UNIFORM)) =
          (p.enum.filter (fun iso => decide (iso.2.partition_by =
            PartitionByType.UNIFORM))).map sanIso := by
        have henum : (p.map sanOpt).enum = p.enum.map sanIso := by
          rw [List.enum_map]
          rfl
        rw [henum, List.filter_map]
        rfl
      rw [hfm, List.mem_map] at hiso
      obtain ⟨x, hx, hxeq⟩ := hiso
      have hcnt := uniformPassGo_counts _ _ hu1 x hx
      rw [← hxeq]
      show (sanOpt x.2).num_shards = t.devices.length
      rw [fieldsEq_num_shards (sanOpt_fieldsEq x.2)]
      exact hcnt
    · -- group structure
      rcases hdg : dispatchGroups t.local_world_size
          (groupNonUniformIdx (updProposal p usos).enum)
          ⟨updProposal p usos, devs, devs⟩ with ⟨res2, stF⟩
      rcases res2 with e2 | u2
      · exfalso
        have hcore : (GreedyPerfPartitioner.partitionCore p t).1 = .error e2 := by
          unfold GreedyPerfPartitioner.partitionCore
          dsimp only
          rw [hpg]
          dsimp only
          rw [hdg]
        have hcon : (Except.error e2 : Except PErr Unit) = .ok () := by
          rw [← hcore]
          exact hok
        cases hcon
      · cases u2
        have hr0 : ranksOf devs = List.range t.devices.length := by
          have hup := uniformPassGo_ranks _ _ hu1
          rw [hpg] at hup
          rw [hup]
          exact hwf.1
        obtain ⟨_, _, _, HF4⟩ := dispatchGroups_ok_spec
          t.local_world_size t.devices.length
          (groupNonUniformIdx (updProposal p usos).enum)
          ⟨updProposal p usos, devs, devs⟩ stF hdg hr0
          (fun g hg => group_tags_nodup_bound (updProposal p usos) g hg)
          (groupNonUniformIdx_disjoint (updProposal p usos))
        have hq : (p.map sanOpt) = (updProposal p usos).map sanOpt := by
          have := updProposal_uniform_san p t.devices
          rw [hpg] at this
          exact this.symm
        intro g' hg'
        rw [hq, groupNonUniformIdx_san, List.mem_map] at hg'
        obtain ⟨g, hg, rfl⟩ := hg'
        obtain ⟨hhead, _, _, hmem⟩ := HF4 g hg
        constructor
        · rw [headHost_san, headDevice_san]
          rcases hhead with h | ⟨h1, h2⟩
          · exact Or.inl h
          · refine Or.inr ⟨h1, ?_⟩
            show (g.options.map sanIso).length = 1
            rw [List.length_map]
            exact h2
        · rw [headHost_san]
          intro hhh iso' hiso'
          have hfacts := hmem hhh
          rcases List.mem_map.1 hiso' with ⟨x, hx, rfl⟩
          rcases hfacts x hx with ⟨ht, hc⟩ | ht
          · refine Or.inl ⟨ht, ?_⟩
            show (sanOpt x.2).num_shards = t.local_world_size
            rw [fieldsEq_num_shards (sanOpt_fieldsEq x.2)]
            exact hc
          · exact Or.inr ht

/-! ### Under the structural preconditions, every partitioner failure is a
`PlannerError` -/

theorem uniformPartitionOne_ok_length (so : ShardingOption)
    (devs : List DeviceHardware)
    (h : (GreedyPerfPartitioner._uniform_partition_one so devs).1 = .ok ()) :
    (GreedyPerfPartitioner._uniform_partition_one so devs).2.2.length =
      devs.length := by
  obtain ⟨hr1, _⟩ := uniformPartitionOne_ranks so devs h
  have hc := congrArg List.length hr1
  rw [ranksOf, ranksOf, List.length_map, List.length_map] at hc
  exact hc

theorem devicePartition_ok_length (so : ShardingOption)
    (devs : List DeviceHardware) (lws : Nat)
    (h : (GreedyPerfPartitioner._device_partition so devs lws).1 = .ok ()) :
    (GreedyPerfPartitioner._device_partition so devs lws).2.2.length =
      devs.length := by
  obtain ⟨hr1, _⟩ := devicePartition_ranks so devs lws h
  have hc := hr1.length_eq
  rw [ranksOf, ranksOf, List.length_map, List.length_map] at hc
  exact hc

theorem uniformAssign_err :
    ∀ (shards : List Shard) (devs : List DeviceHardware) (e : PErr),
      (uniformAssign shards devs).1 = .error e → e.isPlannerError = true
  | [], _, e, h => by cases h
  | _ :: _, [], e, h => by cases h
  | s :: ss, d :: ds, e, h => by
    by_cases hf : s.storage.fits_in d.storage = true
    · rw [uniformAssign, if_pos hf] at h
      dsimp only at h
      exact uniformAssign_err ss ds e h
    · rw [uniformAssign, if_neg hf] at h
      dsimp only at h
      injection h with h1
      subst h1
      rfl

theorem uniform_partition_one_err (so : ShardingOption)
    (devs : List DeviceHardware) (e : PErr)
    (hcnt : so.num_shards = devs.length)
    (h : (GreedyPerfPartitioner._uniform_partition_one so devs).1 = .error e) :
    e.isPlannerError = true := by
  rw [GreedyPerfPartitioner._uniform_partition_one,
    if_neg (show ¬so.num_shards ≠ devs.length from fun hne => hne hcnt)] at h
  dsimp only at h
  exact uniformAssign_err so.shards devs e h

theorem _device_partition_go_err (tableName : String) (lws : Nat) :
    ∀ (shards : List Shard) (devs : List DeviceHardware) (e : PErr),
      (_device_partition_go tableName lws shards devs).1 = .error e →
      e.isPlannerError = true
  | [], _, e, h => by cases h
  | shard :: rest, devs, e, h => by
    rcases haf : assignFirstFit shard (pySort (deviceSortLe lws) devs)
      with _ | ⟨r, devs'⟩
    · rw [_device_partition_go, haf] at h
      dsimp only at h
      injection h with h1
      subst h1
      rfl
    · rw [_device_partition_go, haf] at h
      dsimp only at h
      exact _device_partition_go_err tableName lws rest devs' e h

theorem device_partition_err (so : ShardingOption) (devs : List DeviceHardware)
    (lws : Nat) (e : PErr)
    (h : (GreedyPerfPartitioner._device_partition so devs lws).1 = .error e) :
    e.isPlannerError = true := by
  rw [GreedyPerfPartitioner._device_partition] at h
  dsimp only at h
  exact _device_partition_go_err so.name lws so.shards devs e h

/-- A host trial over members certified row-wise (with host-sized shard
counts) or column-wise never raises a fatal (non-planner) error. -/
theorem cohostTrialGo_no_fatal :
    ∀ (options : List (Nat × ShardingOption)) (devs : List DeviceHardware),
      (∀ iso ∈ options,
        (iso.2.sharding_type = ShardingType.TABLE_ROW_WISE ∧
          iso.2.num_shards = devs.length) ∨
        iso.2.sharding_type = ShardingType.TABLE_COLUMN_WISE) →
      ∀ (e : PErr) (options' : List (Nat × ShardingOption)),
        cohostTrialGo options devs ≠ .fatal e options'
  | [], devs, _, e, options' => by
    rw [cohostTrialGo]
    intro h
    cases h
  | (i, so) :: rest, devs, hstruct, e, options' => by
    intro h
    have hhead := hstruct (i, so) (List.mem_cons_self _ _)
    by_cases hrw : so.sharding_type = ShardingType.TABLE_ROW_WISE
    · rw [cohostTrialGo, if_pos hrw] at h
      have hcnt : so.num_shards = devs.length := by
        rcases hhead with ⟨_, hc⟩ | ht
        · exact hc
        · rw [hrw] at ht
          exact absurd ht (by decide)
      rcases hu : GreedyPerfPartitioner._uniform_partition_one so devs
        with ⟨res, so', devs1⟩
      rw [hu] at h
      rcases res with e2 | u
      · dsimp only at h
        have hpl : e2.isPlannerError = true :=
          uniform_partition_one_err so devs e2 hcnt (by rw [hu])
        rw [if_pos hpl] at h
        cases h
      · dsimp only at h
        cases u
        have hlen1 : devs1.length = devs.length := by
          have hl := uniformPartitionOne_ok_length so devs (by rw [hu])
          rw [hu] at hl
          exact hl
        have hrest : ∀ iso ∈ rest,
            (iso.2.sharding_type = ShardingType.TABLE_ROW_WISE ∧
              iso.2.num_shards = devs1.length) ∨
            iso.2.sharding_type = ShardingType.TABLE_COLUMN_WISE := by
          intro iso hiso
          rcases hstruct iso (List.mem_cons_of_mem _ hiso) with ⟨ht, hc⟩ | ht
          · refine Or.inl ⟨ht, ?_⟩
            rw [hlen1]
            exact hc
          · exact Or.inr ht
        cases hrec : cohostTrialGo rest devs1 with
        | success o' d' =>
          rw [hrec] at h
          cases h
        | plannerFail o' =>
          rw [hrec] at h
          cases h
        | fatal e2 o' =>
          exact absurd hrec (cohostTrialGo_no_fatal rest devs1 hrest e2 o')
    · by_cases hcw : so.sharding_type = ShardingType.TABLE_COLUMN_WISE
      · rw [cohostTrialGo, if_neg hrw, if_pos hcw] at h
        rcases hd : GreedyPerfPartitioner._device_partition so devs devs.length
          with ⟨res, so', devs1⟩
        rw [hd] at h
        rcases res with e2 | u
        · dsimp only at h
          have hpl : e2.isPlannerError = true :=
            device_partition_err so devs devs.length e2 (by rw [hd])
          rw [if_pos hpl] at h
          cases h
        · dsimp only at h
          cases u
          have hlen1 : devs1.length = devs.length := by
            have hl := devicePartition_ok_length so devs devs.length (by rw [hd])
            rw [hd] at hl
            exact hl
          have hrest : ∀ iso ∈ rest,
              (iso.2.sharding_type = ShardingType.TABLE_ROW_WISE ∧
                iso.2.num_shards = devs1.length) ∨
              iso.2.sharding_type = ShardingType.TABLE_COLUMN_WISE := by
            intro iso hiso
            rcases hstruct iso (List.mem_cons_of_mem _ hiso) with ⟨ht, hc⟩ | ht
            · refine Or.inl ⟨ht, ?_⟩
              rw [hlen1]
              exact hc
            · exact Or.inr ht
          cases hrec : cohostTrialGo rest devs1 with
          | success o' d' =>
            rw [hrec] at h
            cases h
          | plannerFail o' =>
            rw [hrec] at h
            cases h
          | fatal e2 o' =>
            exact absurd hrec (cohostTrialGo_no_fatal rest devs1 hrest e2 o')
      · rcases hhead with ⟨ht, _⟩ | ht
        · exact hrw ht
        · exact hcw ht

/-- Every failure of the host loop over equal-sized hosts and certified
members is a `PlannerError`. -/
theorem cohostGo_err_all_planner (ss : Storage) (lws : Nat) :
    ∀ (L : List (Nat × List DeviceHardware))
      (options options' : List (Nat × ShardingOption)) (e : PErr),
      (∀ hd ∈ L, hd.2.length = lws) →
      (∀ iso ∈ options,
        (iso.2.sharding_type = ShardingType.TABLE_ROW_WISE ∧
          iso.2.num_shards = lws) ∨
        iso.2.sharding_type = ShardingType.TABLE_COLUMN_WISE) →
      cohostGo ss L options = (.error e, options') →
      e.isPlannerError = true
  | [], options, options', e, _, _, h => by
    rw [cohostGo] at h
    injection h with h1 _
    injection h1 with h1
    subst h1
    rfl
  | (hj, devices) :: rest, options, options', e, hlens, hstruct, h => by
    rw [cohostGo] at h
    cases hfit : ss.fits_in (hostStorage devices) with
    | false =>
      rw [if_pos (show (!ss.fits_in (hostStorage devices)) = true by
        rw [hfit]; rfl)] at h
      exact cohostGo_err_all_planner ss lws rest options options' e
        (fun hd hm => hlens hd (List.mem_cons_of_mem _ hm)) hstruct h
    | true =>
      rw [if_neg (show ¬(!ss.fits_in (hostStorage devices)) = true by
        rw [hfit]; decide)] at h
      have hdevlen : devices.length = lws :=
        hlens (hj, devices) (List.mem_cons_self _ _)
      have hstruct' : ∀ iso ∈ options,
          (iso.2.sharding_type = ShardingType.TABLE_ROW_WISE ∧
            iso.2.num_shards = devices.length) ∨
          iso.2.sharding_type = ShardingType.TABLE_COLUMN_WISE := by
        intro iso hiso
        rcases hstruct iso hiso with ⟨ht, hc⟩ | ht
        · refine Or.inl ⟨ht, ?_⟩
          rw [hdevlen]
          exact hc
        · exact Or.inr ht
      cases hrec : cohostTrialGo options devices with
      | success o' d' =>
        rw [hrec] at h
        dsimp only at h
        injection h with h1 _
        cases h1
      | plannerFail o' =>
        rw [hrec] at h
        have htr := cohostTrialGo_optEq options devices
        rw [hrec] at htr
        have hstruct'' : ∀ iso ∈ o',
            (iso.2.sharding_type = ShardingType.TABLE_ROW_WISE ∧
              iso.2.num_shards = lws) ∨
            iso.2.sharding_type = ShardingType.TABLE_COLUMN_WISE := by
          intro iso hiso
          have hisop : (iso.1, iso.2) ∈ o' := by
            have hieq : iso = (iso.1, iso.2) := rfl
            exact hieq ▸ hiso
          obtain ⟨so0, hso0, hf⟩ :=
            forall₂_optEq_lookup_rev htr iso.1 iso.2 hisop
          rcases hstruct (iso.1, so0) hso0 with ⟨ht, hc⟩ | ht
          · refine Or.inl ⟨?_, ?_⟩
            · rw [hf.2.2.2.2.1]
              exact ht
            · rw [fieldsEq_num_shards hf]
              exact hc
          · refine Or.inr ?_
            rw [hf.2.2.2.2.1]
            exact ht
        exact cohostGo_err_all_planner ss lws rest o' options' e
          (fun hd hm => hlens hd (List.mem_cons_of_mem _ hm)) hstruct'' h
      | fatal e2 o' =>
        exact absurd hrec (cohostTrialGo_no_fatal options devices hstruct' e2 o')

/-- Every chunk produced by `_get_host_level_devices` is a full host. -/
theorem hostLevel_lengths (t : Topology) :
    ∀ ds ∈ GreedyPerfPartitioner._get_host_level_devices t,
      ds.length = t.local_world_size := by
  intro ds hds
  rw [GreedyPerfPartitioner._get_host_level_devices, List.mem_map] at hds
  obtain ⟨i, hi, rfl⟩ := hds
  rw [List.mem_range] at hi
  rw [List.length_take, List.length_drop]
  have hle : (i + 1) * t.local_world_size ≤ t.devices.length := by
    calc (i + 1) * t.local_world_size
        ≤ t.world_size / t.local_world_size * t.local_world_size :=
          Nat.mul_le_mul_right _ hi
      _ ≤ t.world_size := Nat.div_mul_le_self _ _
  rw [Nat.succ_mul] at hle
  exact min_eq_left (by omega)

/-- A failing `_cohost_partition` over certified members raises only
`PlannerError`s. -/
theorem cohost_partition_err (options options' : List (Nat × ShardingOption))
    (ss : Storage) (t' : Topology) (hosts' : List (List DeviceHardware))
    (e : PErr)
    (hstruct : ∀ iso ∈ options,
      (iso.2.sharding_type = ShardingType.TABLE_ROW_WISE ∧
        iso.2.num_shards = t'.local_world_size) ∨
      iso.2.sharding_type = ShardingType.TABLE_COLUMN_WISE)
    (h : GreedyPerfPartitioner._cohost_partition options ss
      (GreedyPerfPartitioner._get_host_level_devices t') =
      (.error e, options', hosts')) :
    e.isPlannerError = true := by
  rw [GreedyPerfPartitioner._cohost_partition] at h
  rcases hcg : cohostGo ss
      (pySort (fun a b => decide (_get_perf_sum a.2 ≤ _get_perf_sum b.2))
        (GreedyPerfPartitioner._get_host_level_devices t').enum)
      options with ⟨res2, opts2⟩
  rw [hcg] at h
  rcases res2 with e2 | ⟨hi, committed⟩
  · dsimp only at h
    injection h with h1 _
    injection h1 with h1
    subst h1
    refine cohostGo_err_all_planner ss t'.local_world_size _ options opts2 _
      ?_ hstruct hcg
    intro hd hm
    rw [pySort_mem] at hm
    have hmem2 : hd.2 ∈
        (GreedyPerfPartitioner._get_host_level_devices t').enum.map Prod.snd :=
      List.mem_map_of_mem Prod.snd hm
    rw [List.enum_map_snd] at hmem2
    exact hostLevel_lengths t' hd.2 hmem2
  · dsimp only at h
    injection h with h1 _
    cases h1

/-- A failing dispatch step on a structurally valid group raises only
`PlannerError`s. -/
theorem dispatchStep_err_planner (lws : Nat) (g : IdxGroup) (st : OrchState)
    (e : PErr) (st1 : OrchState)
    (hhead : headHost g = true ∨ (headDevice g = true ∧ g.options.length = 1))
    (hmem : headHost g = true → ∀ iso ∈ g.options,
      (iso.2.sharding_type = ShardingType.TABLE_ROW_WISE ∧
        iso.2.num_shards = lws) ∨
      iso.2.sharding_type = ShardingType.TABLE_COLUMN_WISE)
    (hstep : dispatchStep lws g st = (.error e, st1)) :
    e.isPlannerError = true := by
  rcases hgo : g.options with _ | ⟨⟨i0, so0⟩, gtail⟩
  · exfalso
    have h1 : headHost g = false := by
      unfold headHost
      rw [hgo]
    have h2 : headDevice g = false := by
      unfold headDevice
      rw [hgo]
    rcases hhead with hh | ⟨hh, _⟩
    · rw [h1] at hh
      exact Bool.false_ne_true hh
    · rw [h2] at hh
      exact Bool.false_ne_true hh
  · unfold dispatchStep at hstep
    rw [hgo] at hstep
    dsimp only at hstep
    by_cases hhost : so0.partition_by = PartitionByType.HOST
    · rw [if_pos hhost] at hstep
      have hHH : headHost g = true := by
        unfold headHost
        rw [hgo]
        dsimp only
        exact decide_eq_true hhost
      have hstruct := hmem hHH
      rw [hgo] at hstruct
      rcases hch : GreedyPerfPartitioner._cohost_partition ((i0, so0) :: gtail)
          g.storage_sum
          (GreedyPerfPartitioner._get_host_level_devices ⟨st.tdevs, lws⟩)
        with ⟨res3, options', hosts'⟩
      rw [hch] at hstep
      rcases res3 with e3 | u3
      · dsimp only at hstep
        injection hstep with h1 _
        injection h1 with h1
        subst h1
        exact cohost_partition_err ((i0, so0) :: gtail) options' g.storage_sum
          ⟨st.tdevs, lws⟩ hosts' _ hstruct hch
      · dsimp only at hstep
        injection hstep with h1 _
        cases h1
    · by_cases hdev : so0.partition_by = PartitionByType.DEVICE
      · rw [if_neg hhost, if_pos hdev] at hstep
        by_cases hlen1 : ((i0, so0) :: gtail).length = 1
        · rw [if_pos hlen1] at hstep
          rcases hdp : GreedyPerfPartitioner._device_partition so0
              st.sortedDevs lws with ⟨res3, so', sdevs'⟩
          rw [hdp] at hstep
          rcases res3 with e3 | u3
          · dsimp only at hstep
            injection hstep with h1 _
            injection h1 with h1
            subst h1
            exact device_partition_err so0 st.sortedDevs lws _ (by rw [hdp])
          · dsimp only at hstep
            injection hstep with h1 _
            cases h1
        · exfalso
          rcases hhead with hh | ⟨_, hh⟩
          · have hH : headHost g = false := by
              unfold headHost
              rw [hgo]
              dsimp only
              exact decide_eq_false hhost
            rw [hH] at hh
            exact Bool.false_ne_true hh
          · rw [hgo] at hh
            exact hlen1 hh
      · exfalso
        rcases hhead with hh | ⟨hh, _⟩
        · have hH : headHost g = false := by
            unfold headHost
            rw [hgo]
            dsimp only
            exact decide_eq_false hhost
          rw [hH] at hh
          exact Bool.false_ne_true hh
        · have hD : headDevice g = false := by
            unfold headDevice
            rw [hgo]
            dsimp only
            exact decide_eq_false hdev
          rw [hD] at hh
          exact Bool.false_ne_true hh

/-- A failing dispatch pass over structurally valid groups raises only
`PlannerError`s. -/
theorem dispatchGroups_err_planner (lws : Nat) :
    ∀ (gs : List IdxGroup) (st : OrchState) (e : PErr) (stF : OrchState),
      dispatchGroups lws gs st = (.error e, stF) →
      (∀ g ∈ gs,
        (headHost g = true ∨ (headDevice g = true ∧ g.options.length = 1)) ∧
        (headHost g = true → ∀ iso ∈ g.options,
          (iso.2.sharding_type = ShardingType.TABLE_ROW_WISE ∧
            iso.2.num_shards = lws) ∨
          iso.2.sharding_type = ShardingType.TABLE_COLUMN_WISE)) →
      e.isPlannerError = true
  | [], st, e, stF, hrun, _ => by
    rw [dispatchGroups] at hrun
    injection hrun with h1 _
    cases h1
  | g :: rest, st, e, stF, hrun, hstr => by
    rw [dispatchGroups] at hrun
    rcases hst : dispatchStep lws g st with ⟨res1, st1⟩
    rw [hst] at hrun
    rcases res1 with e1 | u
    · dsimp only at hrun
      injection hrun with h1 _
      injection h1 with h1
      subst h1
      exact dispatchStep_err_planner lws g st _ st1
        (hstr g (List.mem_cons_self g rest)).1
        (hstr g (List.mem_cons_self g rest)).2 hst
    · dsimp only at hrun
      exact dispatchGroups_err_planner lws rest st1 e stF hrun
        (fun g' hg' => hstr g' (List.mem_cons_of_mem g hg'))

theorem uniformPassGo_err_planner :
    ∀ (l : List (Nat × ShardingOption)) (devs : List DeviceHardware) (e : PErr),
      (∀ iso ∈ l, iso.2.num_shards = devs.length) →
      (uniformPassGo l devs).1 = .error e → e.isPlannerError = true
  | [], _, e, _, h => by cases h
  | (i, so) :: rest, devs, e, hcnts, h => by
    rw [uniformPassGo] at h
    rcases hu : GreedyPerfPartitioner._uniform_partition_one so devs
      with ⟨res, so', devs1⟩
    rw [hu] at h
    rcases res with e0 | u
    · dsimp only at h
      injection h with h1
      subst h1
      exact uniform_partition_one_err so devs _
        (hcnts (i, so) (List.mem_cons_self _ _)) (by rw [hu])
    · dsimp only at h
      cases u
      have hlen1 : devs1.length = devs.length := by
        have hl := uniformPartitionOne_ok_length so devs (by rw [hu])
        rw [hu] at hl
        exact hl
      refine uniformPassGo_err_planner rest devs1 e ?_ h
      intro iso hiso
      rw [hlen1]
      exact hcnts iso (List.mem_cons_of_mem _ hiso)

/-- Under the structural preconditions (certified by any successful baseline
run), a failing `GreedyPerfPartitioner.partition` raises only
`PlannerError`s — exactly what the memory-balance search loop catches. -/
theorem partition_err_planner (q : List ShardingOption) (t' : Topology) (e : PErr)
    (hstruct : StructOK t'.devices.length t'.local_world_size (q.map sanOpt))
    (herr : (GreedyPerfPartitioner.partition q t').result = .error e) :
    e.isPlannerError = true := by
  have herr' : (GreedyPerfPartitioner.partitionCore q t').1 = .error e := herr
  unfold GreedyPerfPartitioner.partitionCore at herr'
  dsimp only at herr'
  rcases hpg : uniformPassGo (q.enum.filter
      (fun iso => decide (iso.2.partition_by = PartitionByType.UNIFORM)))
      t'.devices with ⟨res, usos, devs⟩
  rw [hpg] at herr'
  rcases res with e0 | u
  · dsimp only at herr'
    injection herr' with h1
    subst h1
    have hcnt : ∀ iso ∈ q.enum.filter
        (fun iso => decide (iso.2.partition_by = PartitionByType.UNIFORM)),
        iso.2.num_shards = t'.devices.length := by
      intro iso hiso
      have hfm : (q.map sanOpt).enum.filter
          (fun iso => decide (iso.2.partition_by = PartitionByType.UNIFORM)) =
          (q.enum.filter (fun iso => decide (iso.2.partition_by =
            PartitionByType.UNIFORM))).map sanIso := by
        have henum : (q.map sanOpt).enum = q.enum.map sanIso := by
          rw [List.enum_map]
          rfl
        rw [henum, List.filter_map]
        rfl
      have hmemS : sanIso iso ∈ (q.map sanOpt).enum.filter
          (fun iso => decide (iso.2.partition_by = PartitionByType.UNIFORM)) := by
        rw [hfm]
        exact List.mem_map_of_mem sanIso hiso
      have hS := hstruct.1 (sanIso iso) hmemS
      rw [show (sanIso iso).2 = sanOpt iso.2 from rfl,
        fieldsEq_num_shards (sanOpt_fieldsEq iso.2)] at hS
      exact hS
    exact uniformPassGo_err_planner _ t'.devices _ hcnt (by rw [hpg])
  · dsimp only at herr'
    rcases hdg : dispatchGroups t'.local_world_size
        (groupNonUniformIdx (updProposal q usos).enum)
        ⟨updProposal q usos, devs, devs⟩ with ⟨res2, stF⟩
    rw [hdg] at herr'
    rcases res2 with e2 | u2
    · dsimp only at herr'
      injection herr' with h1
      subst h1
      refine dispatchGroups_err_planner t'.local_world_size _ _ _ stF hdg ?_
      intro g hg
      have hq1 : (updProposal q usos).map sanOpt = q.map sanOpt := by
        have hsu := updProposal_uniform_san q t'.devices
        rw [hpg] at hsu
        exact hsu
      have hsg : sanGroup g ∈ groupNonUniformIdx ((q.map sanOpt).enum) := by
        rw [← hq1, groupNonUniformIdx_san]
        exact List.mem_map_of_mem sanGroup hg
      obtain ⟨hh1, hh2⟩ := hstruct.2 (sanGroup g) hsg
      constructor
      · rw [headHost_san, headDevice_san] at hh1
        rcases hh1 with hh | ⟨hd1, hd2⟩
        · exact Or.inl hh
        · refine Or.inr ⟨hd1, ?_⟩
          have hlg : (sanGroup g).options.length = g.options.length := by
            show (g.options.map sanIso).length = _
            rw [List.length_map]
          rw [hlg] at hd2
          exact hd2
      · rw [headHost_san] at hh2
        intro hhh iso hiso
        have hmem' : sanIso iso ∈ (sanGroup g).options :=
          List.mem_map_of_mem sanIso hiso
        rcases hh2 hhh (sanIso iso) hmem' with ⟨ht, hc⟩ | ht
        · refine Or.inl ⟨ht, ?_⟩
          rw [← fieldsEq_num_shards (sanOpt_fieldsEq iso.2)]
          exact hc
        · exact Or.inr ht
    · dsimp only at herr'
      cases herr'

/-! ### The memory-balance binary search: counting, catching, totality -/

theorem mbLoop_count (tolerance : ℚ) (rate : List ShardingOption → Int)
    (opp : Int) :
    ∀ (fuel : Nat) (st st' : MBState),
      mbLoop tolerance rate opp fuel st = .ok st' →
      st'.searchCount ≤ st.searchCount + fuel
  | 0, st, st', h => by
    rw [mbLoop] at h
    injection h with h1
    subst h1
    exact Nat.le_add_right _ _
  | fuel + 1, st, st', h => by
    rw [mbLoop] at h
    split at h
    · dsimp only at h
      split at h
      · split at h
        · have hrec := mbLoop_count tolerance rate opp fuel _ st' h
          dsimp only at hrec
          omega
        · have hrec := mbLoop_count tolerance rate opp fuel _ st' h
          dsimp only at hrec
          omega
      · split at h
        · have hrec := mbLoop_count tolerance rate opp fuel _ st' h
          dsimp only at hrec
          omega
        · cases h
    · injection h with h1
      subst h1
      omega

/-- If every candidate rating exceeds the tolerance bound, no candidate is
ever accepted and the incumbent plan survives the whole search. -/
theorem mbLoop_defaultPlan (tolerance : ℚ) (rate : List ShardingOption → Int)
    (opp : Int)
    (hrej : ∀ q : List ShardingOption,
      ((rate q : ℚ) > (opp : ℚ) * (1 + tolerance))) :
    ∀ (fuel : Nat) (st st' : MBState),
      mbLoop tolerance rate opp fuel st = .ok st' →
      st'.defaultPlan = st.defaultPlan
  | 0, st, st', h => by
    rw [mbLoop] at h
    injection h with h1
    subst h1
    rfl
  | fuel + 1, st, st', h => by
    rw [mbLoop] at h
    split at h
    · dsimp only at h
      split at h
      · split at h
        · have hrec := mbLoop_defaultPlan tolerance rate opp hrej fuel _ st' h
          dsimp only at hrec
          exact hrec
        · rename_i hperf
          exact absurd (hrej _) hperf
      · split at h
        · have hrec := mbLoop_defaultPlan tolerance rate opp hrej fuel _ st' h
          dsimp only at hrec
          exact hrec
        · cases h
    · injection h with h1
      subst h1
      rfl

/-- Under the baseline's structural certificate the loop can never abort:
every greedy failure inside is a `PlannerError` and is caught. -/
theorem mbLoop_total (tolerance : ℚ) (rate : List ShardingOption → Int)
    (opp : Int) (n lws : Nat) (base : List ShardingOption)
    (hbase : StructOK n lws base) :
    ∀ (fuel : Nat) (st : MBState),
      st.proposal.map sanOpt = base →
      st.topology.devices.length = n →
      st.topology.local_world_size = lws →
      ∃ st', mbLoop tolerance rate opp fuel st = .ok st'
  | 0, st, _, _, _ => ⟨st, rfl⟩
  | fuel + 1, st, hp, hn, hl => by
    have hp1 : (reset_shard_rank st.proposal).map sanOpt = base := by
      rw [reset_eq_map_san, List.map_map,
        show sanOpt ∘ sanOpt = sanOpt from funext sanOpt_idem]
      exact hp
    have hn1 : (set_hbm_per_device st.topology
        (Int.fdiv (st.maxHbm + st.minHbm) 2)).devices.length = n := by
      simp only [set_hbm_per_device, List.length_map]
      exact hn
    have hl1 : (set_hbm_per_device st.topology
        (Int.fdiv (st.maxHbm + st.minHbm) 2)).local_world_size = lws := hl
    have hq2 : (GreedyPerfPartitioner.partition (reset_shard_rank st.proposal)
        (set_hbm_per_device st.topology
          (Int.fdiv (st.maxHbm + st.minHbm) 2))).proposal.map sanOpt = base := by
      rw [partition_proposal_san]
      exact hp1
    rw [mbLoop]
    by_cases hbr : st.minHbm + 10 * 1024 ^ 2 < st.maxHbm
    · rw [if_pos hbr]
      dsimp only
      rcases hpr : (GreedyPerfPartitioner.partition (reset_shard_rank st.proposal)
          (set_hbm_per_device st.topology
            (Int.fdiv (st.maxHbm + st.minHbm) 2))).result with e | u
      · dsimp only
        have hpl : e.isPlannerError = true := by
          refine partition_err_planner (reset_shard_rank st.proposal)
            (set_hbm_per_device st.topology
              (Int.fdiv (st.maxHbm + st.minHbm) 2)) e ?_ hpr
          rw [hn1, hl1, hp1]
          exact hbase
        rw [if_pos hpl]
        exact mbLoop_total tolerance rate opp n lws base hbase fuel _ hq2 hn1 hl1
      · dsimp only
        by_cases hperf : ((rate (GreedyPerfPartitioner.partition
            (reset_shard_rank st.proposal)
            (set_hbm_per_device st.topology
              (Int.fdiv (st.maxHbm + st.minHbm) 2))).proposal : ℚ) >
            (opp : ℚ) * (1 + tolerance))
        · rw [if_pos hperf]
          exact mbLoop_total tolerance rate opp n lws base hbase fuel _ hq2 hn1 hl1
        · rw [if_neg hperf]
          exact mbLoop_total tolerance rate opp n lws base hbase fuel _ hq2 hn1 hl1
    · rw [if_neg hbr]
      exact ⟨st, rfl⟩

/-- The initial search state built by `MemoryBalancedPartitioner.partition`
after a successful baseline run. -/
def mbInit (p : List ShardingOption) (t : Topology) : MBState :=
  ⟨Int.tdiv (hbmRequirement (GreedyPerfPartitioner.partition p t).proposal)
      (Int.ofNat t.world_size),
    t.devices.head?.elim 0 (fun d => d.storage.hbm),
    (GreedyPerfPartitioner.partition p t).proposal,
    (GreedyPerfPartitioner.partition p t).proposal, t, 0⟩

theorem MBP_run (msc : Nat) (tolerance : ℚ) (rate : List ShardingOption → Int)
    (p : List ShardingOption) (t : Topology)
    (hok : (GreedyPerfPartitioner.partition p t).result = .ok ()) :
    MemoryBalancedPartitioner.partition msc tolerance rate p t =
      match mbLoop tolerance rate
          (rate (GreedyPerfPartitioner.partition p t).proposal) msc
          (mbInit p t) with
      | .ok st => ⟨.ok st.defaultPlan, st.searchCount, st.minHbm, st.maxHbm⟩
      | .error e => ⟨.error e, 0, 0, 0⟩ := by
  unfold MemoryBalancedPartitioner.partition
  dsimp only
  rw [hok]
  rfl

/-- **C8** (search termination and totality): for every proposal and topology,
(1) the number of executed search iterations never exceeds
`max_search_count`; (2) the loop stops at once when the hbm bracket has
closed to within the fixed 10 MiB threshold, returning its current state;
(3) a `PlannerError` from the capped greedy run is caught and converted into
raising the lower bound to the midpoint while keeping the incumbent plan;
(4) whenever the baseline partition succeeds on a well-formed topology the
search always returns some plan; and (5) if no capped candidate is ever
within tolerance, that returned plan is exactly the baseline plan. -/
theorem c8_search_termination (msc : Nat) (tolerance : ℚ)
    (rate : List ShardingOption → Int) (p : List ShardingOption)
    (t : Topology) :
    ((MemoryBalancedPartitioner.partition msc tolerance rate p t).searchCount
      ≤ msc) ∧
    (∀ (opp : Int) (fuel : Nat) (st : MBState),
      ¬ st.minHbm + 10 * 1024 ^ 2 < st.maxHbm →
      mbLoop tolerance rate opp fuel st = .ok st) ∧
    (∀ (opp : Int) (fuel : Nat) (st : MBState) (e : PErr),
      st.minHbm + 10 * 1024 ^ 2 < st.maxHbm →
      (GreedyPerfPartitioner.partition (reset_shard_rank st.proposal)
        (set_hbm_per_device st.topology
          (Int.fdiv (st.maxHbm + st.minHbm) 2))).result = .error e →
      e.isPlannerError = true →
      mbLoop tolerance rate opp (fuel + 1) st =
        mbLoop tolerance rate opp fuel
          ⟨Int.fdiv (st.maxHbm + st.minHbm) 2, st.maxHbm, st.defaultPlan,
            (GreedyPerfPartitioner.partition (reset_shard_rank st.proposal)
              (set_hbm_per_device st.topology
                (Int.fdiv (st.maxHbm + st.minHbm) 2))).proposal,
            set_hbm_per_device st.topology
              (Int.fdiv (st.maxHbm + st.minHbm) 2),
            st.searchCount + 1⟩) ∧
    (TopologyWF t →
      (GreedyPerfPartitioner.partition p t).result = .ok () →
      ∃ plan,
        (MemoryBalancedPartitioner.partition msc tolerance rate p t).result =
          .ok plan) ∧
    (TopologyWF t →
      (GreedyPerfPartitioner.partition p t).result = .ok () →
      (∀ q : List ShardingOption,
        ((rate q : ℚ) >
          (rate (GreedyPerfPartitioner.partition p t).proposal : ℚ) *
            (1 + tolerance))) →
      (MemoryBalancedPartitioner.partition msc tolerance rate p t).result =
        .ok (GreedyPerfPartitioner.partition p t).proposal) := by
  refine ⟨?_, ?_, ?_, ?_, ?_⟩
  · rcases hres : (GreedyPerfPartitioner.partition p t).result with e | u
    · unfold MemoryBalancedPartitioner.partition
      dsimp only
      rw [hres]
      exact Nat.zero_le msc
    · cases u
      rw [MBP_run msc tolerance rate p t hres]
      rcases hml : mbLoop tolerance rate
          (rate (GreedyPerfPartitioner.partition p t).proposal) msc
          (mbInit p t) with e2 | st'
      · dsimp only
        exact Nat.zero_le msc
      · dsimp only
        have hcnt := mbLoop_count tolerance rate
          (rate (GreedyPerfPartitioner.partition p t).proposal) msc
          (mbInit p t) st' hml
        have h0 : (mbInit p t).searchCount = 0 := rfl
        omega
  · intro opp fuel st hbr
    cases fuel with
    | zero => rw [mbLoop]
    | succ f => rw [mbLoop, if_neg hbr]
  · intro opp fuel st e hbr hpr hpl
    rw [mbLoop, if_pos hbr]
    dsimp only
    rw [hpr]
    dsimp only
    rw [if_pos hpl]
  · intro hwf hok
    have hbase := baseline_structOK p t hwf hok
    have hinit1 : (mbInit p t).proposal.map sanOpt = p.map sanOpt :=
      partition_proposal_san p t
    obtain ⟨st', hml⟩ := mbLoop_total tolerance rate
      (rate (GreedyPerfPartitioner.partition p t).proposal)
      t.devices.length t.local_world_size (p.map sanOpt) hbase msc
      (mbInit p t) hinit1 rfl rfl
    refine ⟨st'.defaultPlan, ?_⟩
    rw [MBP_run msc tolerance rate p t hok, hml]
  · intro hwf hok hrej
    have hbase := baseline_structOK p t hwf hok
    have hinit1 : (mbInit p t).proposal.map sanOpt = p.map sanOpt :=
      partition_proposal_san p t
    obtain ⟨st', hml⟩ := mbLoop_total tolerance rate
      (rate (GreedyPerfPartitioner.partition p t).proposal)
      t.devices.length t.local_world_size (p.map sanOpt) hbase msc
      (mbInit p t) hinit1 rfl rfl
    have hdp := mbLoop_defaultPlan tolerance rate
      (rate (GreedyPerfPartitioner.partition p t).proposal) hrej msc
      (mbInit p t) st' hml
    rw [MBP_run msc tolerance rate p t hok, hml]
    dsimp only
    rw [hdp]
    rfl

/-- **C8** witness: one device, empty proposal, a rating that always exceeds
the tolerance bound; the search returns the baseline plan. -/
theorem c8_search_termination_witness :
    (MemoryBalancedPartitioner.partition 1 1 (fun _ => (-1 : Int)) []
        (⟨[⟨0, ⟨100, 100⟩, ⟨0⟩⟩], 1⟩ : Topology)).result =
      .ok (GreedyPerfPartitioner.partition []
        (⟨[⟨0, ⟨100, 100⟩, ⟨0⟩⟩], 1⟩ : Topology)).proposal :=
  (c8_search_termination 1 1 (fun _ => (-1 : Int)) []
      (⟨[⟨0, ⟨100, 100⟩, ⟨0⟩⟩], 1⟩ : Topology)).2.2.2.2
    (by decide) (by rfl) (fun q => by norm_num)

/-! ## C1: capacity and cost conservation

The partitioners mutate device objects in place; the embedding tracks those
mutations by rank (device ranks are unique in a well-formed topology).  A
placement step charges the device holding the shard's assigned rank:
capacity decreases by the shard's footprint, accumulated cost increases by
its contribution. -/

def chargeShard (d : DeviceHardware) (s : Shard) : DeviceHardware :=
  if s.rank = some d.rank then
    ⟨d.rank, d.storage - s.storage, d.perf + s.perf⟩
  else d

def chargeShards (d : DeviceHardware) (l : List Shard) : DeviceHardware :=
  l.foldl chargeShard d

/-- The device holding rank `r`. -/
def findRank (devs : List DeviceHardware) (r : Nat) : Option DeviceHardware :=
  devs.find? (fun d => d.rank == r)

/-- The shards of `l` assigned to rank `r`. -/
def atRank (r : Nat) (l : List Shard) : List Shard :=
  l.filter (fun s => decide (s.rank = some r))

/-- Sum of the capacity footprints of a shard list. -/
def shStorage (l : List Shard) : Storage :=
  l.foldl (fun acc s => acc + s.storage) ⟨0, 0⟩

/-- Sum of the cost contributions of a shard list. -/
def shPerf (l : List Shard) : Perf :=
  l.foldl (fun acc s => acc + s.perf) ⟨0⟩

/-- The total capacity footprint of the shards a proposal assigns to
rank `r` ("sum of shard capacities assigned to it"). -/
def assignedStorage (q : List ShardingOption) (r : Nat) : Storage :=
  shStorage (atRank r ((q.map ShardingOption.shards).flatten))

/-- The total cost contribution of the shards a proposal assigns to
rank `r`. -/
def assignedPerf (q : List ShardingOption) (r : Nat) : Perf :=
  shPerf (atRank r ((q.map ShardingOption.shards).flatten))

/-- Accounting update relation: `D'` is `D` with every device charged by
exactly the shards of `S` assigned to its rank. -/
def DevUpd (S : List Shard) (D D' : List DeviceHardware) : Prop :=
  ∀ r, findRank D' r =
    (findRank D r).map (fun d => chargeShards d (atRank r S))

/-- Nonnegativity transfer: every device of `D'` either has a certified
nonnegative remaining capacity (its last placement checked the fit) or is an
untouched device of `D`. -/
def NNrel (D D' : List DeviceHardware) : Prop :=
  ∀ d' ∈ D', d'.storage.nonneg ∨ d' ∈ D

/-! ### Storage and Perf arithmetic -/

theorem storage_add_assoc (a b c : Storage) : a + b + c = a + (b + c) := by
  cases a with
  | mk ah ad =>
    cases b with
    | mk bh bd =>
      cases c with
      | mk ch cd =>
        show (⟨ah + bh + ch, ad + bd + cd⟩ : Storage) =
          ⟨ah + (bh + ch), ad + (bd + cd)⟩
        rw [Int.add_assoc, Int.add_assoc]

theorem storage_sub_zero (a : Storage) : a - (⟨0, 0⟩ : Storage) = a := by
  cases a with
  | mk ah ad =>
    show (⟨ah - 0, ad - 0⟩ : Storage) = ⟨ah, ad⟩
    rw [Int.sub_zero, Int.sub_zero]

theorem storage_sub_sub (a b c : Storage) : a - b - c = a - (b + c) := by
  cases a with
  | mk ah ad =>
    cases b with
    | mk bh bd =>
      cases c with
      | mk ch cd =>
        show (⟨ah - bh - ch, ad - bd - cd⟩ : Storage) =
          ⟨ah - (bh + ch), ad - (bd + cd)⟩
        rw [Int.sub_sub, Int.sub_sub]

theorem perf_add_assoc (a b c : Perf) : a + b + c = a + (b + c) := by
  cases a with
  | mk at0 =>
    cases b with
    | mk bt =>
      cases c with
      | mk ct =>
        show (⟨at0 + bt + ct⟩ : Perf) = ⟨at0 + (bt + ct)⟩
        rw [Int.add_assoc]

theorem perf_zero_add (a : Perf) : (⟨0⟩ : Perf) + a = a := by
  cases a with
  | mk at0 =>
    show (⟨0 + at0⟩ : Perf) = ⟨at0⟩
    rw [Int.zero_add]

theorem perf_add_zero (a : Perf) : a + (⟨0⟩ : Perf) = a := by
  cases a with
  | mk at0 =>
    show (⟨at0 + 0⟩ : Perf) = ⟨at0⟩
    rw [Int.add_zero]

theorem foldl_storage_shift :
    ∀ (l : List Shard) (init : Storage),
      l.foldl (fun acc s => acc + s.storage) init = init + shStorage l
  | [], init => by
    show init = init + (⟨0, 0⟩ : Storage)
    cases init with
    | mk ih id0 =>
      show (⟨ih, id0⟩ : Storage) = ⟨ih + 0, id0 + 0⟩
      rw [Int.add_zero, Int.add_zero]
  | s :: l, init => by
    show l.foldl (fun acc s => acc + s.storage) (init + s.storage) =
      init + shStorage (s :: l)
    rw [foldl_storage_shift l (init + s.storage)]
    have hcons : shStorage (s :: l) = s.storage + shStorage l := by
      show l.foldl (fun acc s => acc + s.storage) ((⟨0, 0⟩ : Storage) + s.storage)
        = _
      rw [foldl_storage_shift l, storage_zero_add]
    rw [hcons, storage_add_assoc]

theorem shStorage_cons (s : Shard) (l : List Shard) :
    shStorage (s :: l) = s.storage + shStorage l := by
  show l.foldl (fun acc s => acc + s.storage) ((⟨0, 0⟩ : Storage) + s.storage) = _
  rw [foldl_storage_shift l, storage_zero_add]

theorem foldl_perf_shift :
    ∀ (l : List Shard) (init : Perf),
      l.foldl (fun acc s => acc + s.perf) init = init + shPerf l
  | [], init => (perf_add_zero init).symm
  | s :: l, init => by
    show l.foldl (fun acc s => acc + s.perf) (init + s.perf) =
      init + shPerf (s :: l)
    rw [foldl_perf_shift l (init + s.perf)]
    have hcons2 : shPerf (s :: l) = s.perf + shPerf l := by
      show l.foldl (fun acc s => acc + s.perf) ((⟨0⟩ : Perf) + s.perf) = _
      rw [foldl_perf_shift l, perf_zero_add]
    rw [hcons2, perf_add_assoc]

theorem shPerf_cons (s : Shard) (l : List Shard) :
    shPerf (s :: l) = s.perf + shPerf l := by
  show l.foldl (fun acc s => acc + s.perf) ((⟨0⟩ : Perf) + s.perf) = _
  rw [foldl_perf_shift l, perf_zero_add]

/-! ### `findRank`, `atRank`, `chargeShards` toolbox -/

theorem chargeShards_append (d : DeviceHardware) (l1 l2 : List Shard) :
    chargeShards d (l1 ++ l2) = chargeShards (chargeShards d l1) l2 :=
  List.foldl_append _ _ _ _

theorem atRank_append (r : Nat) (l1 l2 : List Shard) :
    atRank r (l1 ++ l2) = atRank r l1 ++ atRank r l2 :=
  List.filter_append _ _

theorem atRank_nil_of (r : Nat) (S : List Shard)
    (h : ∀ s ∈ S, s.rank ≠ some r) : atRank r S = [] :=
  List.filter_eq_nil.2 (fun s hs => by
    simp only [decide_eq_true_eq]
    exact h s hs)

theorem chargeShard_at (d : DeviceHardware) (s : Shard)
    (h : s.rank = some d.rank) :
    chargeShard d s = ⟨d.rank, d.storage - s.storage, d.perf + s.perf⟩ := by
  rw [chargeShard, if_pos h]

theorem chargeShards_at (d : DeviceHardware) :
    ∀ l : List Shard, (∀ s ∈ l, s.rank = some d.rank) →
      chargeShards d l = ⟨d.rank, d.storage - shStorage l, d.perf + shPerf l⟩
  | [], _ => by
    show d = (⟨d.rank, d.storage - shStorage [], d.perf + shPerf []⟩ :
      DeviceHardware)
    rw [show shStorage [] = (⟨0, 0⟩ : Storage) from rfl,
      show shPerf [] = (⟨0⟩ : Perf) from rfl, storage_sub_zero, perf_add_zero]
  | s :: l, h => by
    show chargeShards (chargeShard d s) l = _
    rw [chargeShard_at d s (h s (List.mem_cons_self _ _))]
    rw [chargeShards_at ⟨d.rank, d.storage - s.storage, d.perf + s.perf⟩ l
      (fun s2 hs2 => h s2 (List.mem_cons_of_mem _ hs2))]
    rw [shStorage_cons, shPerf_cons, storage_sub_sub, perf_add_assoc]

theorem findRank_rank {devs : List DeviceHardware} {r : Nat}
    {d : DeviceHardware} (h : findRank devs r = some d) :
    d.rank = r ∧ d ∈ devs := by
  refine ⟨?_, List.mem_of_find?_eq_some h⟩
  have hp := List.find?_some h
  rwa [beq_iff_eq] at hp

theorem findRank_none {devs : List DeviceHardware} {r : Nat} :
    findRank devs r = none ↔ r ∉ ranksOf devs := by
  rw [findRank, List.find?_eq_none]
  constructor
  · intro h hr
    rw [ranksOf, List.mem_map] at hr
    obtain ⟨d, hd, hdr⟩ := hr
    exact h d hd (by rw [beq_iff_eq]; exact hdr)
  · intro h d hd hbeq
    rw [beq_iff_eq] at hbeq
    exact h (by rw [ranksOf, List.mem_map]; exact ⟨d, hd, hbeq⟩)

theorem findRank_isSome {devs : List DeviceHardware} {r : Nat}
    (h : r ∈ ranksOf devs) : ∃ d, findRank devs r = some d := by
  cases hf : findRank devs r with
  | none => exact absurd h (findRank_none.1 hf)
  | some d => exact ⟨d, rfl⟩

theorem findRank_unique :
    ∀ (devs : List DeviceHardware), (ranksOf devs).Nodup →
      ∀ d ∈ devs, findRank devs d.rank = some d
  | [], _, d, hd => absurd hd (List.not_mem_nil d)
  | x :: xs, hnd, d, hd => by
    rw [ranksOf, List.map_cons, List.nodup_cons] at hnd
    rcases List.mem_cons.1 hd with rfl | hd2
    · rw [findRank, List.find?_cons_of_pos _ (by rw [beq_iff_eq])]
    · by_cases hxr : x.rank = d.rank
      · exfalso
        apply hnd.1
        rw [hxr]
        exact List.mem_map_of_mem DeviceHardware.rank hd2
      · rw [findRank, List.find?_cons_of_neg _ (by rw [beq_iff_eq]; exact hxr)]
        exact findRank_unique xs hnd.2 d hd2

theorem findRank_perm {D E : List DeviceHardware} (hperm : List.Perm D E)
    (hnd : (ranksOf D).Nodup) (r : Nat) : findRank D r = findRank E r := by
  have hndE : (ranksOf E).Nodup :=
    ((hperm.map DeviceHardware.rank).nodup_iff).1 hnd
  cases hf : findRank D r with
  | none =>
    symm
    rw [findRank_none] at hf ⊢
    intro hr
    exact hf (((hperm.map DeviceHardware.rank).mem_iff).2 hr)
  | some d =>
    obtain ⟨hdr, hdm⟩ := findRank_rank hf
    rw [← hdr]
    exact (findRank_unique E hndE d (hperm.mem_iff.1 hdm)).symm

theorem findRank_append_left (X Y : List DeviceHardware) {r : Nat}
    {d : DeviceHardware} (h : findRank X r = some d) :
    findRank (X ++ Y) r = some d := by
  rw [findRank, List.find?_append]
  rw [findRank] at h
  rw [h]
  rfl

theorem findRank_append_right (X Y : List DeviceHardware) {r : Nat}
    (h : findRank X r = none) : findRank (X ++ Y) r = findRank Y r := by
  rw [findRank, List.find?_append]
  rw [findRank] at h
  rw [h, Option.none_or]
  rfl

/-! ### The `DevUpd` calculus -/

theorem devUpd_nil (D : List DeviceHardware) : DevUpd [] D D := by
  intro r
  cases hf : findRank D r with
  | none => rfl
  | some d => rfl

theorem devUpd_trans {S1 S2 : List Shard} {D D1 D2 : List DeviceHardware}
    (h1 : DevUpd S1 D D1) (h2 : DevUpd S2 D1 D2) : DevUpd (S1 ++ S2) D D2 := by
  intro r
  rw [h2 r, h1 r, Option.map_map]
  cases hD : findRank D r with
  | none => rfl
  | some d =>
    show some (chargeShards (chargeShards d (atRank r S1)) (atRank r S2)) =
      some (chargeShards d (atRank r (S1 ++ S2)))
    rw [atRank_append, chargeShards_append]

theorem devUpd_congr_left {S : List Shard} {D E D' : List DeviceHardware}
    (h : ∀ r, findRank D r = findRank E r) (hupd : DevUpd S E D') :
    DevUpd S D D' := fun r => by rw [hupd r, ← h r]

theorem devUpd_congr_right {S : List Shard} {D D' E : List DeviceHardware}
    (hupd : DevUpd S D D') (h : ∀ r, findRank D' r = findRank E r) :
    DevUpd S D E := fun r => by rw [← h r, hupd r]

theorem devUpd_embed (S : List Shard) (A B B2 C : List DeviceHardware)
    (hupd : DevUpd S B B2)
    (hrB : ranksOf B2 = ranksOf B)
    (hS : ∀ s ∈ S, ∃ r, s.rank = some r ∧ r ∈ ranksOf B)
    (hdisj : ∀ r ∈ ranksOf A, r ∉ ranksOf B) :
    DevUpd S (A ++ (B ++ C)) (A ++ (B2 ++ C)) := by
  intro r
  cases hA : findRank A r with
  | some a =>
    rw [findRank_append_left _ _ hA, findRank_append_left _ _ hA]
    obtain ⟨har, ham⟩ := findRank_rank hA
    have hrB2 : r ∉ ranksOf B := hdisj r (by
      rw [← har]
      exact List.mem_map_of_mem _ ham)
    have hat : atRank r S = [] := atRank_nil_of r S (fun s hs heq => by
      obtain ⟨r0, hr0, hr0m⟩ := hS s hs
      rw [hr0] at heq
      injection heq with heq
      exact hrB2 (heq ▸ hr0m))
    rw [hat]
    rfl
  | none =>
    rw [findRank_append_right _ _ hA, findRank_append_right _ _ hA]
    cases hB : findRank B r with
    | some b =>
      have hB2 := hupd r
      rw [hB] at hB2
      rw [findRank_append_left _ _ hB2, findRank_append_left _ _ hB]
      rfl
    | none =>
      have hB2 : findRank B2 r = none := by
        have hx := hupd r
        rw [hB] at hx
        exact hx
      rw [findRank_append_right _ _ hB2, findRank_append_right _ _ hB]
      have hrB2 : r ∉ ranksOf B := findRank_none.1 hB
      have hat : atRank r S = [] := atRank_nil_of r S (fun s hs heq => by
        obtain ⟨r0, hr0, hr0m⟩ := hS s hs
        rw [hr0] at heq
        injection heq with heq
        exact hrB2 (heq ▸ hr0m))
      rw [hat]
      cases findRank C r with
      | none => rfl
      | some c => rfl

theorem nnrel_refl (D : List DeviceHardware) : NNrel D D :=
  fun d hd => Or.inr hd

theorem nnrel_trans {D D1 D2 : List DeviceHardware} (h1 : NNrel D D1)
    (h2 : NNrel D1 D2) : NNrel D D2 :=
  fun d hd => (h2 d hd).elim Or.inl (fun hm => h1 d hm)

theorem nnrel_of_subset {D D' : List DeviceHardware} (h : D' ⊆ D) :
    NNrel D D' := fun d hd => Or.inr (h hd)

/-! ### Accounting through the packers -/

theorem atRank_cons_pos (r : Nat) (s : Shard) (l : List Shard)
    (h : s.rank = some r) : atRank r (s :: l) = s :: atRank r l :=
  List.filter_cons_of_pos (by simp only [decide_eq_true_eq]; exact h)

theorem atRank_cons_neg (r : Nat) (s : Shard) (l : List Shard)
    (h : s.rank ≠ some r) : atRank r (s :: l) = atRank r l :=
  List.filter_cons_of_neg (by simp only [decide_eq_true_eq]; exact h)

theorem uniformAssign_acct :
    ∀ (shards : List Shard) (devs : List DeviceHardware),
      shards.length = devs.length →
      (ranksOf devs).Nodup →
      (uniformAssign shards devs).1 = .ok () →
      DevUpd (uniformAssign shards devs).2.1 devs
        (uniformAssign shards devs).2.2 ∧
      NNrel devs (uniformAssign shards devs).2.2
  | [], [], _, _, _ => ⟨devUpd_nil [], nnrel_refl []⟩
  | [], _ :: _, hlen, _, _ => by simp at hlen
  | _ :: _, [], hlen, _, _ => by simp at hlen
  | s :: ss, d :: ds, hlen, hnd, hok => by
    rw [ranksOf, List.map_cons, List.nodup_cons] at hnd
    by_cases hf : s.storage.fits_in d.storage = true
    · have hok2 : (uniformAssign ss ds).1 = .ok () := by
        rw [uniformAssign, if_pos hf] at hok
        exact hok
      have hlen2 : ss.length = ds.length := by simpa using hlen
      obtain ⟨ihU, ihN⟩ := uniformAssign_acct ss ds hlen2 hnd.2 hok2
      have hmemS := uniformAssign_shard_ranks ss ds hlen2 hok2
      have hS2nil : ∀ r, d.rank = r →
          atRank r (uniformAssign ss ds).2.1 = [] := by
        intro r hr
        refine atRank_nil_of r _ (fun s2 hs2 heq => ?_)
        obtain ⟨r0, hr0, hr0m⟩ := hmemS s2 hs2
        rw [hr0] at heq
        injection heq with heq
        rw [heq, ← hr] at hr0m
        exact hnd.1 hr0m
      constructor
      · rw [uniformAssign, if_pos hf]
        dsimp only
        intro r
        by_cases hr : d.rank = r
        · rw [findRank, List.find?_cons_of_pos _ (by rw [beq_iff_eq]; exact hr),
            findRank, List.find?_cons_of_pos _ (by rw [beq_iff_eq]; exact hr)]
          show some _ = some (chargeShards d (atRank r
            ({s with rank := some d.rank} :: (uniformAssign ss ds).2.1)))
          rw [atRank_cons_pos r _ _ (by rw [hr]), hS2nil r hr]
          show some (⟨d.rank, d.storage - s.storage, d.perf + s.perf⟩ :
            DeviceHardware) = some (chargeShard d {s with rank := some d.rank})
          rw [chargeShard_at d _ rfl]
        · rw [findRank, List.find?_cons_of_neg _ (by rw [beq_iff_eq]; exact hr),
            findRank, List.find?_cons_of_neg _ (by rw [beq_iff_eq]; exact hr)]
          rw [atRank_cons_neg r _ _ (by
            intro hc
            injection hc with hc
            exact hr hc)]
          exact ihU r
      · rw [uniformAssign, if_pos hf]
        dsimp only
        intro x hx
        rcases List.mem_cons.1 hx with rfl | hx2
        · refine Or.inl ?_
          rw [Storage.fits_in, Bool.and_eq_true, decide_eq_true_eq,
            decide_eq_true_eq] at hf
          exact ⟨Int.sub_nonneg.2 hf.1, Int.sub_nonneg.2 hf.2⟩
        · rcases ihN x hx2 with hnn | hmem
          · exact Or.inl hnn
          · exact Or.inr (List.mem_cons_of_mem _ hmem)
    · rw [uniformAssign, if_neg hf] at hok
      cases hok

theorem assignFirstFit_acct (shard : Shard) (devs : List DeviceHardware)
    (r : Nat) (devs' : List DeviceHardware)
    (hnd : (ranksOf devs).Nodup)
    (h : assignFirstFit shard devs = some (r, devs')) :
    DevUpd [{shard with rank := some r}] devs devs' ∧
    NNrel devs devs' := by
  obtain ⟨pre, d, post, hsplit, hpre, hfit, hr, hupd⟩ :=
    assignFirstFit_some shard devs r devs' h
  subst hr
  subst hsplit
  subst hupd
  have hone : DevUpd [{shard with rank := some d.rank}] [d]
      [⟨d.rank, d.storage - shard.storage, d.perf + shard.perf⟩] := by
    intro r2
    by_cases hr2 : d.rank = r2
    · rw [findRank, List.find?_cons_of_pos _ (by rw [beq_iff_eq]; exact hr2),
        findRank, List.find?_cons_of_pos _ (by rw [beq_iff_eq]; exact hr2)]
      show some _ = some (chargeShards d
        (atRank r2 [{shard with rank := some d.rank}]))
      rw [atRank_cons_pos r2 _ _ (by rw [hr2])]
      show some (⟨d.rank, d.storage - shard.storage, d.perf + shard.perf⟩ :
        DeviceHardware) = some (chargeShard d {shard with rank := some d.rank})
      rw [chargeShard_at d _ rfl]
    · rw [findRank, List.find?_cons_of_neg _ (by rw [beq_iff_eq]; exact hr2),
        findRank, List.find?_cons_of_neg _ (by rw [beq_iff_eq]; exact hr2)]
      rfl
  constructor
  · have hnd2 := hnd
    rw [ranksOf, List.map_append, List.nodup_append] at hnd2
    show DevUpd _ (pre ++ ([d] ++ post))
      (pre ++ ([⟨d.rank, d.storage - shard.storage, d.perf + shard.perf⟩] ++
        post))
    refine devUpd_embed _ pre [d] _ post hone rfl ?_ ?_
    · intro s hs
      rcases List.mem_cons.1 hs with rfl | hs2
      · exact ⟨d.rank, rfl, by
          rw [ranksOf, List.map_cons]
          exact List.mem_cons_self _ _⟩
      · cases hs2
    · intro r0 hr0 hmem
      have hr0' : r0 ∈ List.map DeviceHardware.rank pre := hr0
      have hm2 : r0 ∈ List.map DeviceHardware.rank (d :: post) := by
        rw [ranksOf, List.map_cons] at hmem
        rcases List.mem_cons.1 hmem with rfl | hc
        · rw [List.map_cons]
          exact List.mem_cons_self _ _
        · cases hc
      exact hnd2.2.2 hr0' hm2
  · intro x hx
    rw [List.mem_append] at hx
    rcases hx with hx1 | hx2
    · exact Or.inr (List.mem_append_left _ hx1)
    · rcases List.mem_cons.1 hx2 with rfl | hx3
      · refine Or.inl ?_
        rw [Storage.fits_in, Bool.and_eq_true, decide_eq_true_eq,
          decide_eq_true_eq] at hfit
        exact ⟨Int.sub_nonneg.2 hfit.1, Int.sub_nonneg.2 hfit.2⟩
      · exact Or.inr (List.mem_append_right _ (List.mem_cons_of_mem _ hx3))

theorem devicePartitionGo_acct (tableName : String) (lws : Nat) :
    ∀ (shards : List Shard) (devs : List DeviceHardware),
      (ranksOf devs).Nodup →
      (_device_partition_go tableName lws shards devs).1 = .ok () →
      DevUpd (_device_partition_go tableName lws shards devs).2.1 devs
        (_device_partition_go tableName lws shards devs).2.2 ∧
      NNrel devs (_device_partition_go tableName lws shards devs).2.2
  | [], devs, _, _ => ⟨devUpd_nil devs, nnrel_refl devs⟩
  | shard :: rest, devs, hnd, hok => by
    rcases haf : assignFirstFit shard (pySort (deviceSortLe lws) devs)
      with _ | ⟨r, devs'⟩
    · rw [_device_partition_go, haf] at hok
      cases hok
    · have hsortperm := pySort_perm (deviceSortLe lws) devs
      have hndsort : (ranksOf (pySort (deviceSortLe lws) devs)).Nodup :=
        ((hsortperm.map DeviceHardware.rank).nodup_iff).2 hnd
      obtain ⟨hone, hnn1⟩ := assignFirstFit_acct shard _ r devs' hndsort haf
      have hranks2 : ranksOf devs' = ranksOf (pySort (deviceSortLe lws) devs) :=
        (assignFirstFit_ranks shard _ r devs' haf).1
      have hnd2 : (ranksOf devs').Nodup := by
        rw [hranks2]
        exact hndsort
      have hok2 : (_device_partition_go tableName lws rest devs').1 = .ok () := by
        rw [_device_partition_go, haf] at hok
        exact hok
      obtain ⟨ihU, ihN⟩ := devicePartitionGo_acct tableName lws rest devs' hnd2
        hok2
      constructor
      · rw [_device_partition_go, haf]
        dsimp only
        have hcomp : DevUpd ([{shard with rank := some r}] ++
            (_device_partition_go tableName lws rest devs').2.1) devs
            (_device_partition_go tableName lws rest devs').2.2 :=
          devUpd_trans (devUpd_congr_left
            (fun r0 => findRank_perm hsortperm.symm hnd r0) hone) ihU
        exact hcomp
      · rw [_device_partition_go, haf]
        dsimp only
        have hmid : NNrel devs devs' := by
          intro x hx
          rcases hnn1 x hx with h1 | h2
          · exact Or.inl h1
          · exact Or.inr (hsortperm.mem_iff.1 h2)
        exact nnrel_trans hmid ihN

theorem uniformPartitionOne_acct (so : ShardingOption)
    (devs : List DeviceHardware) (hnd : (ranksOf devs).Nodup)
    (hok : (GreedyPerfPartitioner._uniform_partition_one so devs).1 = .ok ()) :
    DevUpd (GreedyPerfPartitioner._uniform_partition_one so devs).2.1.shards
      devs (GreedyPerfPartitioner._uniform_partition_one so devs).2.2 ∧
    NNrel devs (GreedyPerfPartitioner._uniform_partition_one so devs).2.2 := by
  by_cases hc : so.num_shards ≠ devs.length
  · rw [GreedyPerfPartitioner._uniform_partition_one, if_pos hc] at hok
    cases hok
  · rw [GreedyPerfPartitioner._uniform_partition_one, if_neg hc] at hok ⊢
    dsimp only at hok ⊢
    exact uniformAssign_acct so.shards devs (not_not.1 hc) hnd hok

theorem devicePartition_acct (so : ShardingOption) (devs : List DeviceHardware)
    (lws : Nat) (hnd : (ranksOf devs).Nodup)
    (hok : (GreedyPerfPartitioner._device_partition so devs lws).1 = .ok ()) :
    DevUpd (GreedyPerfPartitioner._device_partition so devs lws).2.1.shards
      devs (GreedyPerfPartitioner._device_partition so devs lws).2.2 ∧
    NNrel devs (GreedyPerfPartitioner._device_partition so devs lws).2.2 := by
  rw [GreedyPerfPartitioner._device_partition] at hok ⊢
  dsimp only at hok ⊢
  exact devicePartitionGo_acct so.name lws so.shards devs hnd hok

theorem uniformPassGo_fst :
    ∀ (l : List (Nat × ShardingOption)) (devs : List DeviceHardware),
      (uniformPassGo l devs).2.1.map Prod.fst = l.map Prod.fst
  | [], _ => rfl
  | (i, so) :: rest, devs => by
    rw [uniformPassGo]
    rcases hu : GreedyPerfPartitioner._uniform_partition_one so devs
      with ⟨res, so', devs1⟩
    rcases res with e | u
    · dsimp only
      rw [List.map_cons, List.map_cons]
    · dsimp only
      rw [List.map_cons, List.map_cons, uniformPassGo_fst rest devs1]

theorem uniformPassGo_acct :
    ∀ (l : List (Nat × ShardingOption)) (devs : List DeviceHardware),
      (ranksOf devs).Nodup →
      (uniformPassGo l devs).1 = .ok () →
      DevUpd (((uniformPassGo l devs).2.1.map
        (fun iso => iso.2.shards)).flatten) devs (uniformPassGo l devs).2.2 ∧
      NNrel devs (uniformPassGo l devs).2.2
  | [], devs, _, _ => ⟨devUpd_nil devs, nnrel_refl devs⟩
  | (i, so) :: rest, devs, hnd, hok => by
    rw [uniformPassGo] at hok ⊢
    rcases hu : GreedyPerfPartitioner._uniform_partition_one so devs
      with ⟨res, so', devs1⟩
    rw [hu] at hok
    rcases res with e | u
    · dsimp only at hok
      cases hok
    · dsimp only at hok ⊢
      cases u
      have hu1 : (GreedyPerfPartitioner._uniform_partition_one so devs).1 =
          .ok () := by rw [hu]
      obtain ⟨hranks1, _⟩ := uniformPartitionOne_ranks so devs hu1
      rw [hu] at hranks1
      have hnd1 : (ranksOf devs1).Nodup := by
        rw [hranks1]
        exact hnd
      obtain ⟨hD1, hN1⟩ := uniformPartitionOne_acct so devs hnd hu1
      rw [hu] at hD1 hN1
      obtain ⟨ihU, ihN⟩ := uniformPassGo_acct rest devs1 hnd1 hok
      constructor
      · rw [List.map_cons, List.flatten_cons]
        exact devUpd_trans hD1 ihU
      · exact nnrel_trans hN1 ihN

theorem cohostTrialGo_acct :
    ∀ (options : List (Nat × ShardingOption)) (devs : List DeviceHardware)
      (options' : List (Nat × ShardingOption)) (devs2 : List DeviceHardware),
      (ranksOf devs).Nodup →
      cohostTrialGo options devs = .success options' devs2 →
      DevUpd ((options'.map (fun iso => iso.2.shards)).flatten) devs devs2 ∧
      NNrel devs devs2
  | [], devs, options', devs2, _, h => by
    rw [cohostTrialGo] at h
    injection h with h1 h2
    subst h1 h2
    exact ⟨devUpd_nil devs, nnrel_refl devs⟩
  | (i, so) :: rest, devs, options', devs2, hnd, h => by
    by_cases hrw : so.sharding_type = ShardingType.TABLE_ROW_WISE
    · rw [cohostTrialGo, if_pos hrw] at h
      rcases hu : GreedyPerfPartitioner._uniform_partition_one so devs
        with ⟨res, so', devs1⟩
      rw [hu] at h
      rcases res with e | u
      · dsimp only at h
        by_cases hpl : e.isPlannerError = true
        · rw [if_pos hpl] at h
          cases h
        · rw [if_neg hpl] at h
          cases h
      · dsimp only at h
        cases u
        have hu1 : (GreedyPerfPartitioner._uniform_partition_one so devs).1 =
            .ok () := by rw [hu]
        obtain ⟨hranks1, _⟩ := uniformPartitionOne_ranks so devs hu1
        rw [hu] at hranks1
        have hnd1 : (ranksOf devs1).Nodup := by
          rw [hranks1]
          exact hnd
        obtain ⟨hD1, hN1⟩ := uniformPartitionOne_acct so devs hnd hu1
        rw [hu] at hD1 hN1
        cases hrec : cohostTrialGo rest devs1 with
        | success o2 d2 =>
          rw [hrec] at h
          injection h with h1 h2
          subst h1 h2
          obtain ⟨ihU, ihN⟩ := cohostTrialGo_acct rest devs1 o2 d2 hnd1 hrec
          refine ⟨?_, nnrel_trans hN1 ihN⟩
          rw [List.map_cons, List.flatten_cons]
          exact devUpd_trans hD1 ihU
        | plannerFail o2 =>
          rw [hrec] at h
          cases h
        | fatal e2 o2 =>
          rw [hrec] at h
          cases h
    · by_cases hcw : so.sharding_type = ShardingType.TABLE_COLUMN_WISE
      · rw [cohostTrialGo, if_neg hrw, if_pos hcw] at h
        rcases hd : GreedyPerfPartitioner._device_partition so devs devs.length
          with ⟨res, so', devs1⟩
        rw [hd] at h
        rcases res with e | u
        · dsimp only at h
          by_cases hpl : e.isPlannerError = true
          · rw [if_pos hpl] at h
            cases h
          · rw [if_neg hpl] at h
            cases h
        · dsimp only at h
          cases u
          have hd1 : (GreedyPerfPartitioner._device_partition so devs
              devs.length).1 = .ok () := by rw [hd]
          obtain ⟨hperm1, _⟩ := devicePartition_ranks so devs devs.length hd1
          rw [hd] at hperm1
          have hnd1 : (ranksOf devs1).Nodup := hperm1.nodup_iff.2 hnd
          obtain ⟨hDd, hNd⟩ := devicePartition_acct so devs devs.length hnd hd1
          rw [hd] at hDd hNd
          cases hrec : cohostTrialGo rest devs1 with
          | success o2 d2 =>
            rw [hrec] at h
            injection h with h1 h2
            subst h1 h2
            obtain ⟨ihU, ihN⟩ := cohostTrialGo_acct rest devs1 o2 d2 hnd1 hrec
            refine ⟨?_, nnrel_trans hNd ihN⟩
            rw [List.map_cons, List.flatten_cons]
            exact devUpd_trans hDd ihU
          | plannerFail o2 =>
            rw [hrec] at h
            cases h
          | fatal e2 o2 =>
            rw [hrec] at h
            cases h
      · rw [cohostTrialGo, if_neg hrw, if_neg hcw] at h
        cases h

/-! ### Accounting through the co-host copy-back -/

/-- When the trial devices are re-sorted by rank against a host whose ranks
are already ascending, the copy-back writes each device's own mutated values:
the committed host equals the sorted trial list. -/
theorem commit_eq_sorted :
    ∀ (devices trial : List DeviceHardware),
      trial.length = devices.length →
      ranksOf trial = ranksOf devices →
      List.zipWith (fun device deviceCopy =>
        {device with storage := deviceCopy.storage, perf := deviceCopy.perf})
        devices trial = trial
  | [], [], _, _ => rfl
  | [], _ :: _, hlen, _ => by simp at hlen
  | _ :: _, [], hlen, _ => by simp at hlen
  | d :: ds, t :: ts, hlen, hranks => by
    rw [ranksOf, ranksOf, List.map_cons, List.map_cons] at hranks
    injection hranks with h1 h2
    show ({d with storage := t.storage, perf := t.perf} : DeviceHardware) ::
      List.zipWith _ ds ts = t :: ts
    rw [commit_eq_sorted ds ts (by simpa using hlen) h2]
    cases d with
    | mk dr dst dp =>
      cases t with
      | mk tr tst tp =>
        have h1' : tr = dr := h1
        show (⟨dr, tst, tp⟩ : DeviceHardware) :: ts = ⟨tr, tst, tp⟩ :: ts
        rw [h1']

theorem sortedTrial_ranks (devices trial : List DeviceHardware)
    (hperm : List.Perm (ranksOf trial) (ranksOf devices))
    (hsorted : List.Pairwise (· < ·) (ranksOf devices)) :
    ranksOf (pySort (fun a b => decide (a.rank ≤ b.rank)) trial) =
      ranksOf devices := by
  refine @List.eq_of_perm_of_sorted Nat (fun a b => a ≤ b) ?_ _ _
    ((pySort_ranks_perm _ trial).trans hperm) ?_ ?_
  · exact ⟨fun a b h1 h2 => Nat.le_antisymm h1 h2⟩
  · have hp := pySort_pairwise (fun a b : DeviceHardware =>
        decide (a.rank ≤ b.rank))
      (fun a b => by
        rcases Nat.le_total a.rank b.rank with hle | hle
        · exact Or.inl (decide_eq_true hle)
        · exact Or.inr (decide_eq_true hle))
      (fun a b c hab hbc => decide_eq_true
        (Nat.le_trans (of_decide_eq_true hab) (of_decide_eq_true hbc)))
      trial
    show List.Pairwise (fun a b => a ≤ b) (List.map DeviceHardware.rank
      (pySort (fun a b => decide (a.rank ≤ b.rank)) trial))
    rw [List.pairwise_map]
    exact hp.imp (fun hab => of_decide_eq_true hab)
  · show List.Pairwise (fun a b => a ≤ b) (ranksOf devices)
    exact hsorted.imp (fun hlt => Nat.le_of_lt hlt)

theorem cohostGo_acct (ss : Storage) :
    ∀ (L : List (Nat × List DeviceHardware))
      (options : List (Nat × ShardingOption)) (hi : Nat)
      (committed : List DeviceHardware)
      (options' : List (Nat × ShardingOption)),
      (∀ hd ∈ L, List.Pairwise (· < ·) (ranksOf hd.2)) →
      cohostGo ss L options = (.ok (hi, committed), options') →
      ∃ devices, (hi, devices) ∈ L ∧
        DevUpd ((options'.map (fun iso => iso.2.shards)).flatten) devices
          committed ∧
        ranksOf committed = ranksOf devices ∧
        (∀ iso ∈ options', ∀ s ∈ iso.2.shards,
          ∃ r, s.rank = some r ∧ r ∈ ranksOf devices) ∧
        NNrel devices committed
  | [], options, hi, committed, options', _, h => by
    rw [cohostGo] at h
    injection h with h1 _
    cases h1
  | (hj, devices) :: rest, options, hi, committed, options', hsort, h => by
    rw [cohostGo] at h
    cases hfit : ss.fits_in (hostStorage devices) with
    | false =>
      rw [if_pos (show (!ss.fits_in (hostStorage devices)) = true by
        rw [hfit]; rfl)] at h
      obtain ⟨ds, hmem, hD, hrk, hmb, hN⟩ := cohostGo_acct ss rest options hi
        committed options' (fun hd hm => hsort hd (List.mem_cons_of_mem _ hm)) h
      exact ⟨ds, List.mem_cons_of_mem _ hmem, hD, hrk, hmb, hN⟩
    | true =>
      rw [if_neg (show ¬(!ss.fits_in (hostStorage devices)) = true by
        rw [hfit]; decide)] at h
      cases hrec : cohostTrialGo options devices with
      | success o2 d2 =>
        rw [hrec] at h
        dsimp only at h
        injection h with h1 h2
        injection h1 with h1
        injection h1 with hhi hcom
        subst hhi hcom h2
        have hsortdev : List.Pairwise (· < ·) (ranksOf devices) :=
          hsort (hj, devices) (List.mem_cons_self _ _)
        have hnddev : (ranksOf devices).Nodup :=
          hsortdev.imp (fun hlt => Nat.ne_of_lt hlt)
        obtain ⟨hDtrial, hNtrial⟩ := cohostTrialGo_acct options devices o2 d2
          hnddev hrec
        obtain ⟨hpermtr, hmembtr⟩ := cohostTrialGo_success_spec options devices
          o2 d2 hrec
        have hranks_st : ranksOf (pySort (fun a b => decide (a.rank ≤ b.rank))
            d2) = ranksOf devices :=
          sortedTrial_ranks devices d2 hpermtr hsortdev
        have hlen_st : (pySort (fun a b => decide (a.rank ≤ b.rank)) d2).length
            = devices.length := by
          have hc := congrArg List.length hranks_st
          rwa [ranksOf, ranksOf, List.length_map, List.length_map] at hc
        have hcommit := commit_eq_sorted devices
          (pySort (fun a b => decide (a.rank ≤ b.rank)) d2) hlen_st hranks_st
        refine ⟨devices, List.mem_cons_self _ _, ?_, ?_, hmembtr, ?_⟩
        · rw [hcommit]
          refine devUpd_congr_right hDtrial ?_
          intro r
          exact findRank_perm (pySort_perm _ d2).symm (hpermtr.nodup_iff.2
            hnddev) r
        · rw [hcommit]
          exact hranks_st
        · rw [hcommit]
          intro x hx
          exact hNtrial x ((pySort_perm _ d2).mem_iff.1 hx)
      | plannerFail o2 =>
        rw [hrec] at h
        obtain ⟨ds, hmem, hD, hrk, hmb, hN⟩ := cohostGo_acct ss rest o2 hi
          committed options' (fun hd hm => hsort hd (List.mem_cons_of_mem _ hm))
          h
        exact ⟨ds, List.mem_cons_of_mem _ hmem, hD, hrk, hmb, hN⟩
      | fatal e2 o2 =>
        rw [hrec] at h
        injection h with h1 _
        cases h1

theorem cohost_partition_acct (options options' : List (Nat × ShardingOption))
    (ss : Storage) (hosts hosts' : List (List DeviceHardware))
    (hsort : ∀ ds ∈ hosts, List.Pairwise (· < ·) (ranksOf ds))
    (h : GreedyPerfPartitioner._cohost_partition options ss hosts =
      (.ok (), options', hosts')) :
    ∃ hi devices committed,
      hosts.get? hi = some devices ∧
      hosts' = hosts.set hi committed ∧
      DevUpd ((options'.map (fun iso => iso.2.shards)).flatten) devices
        committed ∧
      ranksOf committed = ranksOf devices ∧
      (∀ iso ∈ options', ∀ s ∈ iso.2.shards,
        ∃ r, s.rank = some r ∧ r ∈ ranksOf devices) ∧
      NNrel devices committed := by
  rw [GreedyPerfPartitioner._cohost_partition] at h
  rcases hcg : cohostGo ss (pySort (fun a b =>
      decide (_get_perf_sum a.2 ≤ _get_perf_sum b.2)) hosts.enum) options
    with ⟨res2, opts2⟩
  rw [hcg] at h
  rcases res2 with e2 | ⟨hi, committed⟩
  · dsimp only at h
    injection h with h1 _
    cases h1
  · dsimp only at h
    injection h with _ h2
    injection h2 with h2a h2b
    subst h2a h2b
    have hsort2 : ∀ hd ∈ pySort (fun a b =>
        decide (_get_perf_sum a.2 ≤ _get_perf_sum b.2)) hosts.enum,
        List.Pairwise (· < ·) (ranksOf hd.2) := by
      intro hd hm
      rw [pySort_mem] at hm
      have hmm2 : hd.2 ∈ hosts.enum.map Prod.snd :=
        List.mem_map_of_mem Prod.snd hm
      rw [List.enum_map_snd] at hmm2
      exact hsort hd.2 hmm2
    obtain ⟨devices, hmem, hD, hrk, hmb, hN⟩ := cohostGo_acct ss _ options hi
      committed opts2 hsort2 hcg
    rw [pySort_mem] at hmem
    exact ⟨hi, devices, committed, List.mem_enum_iff_get?.1 hmem, rfl, hD, hrk,
      hmb, hN⟩

/-! ### Accounting through the dispatch loop

The dispatch loop keeps two views of the same device objects (`tdevs` in
topology order and `sorted_devices`); the embedding keeps them synchronized
by rank. -/

theorem findRank_map_rp (f : DeviceHardware → DeviceHardware)
    (hf : ∀ d, (f d).rank = d.rank) :
    ∀ (xs : List DeviceHardware) (r : Nat),
      findRank (xs.map f) r = (findRank xs r).map f
  | [], _ => rfl
  | x :: xs, r => by
    by_cases hx : x.rank = r
    · rw [List.map_cons, findRank,
        List.find?_cons_of_pos _ (by rw [beq_iff_eq, hf]; exact hx),
        findRank, List.find?_cons_of_pos _ (by rw [beq_iff_eq]; exact hx)]
      rfl
    · rw [List.map_cons, findRank,
        List.find?_cons_of_neg _ (by rw [beq_iff_eq, hf]; exact hx),
        findRank, List.find?_cons_of_neg _ (by rw [beq_iff_eq]; exact hx)]
      exact findRank_map_rp f hf xs r

theorem refresh_fun_rank (src : List DeviceHardware) (d : DeviceHardware) :
    ((src.find? (fun s => s.rank == d.rank)).getD d).rank = d.rank := by
  rcases hf : src.find? (fun s => s.rank == d.rank) with _ | s
  · rw [hf, Option.getD_none]
  · rw [hf, Option.getD_some]
    have hp := List.find?_some hf
    rwa [beq_iff_eq] at hp

theorem findRank_refresh (src xs : List DeviceHardware) (r : Nat) :
    findRank (refreshByRank src xs) r =
      (findRank xs r).map (fun d => (findRank src r).getD d) := by
  rw [refreshByRank, findRank_map_rp _ (refresh_fun_rank src) xs r]
  cases hx : findRank xs r with
  | none => rfl
  | some d =>
    obtain ⟨hdr, _⟩ := findRank_rank hx
    show some ((List.find? (fun s => s.rank == d.rank) src).getD d) =
      some ((findRank src r).getD d)
    rw [show (fun s : DeviceHardware => s.rank == d.rank) =
      (fun s : DeviceHardware => s.rank == r) from funext (fun s => by
        rw [hdr])]
    rfl

theorem refreshByRank_mem {src xs : List DeviceHardware} {x : DeviceHardware}
    (hx : x ∈ refreshByRank src xs) : x ∈ src ∨ x ∈ xs := by
  rw [refreshByRank, List.mem_map] at hx
  obtain ⟨d, hd, rfl⟩ := hx
  rcases hf : src.find? (fun s => s.rank == d.rank) with _ | s
  · rw [hf, Option.getD_none]
    exact Or.inr hd
  · rw [hf, Option.getD_some]
    exact Or.inl (List.mem_of_find?_eq_some hf)

/-- One successful dispatch step, with full accounting: the new proposal is
the old one with the group's mutated options written back, the working
topology's devices are charged by exactly the shards of those options, both
device views stay rank-synchronized, and every touched device has a
fit-certified nonnegative remaining capacity. -/
theorem dispatchStep_acct (lws n : Nat) (g : IdxGroup) (st st1 : OrchState)
    (hstep : dispatchStep lws g st = (.ok (), st1))
    (hranks : ranksOf st.tdevs = List.range n)
    (hnd : (g.options.map Prod.fst).Nodup)
    (hbnd : ∀ j ∈ g.options.map Prod.fst, j < st.proposal.length)
    (hsync : ∀ r, findRank st.sortedDevs r = findRank st.tdevs r)
    (hsperm : List.Perm (ranksOf st.sortedDevs) (List.range n)) :
    ∃ o : List (Nat × ShardingOption),
      st1.proposal = updProposal st.proposal o ∧
      o.map Prod.fst = g.options.map Prod.fst ∧
      DevUpd ((o.map (fun iso => iso.2.shards)).flatten) st.tdevs st1.tdevs ∧
      ranksOf st1.tdevs = List.range n ∧
      (∀ r, findRank st1.sortedDevs r = findRank st1.tdevs r) ∧
      List.Perm (ranksOf st1.sortedDevs) (List.range n) ∧
      NNrel (st.tdevs ++ st.sortedDevs) st1.tdevs ∧
      NNrel (st.tdevs ++ st.sortedDevs) st1.sortedDevs := by
  obtain ⟨hr1, _, _, _, _, _, _⟩ :=
    dispatchStep_ok_spec lws n g st st1 hstep hranks hnd hbnd
  rcases hgo : g.options with _ | ⟨⟨i0, so0⟩, gtail⟩
  · unfold dispatchStep at hstep
    rw [hgo] at hstep
    dsimp only at hstep
    injection hstep with h1 _
    cases h1
  · unfold dispatchStep at hstep
    rw [hgo] at hstep
    dsimp only at hstep
    by_cases hhost : so0.partition_by = PartitionByType.HOST
    · -- host branch
      rw [if_pos hhost] at hstep
      rcases hch : GreedyPerfPartitioner._cohost_partition ((i0, so0) :: gtail)
          g.storage_sum
          (GreedyPerfPartitioner._get_host_level_devices ⟨st.tdevs, lws⟩)
        with ⟨res3, options', hosts'⟩
      rw [hch] at hstep
      rcases res3 with e3 | u3
      · dsimp only at hstep
        injection hstep with h1 _
        cases h1
      · dsimp only at hstep
        cases u3
        injection hstep with _ h2
        subst h2
        -- chunk sortedness: chunks of a range-ranked list are ascending
        have hchunk : ∀ ds ∈ GreedyPerfPartitioner._get_host_level_devices
            ⟨st.tdevs, lws⟩, List.Pairwise (· < ·) (ranksOf ds) := by
          intro ds hds
          rw [GreedyPerfPartitioner._get_host_level_devices, List.mem_map]
            at hds
          obtain ⟨i, _, rfl⟩ := hds
          show List.Pairwise (· < ·)
            (List.map DeviceHardware.rank ((st.tdevs.drop (i * lws)).take lws))
          rw [List.map_take, List.map_drop]
          have hpw : List.Pairwise (· < ·)
              (List.map DeviceHardware.rank st.tdevs) := by
            rw [show List.map DeviceHardware.rank st.tdevs = ranksOf st.tdevs
              from rfl, hranks]
            exact List.pairwise_lt_range n
          exact List.Pairwise.sublist
            ((List.take_sublist _ _).trans (List.drop_sublist _ _)) hpw
        obtain ⟨hi, devices, committed, hget, hset, hD, hranksC, hmemb, hN⟩ :=
          cohost_partition_acct ((i0, so0) :: gtail) options' g.storage_sum
            (GreedyPerfPartitioner._get_host_level_devices ⟨st.tdevs, lws⟩)
            hosts' hchunk hch
        obtain ⟨hlt, hgetv⟩ := List.get?_eq_some.1 hget
        have hflat : (GreedyPerfPartitioner._get_host_level_devices
            ⟨st.tdevs, lws⟩).flatten =
            st.tdevs.take (st.tdevs.length / lws * lws) :=
          flatten_chunks lws st.tdevs (st.tdevs.length / lws)
        -- split the chunk list around the committed host
        have hsplit : GreedyPerfPartitioner._get_host_level_devices
            ⟨st.tdevs, lws⟩ =
            (GreedyPerfPartitioner._get_host_level_devices
              ⟨st.tdevs, lws⟩).take hi ++ devices ::
            (GreedyPerfPartitioner._get_host_level_devices
              ⟨st.tdevs, lws⟩).drop (hi + 1) := by
          have h1 := List.take_append_drop hi
            (GreedyPerfPartitioner._get_host_level_devices ⟨st.tdevs, lws⟩)
          rw [List.drop_eq_get_cons hlt, hgetv] at h1
          exact h1.symm
        have hset2 : (GreedyPerfPartitioner._get_host_level_devices
            ⟨st.tdevs, lws⟩).set hi committed =
            (GreedyPerfPartitioner._get_host_level_devices
              ⟨st.tdevs, lws⟩).take hi ++ committed ::
            (GreedyPerfPartitioner._get_host_level_devices
              ⟨st.tdevs, lws⟩).drop (hi + 1) := by
          rw [List.set_eq_take_append_cons_drop, if_pos hlt]
        have htd : st.tdevs =
            ((GreedyPerfPartitioner._get_host_level_devices
              ⟨st.tdevs, lws⟩).take hi).flatten ++
            (devices ++
              (((GreedyPerfPartitioner._get_host_level_devices
                ⟨st.tdevs, lws⟩).drop (hi + 1)).flatten ++
               st.tdevs.drop (st.tdevs.length / lws * lws))) := by
          have h2 : st.tdevs = (GreedyPerfPartitioner._get_host_level_devices
              ⟨st.tdevs, lws⟩).flatten ++
              st.tdevs.drop (st.tdevs.length / lws * lws) := by
            rw [hflat, List.take_append_drop]
          rw [hsplit, List.flatten_append, List.flatten_cons,
            List.append_assoc, List.append_assoc] at h2
          exact h2
        have htd2 : hosts'.flatten ++
            st.tdevs.drop (st.tdevs.length / lws * lws) =
            ((GreedyPerfPartitioner._get_host_level_devices
              ⟨st.tdevs, lws⟩).take hi).flatten ++
            (committed ++
              (((GreedyPerfPartitioner._get_host_level_devices
                ⟨st.tdevs, lws⟩).drop (hi + 1)).flatten ++
               st.tdevs.drop (st.tdevs.length / lws * lws))) := by
          rw [hset, hset2, List.flatten_append, List.flatten_cons,
            List.append_assoc, List.append_assoc]
        -- disjointness of the prefix chunks from the committed host
        have hndall : (ranksOf st.tdevs).Nodup := by
          rw [hranks]
          exact List.nodup_range n
        have hnd3 := hndall
        rw [htd, ranksOf, List.map_append, List.map_append,
          List.nodup_append] at hnd3
        have hdisj : ∀ r ∈ ranksOf
            (((GreedyPerfPartitioner._get_host_level_devices
              ⟨st.tdevs, lws⟩).take hi).flatten), r ∉ ranksOf devices := by
          intro r hr hmemr
          exact hnd3.2.2 hr (by
            rw [List.map_append, List.mem_append]
            exact Or.inl hmemr)
        have hSmem : ∀ s ∈ ((options'.map
            (fun iso => iso.2.shards)).flatten),
            ∃ r, s.rank = some r ∧ r ∈ ranksOf devices := by
          intro s hs
          rw [List.mem_flatten] at hs
          obtain ⟨l, hl, hsl⟩ := hs
          rw [List.mem_map] at hl
          obtain ⟨iso, hiso, rfl⟩ := hl
          exact hmemb iso hiso s hsl
        have hemb := devUpd_embed ((options'.map
            (fun iso => iso.2.shards)).flatten)
          (((GreedyPerfPartitioner._get_host_level_devices
            ⟨st.tdevs, lws⟩).take hi).flatten) devices committed
          (((GreedyPerfPartitioner._get_host_level_devices
            ⟨st.tdevs, lws⟩).drop (hi + 1)).flatten ++
           st.tdevs.drop (st.tdevs.length / lws * lws))
          hD hranksC hSmem hdisj
        rw [← htd, ← htd2] at hemb
        have hr1' : ranksOf (hosts'.flatten ++
            st.tdevs.drop (st.tdevs.length / lws * lws)) = List.range n := hr1
        refine ⟨options', rfl, ?_, hemb, hr1', ?_, ?_, ?_, ?_⟩
        · -- positions preserved
          have hfe := cohost_partition_optEq ((i0, so0) :: gtail) g.storage_sum
            (GreedyPerfPartitioner._get_host_level_devices ⟨st.tdevs, lws⟩)
          rw [hch] at hfe
          dsimp only at hfe
          exact forall₂_optEq_map_fst hfe
        · -- sync of the refreshed sorted view
          intro r
          rw [findRank_refresh]
          cases ht : findRank st.tdevs r with
          | none =>
            have hs0 : findRank st.sortedDevs r = none := by
              rw [hsync r, ht]
            have hrn : r ∉ ranksOf st.tdevs := findRank_none.1 ht
            have ht2 : findRank (hosts'.flatten ++
                st.tdevs.drop (st.tdevs.length / lws * lws)) r = none :=
              findRank_none.2 (by
                rw [hr1', ← hranks]
                exact hrn)
            rw [hs0, ht2]
            rfl
          | some d =>
            have hs0 : findRank st.sortedDevs r = some d := by
              rw [hsync r, ht]
            obtain ⟨hdr, hdm⟩ := findRank_rank ht
            have hrmem : r ∈ ranksOf (hosts'.flatten ++
                st.tdevs.drop (st.tdevs.length / lws * lws)) := by
              rw [hr1', ← hranks, ← hdr]
              exact List.mem_map_of_mem _ hdm
            obtain ⟨d2, hd2⟩ := findRank_isSome hrmem
            rw [hs0, hd2]
            rfl
        · -- sorted view ranks stay a permutation of the range
          show List.Perm (ranksOf (refreshByRank _ st.sortedDevs)) _
          rw [refreshByRank_ranks]
          exact hsperm
        · -- nonnegativity: the new working devices
          intro x hx
          rw [htd2, List.mem_append, List.mem_append] at hx
          rcases hx with hxa | hxb | hxc
          · refine Or.inr (List.mem_append_left _ ?_)
            rw [htd, List.mem_append]
            exact Or.inl hxa
          · rcases hN x hxb with hnn | hmemx
            · exact Or.inl hnn
            · refine Or.inr (List.mem_append_left _ ?_)
              rw [htd, List.mem_append, List.mem_append]
              exact Or.inr (Or.inl hmemx)
          · refine Or.inr (List.mem_append_left _ ?_)
            rw [htd, List.mem_append, List.mem_append]
            exact Or.inr (Or.inr hxc)
        · -- nonnegativity: the refreshed sorted view
          intro x hx
          rcases refreshByRank_mem hx with hxin | hxold
          · -- from the new working devices
            rw [htd2, List.mem_append, List.mem_append] at hxin
            rcases hxin with hxa | hxb | hxc
            · refine Or.inr (List.mem_append_left _ ?_)
              rw [htd, List.mem_append]
              exact Or.inl hxa
            · rcases hN x hxb with hnn | hmemx
              · exact Or.inl hnn
              · refine Or.inr (List.mem_append_left _ ?_)
                rw [htd, List.mem_append, List.mem_append]
                exact Or.inr (Or.inl hmemx)
            · refine Or.inr (List.mem_append_left _ ?_)
              rw [htd, List.mem_append, List.mem_append]
              exact Or.inr (Or.inr hxc)
          · exact Or.inr (List.mem_append_right _ hxold)
    · by_cases hdev : so0.partition_by = PartitionByType.DEVICE
      · rw [if_neg hhost, if_pos hdev] at hstep
        by_cases hlen1 : ((i0, so0) :: gtail).length = 1
        · rw [if_pos hlen1] at hstep
          rcases hdp : GreedyPerfPartitioner._device_partition so0
              st.sortedDevs lws with ⟨res3, so', sortedDevs'⟩
          rw [hdp] at hstep
          rcases res3 with e3 | u3
          · dsimp only at hstep
            injection hstep with h1 _
            cases h1
          · dsimp only at hstep
            cases u3
            injection hstep with _ h2
            subst h2
            have hgtail : gtail = [] := by
              cases gtail with
              | nil => rfl
              | cons a b => simp at hlen1
            have hndsd : (ranksOf st.sortedDevs).Nodup :=
              hsperm.nodup_iff.2 (List.nodup_range n)
            have hdp1 : (GreedyPerfPartitioner._device_partition so0
                st.sortedDevs lws).1 = .ok () := by rw [hdp]
            obtain ⟨hDd, hNd⟩ := devicePartition_acct so0 st.sortedDevs lws
              hndsd hdp1
            rw [hdp] at hDd hNd
            obtain ⟨hpermd, _⟩ := devicePartition_ranks so0 st.sortedDevs lws
              hdp1
            rw [hdp] at hpermd
            have hSe : (([((i0 : Nat), so')].map
                (fun iso => iso.2.shards)).flatten) = so'.shards := by
              rw [List.map_cons, List.map_nil, List.flatten_cons,
                List.flatten_nil, List.append_nil]
            refine ⟨[(i0, so')], rfl, ?_, ?_, ?_, ?_, ?_, ?_, ?_⟩
            · rw [hgtail]
              rfl
            · rw [hSe]
              intro r
              rw [findRank_refresh]
              cases ht : findRank st.tdevs r with
              | none => rfl
              | some d =>
                have hs0 : findRank st.sortedDevs r = some d := by
                  rw [hsync r, ht]
                have hsd := hDd r
                rw [hs0] at hsd
                rw [hsd]
                rfl
            · show ranksOf (refreshByRank sortedDevs' st.tdevs) = _
              rw [refreshByRank_ranks]
              exact hranks
            · intro r
              rw [findRank_refresh]
              cases ht : findRank st.tdevs r with
              | none =>
                have hs0 : findRank st.sortedDevs r = none := by
                  rw [hsync r, ht]
                have hsd := hDd r
                rw [hs0] at hsd
                rw [hsd]
                rfl
              | some d =>
                have hs0 : findRank st.sortedDevs r = some d := by
                  rw [hsync r, ht]
                have hsd := hDd r
                rw [hs0] at hsd
                rw [hsd]
                rfl
            · show List.Perm (ranksOf sortedDevs') _
              exact hpermd.trans hsperm
            · intro x hx
              rcases refreshByRank_mem hx with hxin | hxold
              · rcases hNd x hxin with hnn | hmemx
                · exact Or.inl hnn
                · exact Or.inr (List.mem_append_right _ hmemx)
              · exact Or.inr (List.mem_append_left _ hxold)
            · intro x hx
              rcases hNd x hx with hnn | hmemx
              · exact Or.inl hnn
              · exact Or.inr (List.mem_append_right _ hmemx)
        · rw [if_neg hlen1] at hstep
          injection hstep with h1 _
          cases h1
      · rw [if_neg hhost, if_neg hdev] at hstep
        injection hstep with h1 _
        cases h1

theorem nnrel_comb {X Y1 Y2 Z : List DeviceHardware}
    (h1 : NNrel X Y1) (h2 : NNrel X Y2) (h3 : NNrel (Y1 ++ Y2) Z) :
    NNrel X Z := fun d hd =>
  (h3 d hd).elim Or.inl (fun hm => by
    rw [List.mem_append] at hm
    rcases hm with hm1 | hm2
    · exact h1 d hm1
    · exact h2 d hm2)

/-- Accounting across the whole dispatch pass: there is a combined write-back
list `W` (one mutated option per dispatched position) such that the final
proposal is the initial one overwritten at exactly those positions and the
working devices are charged by exactly the shards of `W`. -/
theorem dispatchGroups_acct (lws n : Nat) :
    ∀ (gs : List IdxGroup) (st stF : OrchState),
      dispatchGroups lws gs st = (.ok (), stF) →
      ranksOf st.tdevs = List.range n →
      (∀ r, findRank st.sortedDevs r = findRank st.tdevs r) →
      List.Perm (ranksOf st.sortedDevs) (List.range n) →
      (∀ g ∈ gs, (g.options.map Prod.fst).Nodup ∧
        ∀ j ∈ g.options.map Prod.fst, j < st.proposal.length) →
      List.Pairwise (fun g1 g2 => ∀ j, j ∈ g1.options.map Prod.fst →
        j ∉ g2.options.map Prod.fst) gs →
      ∃ W : List (Nat × ShardingOption),
        W.map Prod.fst = (gs.map (fun g => g.options.map Prod.fst)).flatten ∧
        DevUpd ((W.map (fun iso => iso.2.shards)).flatten) st.tdevs
          stF.tdevs ∧
        (∀ j, j ∉ W.map Prod.fst →
          stF.proposal.get? j = st.proposal.get? j) ∧
        (∀ j so, (j, so) ∈ W → stF.proposal.get? j = some so) ∧
        NNrel (st.tdevs ++ st.sortedDevs) stF.tdevs ∧
        NNrel (st.tdevs ++ st.sortedDevs) stF.sortedDevs
  | [], st, stF, hrun, hranks, hsync, hsperm, _, _ => by
    rw [dispatchGroups] at hrun
    injection hrun with _ h2
    subst h2
    refine ⟨[], rfl, devUpd_nil st.tdevs, fun j _ => rfl, ?_, ?_, ?_⟩
    · intro j so hmem
      cases hmem
    · exact fun d hd => Or.inr (List.mem_append_left _ hd)
    · exact fun d hd => Or.inr (List.mem_append_right _ hd)
  | g :: rest, st, stF, hrun, hranks, hsync, hsperm, hbnds, hpair => by
    rw [dispatchGroups] at hrun
    rcases hst : dispatchStep lws g st with ⟨res, st1⟩
    rw [hst] at hrun
    rcases res with e | u
    · dsimp only at hrun
      injection hrun with h1 _
      cases h1
    · dsimp only at hrun
      cases u
      obtain ⟨o, hprop1, hofst, hDo, hr1, hsync1, hsperm1, hNt1, hNs1⟩ :=
        dispatchStep_acct lws n g st st1 hst hranks
          (hbnds g (List.mem_cons_self g rest)).1
          (hbnds g (List.mem_cons_self g rest)).2 hsync hsperm
      rw [List.pairwise_cons] at hpair
      have hlen1 : st1.proposal.length = st.proposal.length := by
        rw [hprop1]
        exact updProposal_length o st.proposal
      have hbnds2 : ∀ g2 ∈ rest, (g2.options.map Prod.fst).Nodup ∧
          ∀ j ∈ g2.options.map Prod.fst, j < st1.proposal.length := by
        intro g2 hg2
        refine ⟨(hbnds g2 (List.mem_cons_of_mem g hg2)).1, ?_⟩
        intro j hj
        rw [hlen1]
        exact (hbnds g2 (List.mem_cons_of_mem g hg2)).2 j hj
      obtain ⟨W2, hWfst, hDW, hframe, hwrite, hNt2, hNs2⟩ :=
        dispatchGroups_acct lws n rest st1 stF hrun hr1 hsync1 hsperm1 hbnds2
          hpair.2
      refine ⟨o ++ W2, ?_, ?_, ?_, ?_, ?_, ?_⟩
      · rw [List.map_append, hofst, hWfst, List.map_cons, List.flatten_cons]
      · rw [List.map_append, List.flatten_append]
        exact devUpd_trans hDo hDW
      · intro j hj
        rw [List.map_append, List.mem_append] at hj
        push_neg at hj
        rw [hframe j hj.2, hprop1, updProposal_frame o st.proposal j hj.1]
      · intro j so hmem
        rw [List.mem_append] at hmem
        rcases hmem with hmo | hmW
        · have hjg : j ∈ g.options.map Prod.fst := by
            rw [← hofst]
            exact List.mem_map_of_mem Prod.fst hmo
          have hjbound : j < st.proposal.length :=
            (hbnds g (List.mem_cons_self g rest)).2 j hjg
          have hnd_o : (o.map Prod.fst).Nodup := by
            rw [hofst]
            exact (hbnds g (List.mem_cons_self g rest)).1
          have hw1 : st1.proposal.get? j = some so := by
            rw [hprop1]
            exact updProposal_write o st.proposal hnd_o j so hmo hjbound
          have hnotin : j ∉ W2.map Prod.fst := by
            rw [hWfst]
            intro hin
            rw [List.mem_flatten] at hin
            obtain ⟨l2, hl2, hjin⟩ := hin
            rw [List.mem_map] at hl2
            obtain ⟨g2, hg2, rfl⟩ := hl2
            exact hpair.1 g2 hg2 j hjg hjin
          rw [hframe j hnotin, hw1]
        · exact hwrite j so hmW
      · exact nnrel_comb hNt1 hNs1 hNt2
      · exact nnrel_comb hNt1 hNs1 hNs2

/-! ### Assembling the conservation statement -/

theorem storage_add_comm (a b : Storage) : a + b = b + a := by
  cases a with
  | mk ah ad =>
    cases b with
    | mk bh bd =>
      show (⟨ah + bh, ad + bd⟩ : Storage) = ⟨bh + ah, bd + ad⟩
      rw [Int.add_comm ah bh, Int.add_comm ad bd]

theorem perf_add_comm (a b : Perf) : a + b = b + a := by
  cases a with
  | mk at0 =>
    cases b with
    | mk bt =>
      show (⟨at0 + bt⟩ : Perf) = ⟨bt + at0⟩
      rw [Int.add_comm]

theorem shStorage_perm {l1 l2 : List Shard} (h : List.Perm l1 l2) :
    shStorage l1 = shStorage l2 := by
  show l1.foldl (fun acc s => acc + s.storage) ⟨0, 0⟩ =
    l2.foldl (fun acc s => acc + s.storage) ⟨0, 0⟩
  exact @List.Perm.foldl_eq _ _ (fun (acc : Storage) (s : Shard) =>
      acc + s.storage) _ _
    ⟨fun b a1 a2 => by
      rw [storage_add_assoc, storage_add_assoc,
        storage_add_comm a1.storage a2.storage]⟩ h ⟨0, 0⟩

theorem shPerf_perm {l1 l2 : List Shard} (h : List.Perm l1 l2) :
    shPerf l1 = shPerf l2 := by
  show l1.foldl (fun acc s => acc + s.perf) ⟨0⟩ =
    l2.foldl (fun acc s => acc + s.perf) ⟨0⟩
  exact @List.Perm.foldl_eq _ _ (fun (acc : Perf) (s : Shard) =>
      acc + s.perf) _ _
    ⟨fun b a1 a2 => by
      rw [perf_add_assoc, perf_add_assoc, perf_add_comm a1.perf a2.perf]⟩ h ⟨0⟩

/-- A write-back list whose positions are exactly the proposal's positions
and whose entries agree with the final proposal is a permutation of the
final proposal's enumeration. -/
theorem perm_enum_of (q : List ShardingOption)
    (U : List (Nat × ShardingOption))
    (hfst : List.Perm (U.map Prod.fst) (List.range q.length))
    (hget : ∀ j so, (j, so) ∈ U → q.get? j = some so) :
    List.Perm U q.enum := by
  have hndU : U.Nodup :=
    List.Nodup.of_map Prod.fst (hfst.nodup_iff.2 (List.nodup_range _))
  have hsub : U ⊆ q.enum := by
    intro x hx
    exact List.mem_enum_iff_get?.2 (hget x.1 x.2 hx)
  have hlenU : U.length = q.length := by
    have h1 := hfst.length_eq
    rwa [List.length_map, List.length_range] at h1
  have hlenE : q.enum.length = q.length := by
    have h2 := congrArg List.length (List.enum_map_fst q)
    rwa [List.length_map, List.length_range] at h2
  exact (hndU.subperm hsub).perm_of_length_le (by omega)

/-- On a range-ranked device list, lookup by rank is positional lookup. -/
theorem findRank_range (D : List DeviceHardware) (n : Nat)
    (h : ranksOf D = List.range n) (i : Nat) (hi : i < n) :
    findRank D i = D.get? i := by
  have hlen : D.length = n := by
    have h1 := congrArg List.length h
    rwa [ranksOf, List.length_map, List.length_range] at h1
  have hilt : i < D.length := by omega
  have hrank : (D.get ⟨i, hilt⟩).rank = i := by
    have h2 := congrArg (fun l => l.get? i) h
    dsimp only at h2
    rw [ranksOf, List.get?_map, List.get?_eq_get hilt,
      List.get?_range hi] at h2
    have h3 : some ((D.get ⟨i, hilt⟩).rank) = some i := h2
    injection h3
  have hnd : (ranksOf D).Nodup := by
    rw [h]
    exact List.nodup_range n
  have h4 := findRank_unique D hnd (D.get ⟨i, hilt⟩) (List.get_mem D i hilt)
  rw [hrank] at h4
  rw [List.get?_eq_get hilt]
  exact h4

/-- The dispatched groups' member lists concatenate to a permutation of the
non-uniform options. -/
theorem groupOptions_flatten_perm (l : List (Nat × ShardingOption)) :
    List.Perm (((groupNonUniformIdx l).map (fun g => g.options)).flatten)
      (nonUniformOf l) := by
  have hacc := buildGroups_spec l [] [] goodAcc_nil
  rw [List.nil_append] at hacc
  have hperm := hacc.2.2.2.2
  refine List.Perm.trans ?_ hperm
  apply List.Perm.flatten
  have h1 : List.Perm (pySort groupDescLe ((buildGroups l []).map Prod.snd))
      ((buildGroups l []).map Prod.snd) := pySort_perm _ _
  have h2 := h1.map (fun g : IdxGroup => g.options)
  rw [List.map_map] at h2
  exact h2

/-- **C1** (bookkeeping conservation): after a successful
`GreedyPerfPartitioner.partition` call on a well-formed topology, the working
topology is returned, its devices are the caller's devices position by
position (same ranks), and each device's final storage is its initial
storage minus the summed footprints of exactly the shards the returned
proposal assigns to its rank — including shards committed through the
co-host trial-copy-back path — while its final perf is its initial perf plus
the summed contributions of those shards; when every initial capacity is
nonnegative, so is every final remaining capacity (each last placement
checked the fit). -/
theorem c1_conservation (p : List ShardingOption) (t : Topology)
    (hwf : TopologyWF t)
    (hok : (GreedyPerfPartitioner.partition p t).result = .ok ()) :
    ∃ t', (GreedyPerfPartitioner.partition p t).internalTopology = some t' ∧
      t'.devices.length = t.devices.length ∧
      (∀ i (hi : i < t.devices.length) (hi2 : i < t'.devices.length),
        (t'.devices.get ⟨i, hi2⟩).rank = (t.devices.get ⟨i, hi⟩).rank ∧
        (t'.devices.get ⟨i, hi2⟩).storage =
          (t.devices.get ⟨i, hi⟩).storage -
            assignedStorage ((GreedyPerfPartitioner.partition p t).proposal)
              ((t.devices.get ⟨i, hi⟩).rank) ∧
        (t'.devices.get ⟨i, hi2⟩).perf =
          (t.devices.get ⟨i, hi⟩).perf +
            assignedPerf ((GreedyPerfPartitioner.partition p t).proposal)
              ((t.devices.get ⟨i, hi⟩).rank)) ∧
      ((∀ d ∈ t.devices, d.storage.nonneg) →
        ∀ d ∈ t'.devices, d.storage.nonneg) := by
  rcases hpg : uniformPassGo (p.enum.filter
      (fun iso => decide (iso.2.partition_by = PartitionByType.UNIFORM)))
      t.devices with ⟨res, usos, devs⟩
  rcases res with e | u
  · exfalso
    have hcore : (GreedyPerfPartitioner.partitionCore p t).1 = .error e := by
      unfold GreedyPerfPartitioner.partitionCore
      dsimp only
      rw [hpg]
    have hcon : (Except.error e : Except PErr Unit) = .ok () := by
      rw [← hcore]
      exact hok
    cases hcon
  · cases u
    rcases hdg : dispatchGroups t.local_world_size
        (groupNonUniformIdx (updProposal p usos).enum)
        ⟨updProposal p usos, devs, devs⟩ with ⟨res2, stF⟩
    rcases res2 with e2 | u2
    · exfalso
      have hcore : (GreedyPerfPartitioner.partitionCore p t).1 = .error e2 := by
        unfold GreedyPerfPartitioner.partitionCore
        dsimp only
        rw [hpg]
        dsimp only
        rw [hdg]
      have hcon : (Except.error e2 : Except PErr Unit) = .ok () := by
        rw [← hcore]
        exact hok
      cases hcon
    · cases u2
      have hprop : (GreedyPerfPartitioner.partition p t).proposal =
          stF.proposal := by
        show (GreedyPerfPartitioner.partitionCore p t).2.1 = stF.proposal
        unfold GreedyPerfPartitioner.partitionCore
        dsimp only
        rw [hpg]
        dsimp only
        rw [hdg]
      have hintern : (GreedyPerfPartitioner.partition p t).internalTopology =
          some ⟨stF.tdevs, t.local_world_size⟩ := by
        show (GreedyPerfPartitioner.partitionCore p t).2.2 = _
        unfold GreedyPerfPartitioner.partitionCore
        dsimp only
        rw [hpg]
        dsimp only
        rw [hdg]
      have hu1 : (uniformPassGo (p.enum.filter
          (fun iso => decide (iso.2.partition_by = PartitionByType.UNIFORM)))
          t.devices).1 = .ok () := by
        rw [hpg]
      have hr0 : ranksOf devs = List.range t.devices.length := by
        have hup := uniformPassGo_ranks _ _ hu1
        rw [hpg] at hup
        rw [hup]
        exact hwf.1
      have hnd0 : (ranksOf t.devices).Nodup := by
        rw [show ranksOf t.devices = List.range t.devices.length from hwf.1]
        exact List.nodup_range _
      obtain ⟨hDu, hNu⟩ := uniformPassGo_acct _ t.devices hnd0 hu1
      rw [hpg] at hDu hNu
      dsimp only at hDu hNu
      have hbnds : ∀ g ∈ groupNonUniformIdx (updProposal p usos).enum,
          (g.options.map Prod.fst).Nodup ∧
          ∀ j ∈ g.options.map Prod.fst,
            j < (updProposal p usos).length :=
        fun g hg => group_tags_nodup_bound (updProposal p usos) g hg
      obtain ⟨W, hWfst, hDW, hframe, hwrite, hNt, _⟩ :=
        dispatchGroups_acct t.local_world_size t.devices.length
          (groupNonUniformIdx (updProposal p usos).enum)
          ⟨updProposal p usos, devs, devs⟩ stF hdg hr0 (fun r => rfl)
          (by rw [show ranksOf devs = List.range t.devices.length from hr0])
          hbnds (groupNonUniformIdx_disjoint (updProposal p usos))
      obtain ⟨HR1, HL2, _, _⟩ := dispatchGroups_ok_spec t.local_world_size
        t.devices.length (groupNonUniformIdx (updProposal p usos).enum)
        ⟨updProposal p usos, devs, devs⟩ stF hdg hr0 hbnds
        (groupNonUniformIdx_disjoint (updProposal p usos))
      have husosfst : usos.map Prod.fst = (p.enum.filter (fun iso =>
          decide (iso.2.partition_by = PartitionByType.UNIFORM))).map
          Prod.fst := by
        have h := uniformPassGo_fst (p.enum.filter (fun iso =>
          decide (iso.2.partition_by = PartitionByType.UNIFORM))) t.devices
        rw [hpg] at h
        exact h
      have hsubuni : ((p.enum.filter (fun iso =>
          decide (iso.2.partition_by = PartitionByType.UNIFORM))).map
          Prod.fst).Sublist (List.range p.length) := by
        have hs : ((p.enum.filter (fun iso =>
            decide (iso.2.partition_by = PartitionByType.UNIFORM))).map
            Prod.fst).Sublist (p.enum.map Prod.fst) :=
          List.Sublist.map Prod.fst (List.filter_sublist p.enum)
        rwa [List.enum_map_fst] at hs
      have hnd_uni : (usos.map Prod.fst).Nodup := by
        rw [husosfst]
        exact List.Nodup.sublist hsubuni (List.nodup_range _)
      have hbnd_uni : ∀ j ∈ usos.map Prod.fst, j < p.length := by
        rw [husosfst]
        intro j hj
        exact List.mem_range.1 (hsubuni.subset hj)
      have hq1len : (updProposal p usos).length = p.length :=
        updProposal_length usos p
      have hopte : List.Forall₂ OptEq usos (p.enum.filter (fun iso =>
          decide (iso.2.partition_by = PartitionByType.UNIFORM))) := by
        have h := uniformPassGo_optEq (p.enum.filter (fun iso =>
          decide (iso.2.partition_by = PartitionByType.UNIFORM))) t.devices
        rw [hpg] at h
        exact h
      have husosuni : ∀ j so1, (j, so1) ∈ usos →
          so1.partition_by = PartitionByType.UNIFORM := by
        intro j so1 hmem
        obtain ⟨so0, hso0, hf⟩ := forall₂_optEq_lookup_rev hopte j so1 hmem
        have hso0u := List.mem_filter.1 hso0
        rw [decide_eq_true_eq] at hso0u
        rw [hf.2.2.2.1]
        exact hso0u.2
      have hq1get : ∀ j so1, (j, so1) ∈ usos →
          (updProposal p usos).get? j = some so1 := by
        intro j so1 hmem
        exact updProposal_write usos p hnd_uni j so1 hmem
          (hbnd_uni j (List.mem_map_of_mem Prod.fst hmem))
      have hWnu : List.Perm (W.map Prod.fst)
          ((nonUniformOf (updProposal p usos).enum).map Prod.fst) := by
        rw [hWfst]
        rw [show (groupNonUniformIdx (updProposal p usos).enum).map
            (fun g => g.options.map Prod.fst) =
            ((groupNonUniformIdx (updProposal p usos).enum).map
              (fun g => g.options)).map (List.map Prod.fst) from
          (List.map_map _ _ _).symm]
        rw [← List.map_flatten]
        exact (groupOptions_flatten_perm _).map Prod.fst
      have hdisjUW : ∀ j ∈ usos.map Prod.fst, j ∉ W.map Prod.fst := by
        intro j hjU hjW
        rw [List.mem_map] at hjU
        obtain ⟨isoU, hisoU, hj1⟩ := hjU
        have hmemU : (j, isoU.2) ∈ usos := by
          have he : isoU = (j, isoU.2) := by rw [← hj1]
          exact he ▸ hisoU
        have htagU := husosuni j isoU.2 hmemU
        have hq1j := hq1get j isoU.2 hmemU
        have hjnu : j ∈ (nonUniformOf (updProposal p usos).enum).map
            Prod.fst := (hWnu.mem_iff).1 hjW
        rw [List.mem_map] at hjnu
        obtain ⟨isoN, hisoN, hj2⟩ := hjnu
        have hmemN : (j, isoN.2) ∈ nonUniformOf (updProposal p usos).enum := by
          have he : isoN = (j, isoN.2) := by rw [← hj2]
          exact he ▸ hisoN
        have hN2 := List.mem_filter.1 hmemN
        have hq1j2 : (updProposal p usos).get? j = some isoN.2 :=
          List.mem_enum_iff_get?.1 hN2.1
        rw [hq1j] at hq1j2
        have heq : isoU.2 = isoN.2 := Option.some.inj hq1j2
        have hnu := hN2.2
        have hfalse : isUniform (j, isoN.2) = false := by
          cases hb : isUniform (j, isoN.2) with
          | false => rfl
          | true =>
            rw [hb] at hnu
            exact absurd hnu (by decide)
        rw [isUniform] at hfalse
        dsimp only at hfalse
        rw [decide_eq_false_iff_not] at hfalse
        rw [← heq] at hfalse
        exact hfalse htagU
      have hcover : ∀ j, j < p.length →
          j ∈ usos.map Prod.fst ∨ j ∈ W.map Prod.fst := by
        intro j hj
        have hjq1 : j < (updProposal p usos).length := by
          rw [hq1len]
          exact hj
        obtain ⟨soj, hsoj⟩ : ∃ soj,
            (updProposal p usos).get? j = some soj :=
          ⟨_, List.get?_eq_get hjq1⟩
        by_cases htag : soj.partition_by = PartitionByType.UNIFORM
        · left
          by_cases hjU : j ∈ usos.map Prod.fst
          · exact hjU
          · exfalso
            have hfr := updProposal_frame usos p j hjU
            rw [hsoj] at hfr
            have hpe : (j, soj) ∈ p.enum := List.mem_enum_iff_get?.2 hfr.symm
            have hfu : (j, soj) ∈ p.enum.filter (fun iso =>
                decide (iso.2.partition_by = PartitionByType.UNIFORM)) :=
              List.mem_filter.2 ⟨hpe, by
                rw [decide_eq_true_eq]
                exact htag⟩
            apply hjU
            rw [husosfst]
            exact List.mem_map_of_mem Prod.fst hfu
        · right
          have hnu : (j, soj) ∈ nonUniformOf (updProposal p usos).enum := by
            rw [nonUniformOf, List.mem_filter]
            refine ⟨List.mem_enum_iff_get?.2 hsoj, ?_⟩
            rw [isUniform]
            dsimp only
            rw [decide_eq_false htag]
            rfl
          refine (hWnu.mem_iff).2 ?_
          exact List.mem_map_of_mem Prod.fst hnu
      have hUget : ∀ j so, (j, so) ∈ usos ++ W →
          stF.proposal.get? j = some so := by
        intro j so hmem
        rw [List.mem_append] at hmem
        rcases hmem with hmU | hmW
        · have hjU : j ∈ usos.map Prod.fst :=
            List.mem_map_of_mem Prod.fst hmU
          have hnin : j ∉ W.map Prod.fst := hdisjUW j hjU
          rw [hframe j hnin]
          exact hq1get j so hmU
        · exact hwrite j so hmW
      have hlenF : stF.proposal.length = p.length := by
        rw [HL2]
        exact hq1len
      have hUfst : List.Perm ((usos ++ W).map Prod.fst)
          (List.range stF.proposal.length) := by
        rw [List.map_append, hlenF]
        have hndW : (W.map Prod.fst).Nodup := by
          refine (hWnu.nodup_iff).2 ?_
          have hs : ((nonUniformOf (updProposal p usos).enum).map
              Prod.fst).Sublist (List.range (updProposal p usos).length) := by
            have h1 : ((nonUniformOf (updProposal p usos).enum).map
                Prod.fst).Sublist ((updProposal p usos).enum.map Prod.fst) :=
              List.Sublist.map Prod.fst
                (List.filter_sublist (updProposal p usos).enum)
            rwa [List.enum_map_fst] at h1
          exact List.Nodup.sublist hs (List.nodup_range _)
        have hndUW : (usos.map Prod.fst ++ W.map Prod.fst).Nodup := by
          rw [List.nodup_append]
          exact ⟨hnd_uni, hndW, fun {a} hja hjb => hdisjUW a hja hjb⟩
        have hsubUW : usos.map Prod.fst ++ W.map Prod.fst ⊆
            List.range p.length := by
          intro j hj
          rw [List.mem_append] at hj
          rw [List.mem_range]
          rcases hj with hj1 | hj2
          · exact hbnd_uni j hj1
          · have hj3 := (hWnu.mem_iff).1 hj2
            rw [List.mem_map] at hj3
            obtain ⟨isoN, hisoN, hj4⟩ := hj3
            have hN2 := List.mem_filter.1 hisoN
            have hfst : isoN.1 ∈ List.range
                (updProposal p usos).length := by
              rw [← List.enum_map_fst]
              exact List.mem_map_of_mem Prod.fst hN2.1
            rw [List.mem_range, hq1len] at hfst
            rw [← hj4]
            exact hfst
        have hsubR : List.range p.length ⊆
            usos.map Prod.fst ++ W.map Prod.fst := by
          intro j hj
          rw [List.mem_range] at hj
          rw [List.mem_append]
          exact hcover j hj
        exact List.Subperm.antisymm (hndUW.subperm hsubUW)
          ((List.nodup_range _).subperm hsubR)
      have hUq : List.Perm (usos ++ W) stF.proposal.enum :=
        perm_enum_of stF.proposal (usos ++ W) hUfst hUget
      have hDtot := devUpd_trans hDu hDW
      have hDtot2 : DevUpd (((usos ++ W).map
          (fun iso => iso.2.shards)).flatten) t.devices stF.tdevs := by
        rw [show (((usos ++ W).map (fun iso => iso.2.shards)).flatten) =
            ((usos.map (fun iso => iso.2.shards)).flatten ++
             ((W.map (fun iso => iso.2.shards)).flatten)) from by
          rw [List.map_append, List.flatten_append]]
        exact hDtot
      have hSperm : List.Perm
          (((usos ++ W).map (fun iso => iso.2.shards)).flatten)
          ((stF.proposal.map ShardingOption.shards).flatten) := by
        have h1 := (hUq.map (fun iso : Nat × ShardingOption =>
          iso.2.shards)).flatten
        have h2 : stF.proposal.enum.map (fun iso : Nat × ShardingOption =>
            iso.2.shards) = stF.proposal.map ShardingOption.shards := by
          rw [show stF.proposal.enum.map (fun iso : Nat × ShardingOption =>
              iso.2.shards) = (stF.proposal.enum.map Prod.snd).map
              ShardingOption.shards from (List.map_map _ _ _).symm,
            List.enum_map_snd]
        rw [h2] at h1
        exact h1
      have hlenT : stF.tdevs.length = t.devices.length := by
        have h1 := congrArg List.length HR1
        rwa [ranksOf, List.length_map, List.length_range] at h1
      refine ⟨⟨stF.tdevs, t.local_world_size⟩, hintern, hlenT, ?_, ?_⟩
      · intro i hi hi2
        have hfr0 : findRank t.devices i = t.devices.get? i :=
          findRank_range t.devices t.devices.length hwf.1 i hi
        have hfrF : findRank stF.tdevs i = stF.tdevs.get? i :=
          findRank_range stF.tdevs t.devices.length HR1 i hi
        have hupd := hDtot2 i
        rw [hfr0, hfrF, List.get?_eq_get hi, List.get?_eq_get hi2] at hupd
        have hd1 : stF.tdevs.get ⟨i, hi2⟩ =
            chargeShards (t.devices.get ⟨i, hi⟩)
              (atRank i (((usos ++ W).map
                (fun iso => iso.2.shards)).flatten)) :=
          Option.some.inj hupd
        have hrank0 : (t.devices.get ⟨i, hi⟩).rank = i := by
          have h2 := congrArg (fun l => l.get? i) hwf.1
          dsimp only at h2
          rw [List.get?_map, List.get?_eq_get hi, List.get?_range hi] at h2
          have h3 : some ((t.devices.get ⟨i, hi⟩).rank) = some i := h2
          injection h3
        have hall : ∀ s ∈ atRank i (((usos ++ W).map
            (fun iso => iso.2.shards)).flatten),
            s.rank = some ((t.devices.get ⟨i, hi⟩).rank) := by
          intro s hs
          have hs2 := List.mem_filter.1 hs
          rw [decide_eq_true_eq] at hs2
          rw [hrank0]
          exact hs2.2
        rw [chargeShards_at _ _ hall] at hd1
        have hsum1 : shStorage (atRank i (((usos ++ W).map
            (fun iso => iso.2.shards)).flatten)) =
            assignedStorage stF.proposal i :=
          shStorage_perm (List.Perm.filter _ hSperm)
        have hsum2 : shPerf (atRank i (((usos ++ W).map
            (fun iso => iso.2.shards)).flatten)) =
            assignedPerf stF.proposal i :=
          shPerf_perm (List.Perm.filter _ hSperm)
        rw [hprop]
        refine ⟨?_, ?_, ?_⟩
        · rw [hd1]
        · rw [hd1, hrank0, ← hsum1]
        · rw [hd1, hrank0, ← hsum2]
      · intro hnn d hd
        have hNall : NNrel t.devices stF.tdevs := nnrel_comb hNu hNu hNt
        rcases hNall d hd with h1 | h2
        · exact h1
        · exact hnn d h2

/-- **C1** witness: one device with capacity `(10, 10)` and one
device-scoped unit with a single shard of footprint `(2, 1)` and cost `3`. -/
theorem c1_conservation_witness :
    TopologyWF (⟨[⟨0, ⟨10, 10⟩, ⟨0⟩⟩], 1⟩ : Topology) ∧
    (GreedyPerfPartitioner.partition
      [⟨"tbl", "m", none, PartitionByType.DEVICE,
        ShardingType.TABLE_COLUMN_WISE, [⟨⟨2, 1⟩, ⟨3⟩, none⟩]⟩]
      (⟨[⟨0, ⟨10, 10⟩, ⟨0⟩⟩], 1⟩ : Topology)).result = .ok () ∧
    ∃ t', (GreedyPerfPartitioner.partition
      [⟨"tbl", "m", none, PartitionByType.DEVICE,
        ShardingType.TABLE_COLUMN_WISE, [⟨⟨2, 1⟩, ⟨3⟩, none⟩]⟩]
      (⟨[⟨0, ⟨10, 10⟩, ⟨0⟩⟩], 1⟩ : Topology)).internalTopology = some t' ∧
      t'.devices.length =
        (⟨[⟨0, ⟨10, 10⟩, ⟨0⟩⟩], 1⟩ : Topology).devices.length :=
  ⟨by decide, by decide, by
    obtain ⟨t', h1, h2, _⟩ := c1_conservation
      [⟨"tbl", "m", none, PartitionByType.DEVICE,
        ShardingType.TABLE_COLUMN_WISE, [⟨⟨2, 1⟩, ⟨3⟩, none⟩]⟩]
      (⟨[⟨0, ⟨10, 10⟩, ⟨0⟩⟩], 1⟩ : Topology) (by decide) (by decide)
    exact ⟨t', h1, h2⟩⟩

/-- **C5** witness: a trivial search (zero iterations) over an empty proposal;
the returned plan is the baseline and satisfies the bound. -/
theorem c5_tolerance_bound_witness :
    (((fun _ : List ShardingOption => (0 : Int)) [] : Int) : ℚ) ≤
      (((fun _ : List ShardingOption => (0 : Int))
        (GreedyPerfPartitioner.partition [] ⟨[], 1⟩).proposal : Int) : ℚ) * (1 + 0) :=
  c5_tolerance_bound 0 0 (fun _ => (0 : Int)) [] ⟨[], 1⟩ [] (le_refl 0) (by decide)
    (by rfl)

end Torchrec
